import Mathlib

/-!
# Pixel file pipeline: parse, flip, load

A shallow embedding of `src/pixel.h` and `src/main.cpp`.

* `std::string` is a `List Char`, one `Char` standing for one byte.
* `int` is a 32-bit two's complement integer: values are `Int`s between `INT_MIN` and
  `INT_MAX`, and the result of an arithmetic operation is reduced by `wrap32` (signed
  overflow, which C++ leaves undefined, wraps around).
* `float` is an IEEE-754 binary32 value, `Float32`.
* A function that can throw returns `Except`; a function with an out-parameter takes the old
  value and returns the new one.
* The read loop of `main` runs on fuel; `load` gives it more fuel than the input has
  characters, which is shown to be enough.
* `std::stoi`, `std::stof`, `std::string::find`, `std::string::substr` and `std::getline`
  are library functions; they are written here as the C and C++ standards describe them.
-/

set_option autoImplicit false

namespace PixelFlip

/-! ## Data model (`pixel.h`) -/

/-- An IEEE-754 binary32 value. `finite neg mant exp` is `(-1)^neg * mant * 2^exp` with
`mant < 2^24` and `-149 ≤ exp ≤ 104`; a normal number has `2^23 ≤ mant`, a subnormal number
or a zero has `exp = -149`. -/
inductive Float32 where
  | finite (neg : Bool) (mant : Nat) (exp : Int)
  | inf (neg : Bool)
  | nan
  deriving DecidableEq, Repr

/-- The value `+0.0f`. -/
def Float32.zero : Float32 := Float32.finite false 0 (-149)

/-- The record `struct _pixel` of `pixel.h`, with its fields in declaration order. -/
structure Pixel where
  r : Float32
  g : Float32
  b : Float32
  x : Int
  y : Int
  deriving DecidableEq, Repr

/-- Smallest value of `int`. -/
def INT_MIN : Int := -2147483648

/-- Largest value of `int`. -/
def INT_MAX : Int := 2147483647

/-- Reduction of a mathematical integer to the 32-bit two's complement value an `int`
holds. -/
def wrap32 (i : Int) : Int := (i + 2147483648) % 4294967296 - 2147483648

/-- The expression `a - b` on two `int`s. -/
def int_sub (a b : Int) : Int := wrap32 (a - b)

/-! ## Library functions used by the parser

The exceptions of `<stdexcept>` that `std::stoi`, `std::stof` and `std::string::substr` throw,
and these functions as the C and C++ standards describe them. -/

/-- The exceptions thrown by the string functions. -/
inductive Exn where
  | invalid_argument
  | out_of_range
  deriving DecidableEq, Repr

deriving instance DecidableEq for Except

/-- Search of `std::string::find`: `i` is the index of the head of the list. -/
def find_from (ch : Char) : List Char → Nat → Option Nat
  | [], _ => none
  | c :: cs, i => if c = ch then some i else find_from ch cs (i + 1)

/-- The call `s.find(ch, pos)`: the least index `i ≥ pos` with `s[i] = ch`; `none` is
`std::string::npos`. -/
def find (s : List Char) (ch : Char) (pos : Nat) : Option Nat :=
  find_from ch (s.drop pos) pos

/-- The call `s.substr(pos, n)`: throws `out_of_range` when `pos > s.size()`, else gives at
most `n` characters from `pos` on. -/
def substr (s : List Char) (pos n : Nat) : Except Exn (List Char) :=
  if pos > s.length then .error .out_of_range else .ok ((s.drop pos).take n)

/-- The call `s.substr(pos)`, up to the end of the string. -/
def substr_to_end (s : List Char) (pos : Nat) : Except Exn (List Char) :=
  if pos > s.length then .error .out_of_range else .ok (s.drop pos)

/-- The function `isspace` in the "C" locale. -/
def isspace (c : Char) : Bool :=
  c = ' ' || c = '\t' || c = '\n' || c = '\x0b' || c = '\x0c' || c = '\r'

/-- The function `isdigit`. -/
def isdigit (c : Char) : Bool := 48 ≤ c.toNat && c.toNat ≤ 57

/-- The function `isxdigit`. -/
def isxdigit (c : Char) : Bool :=
  isdigit c || (97 ≤ c.toNat && c.toNat ≤ 102) || (65 ≤ c.toNat && c.toNat ≤ 70)

/-- Value of one digit in a base up to 16. -/
def digit_value (c : Char) : Nat :=
  if isdigit c then c.toNat - 48
  else if 97 ≤ c.toNat then c.toNat - 87
  else c.toNat - 55

/-- Value of a digit sequence in base `base`. -/
def digits_value (base : Nat) (ds : List Char) : Nat :=
  ds.foldl (fun n c => base * n + digit_value c) 0

/-- An optional sign at the head of the string: whether it is a minus, and what follows. -/
def take_sign (s : List Char) : Bool × List Char :=
  match s with
  | [] => (false, [])
  | c :: t => if c = '-' then (true, t) else if c = '+' then (false, t) else (false, c :: t)

/-- The call `std::stoi(str)` (base 10, no position argument): `strtol` skips white space,
takes an optional sign and the longest run of decimal digits, and ignores what follows;
`invalid_argument` when there is no digit, `out_of_range` when the value is no `int`. -/
def stoi (str : List Char) : Except Exn Int :=
  let signed := take_sign (str.dropWhile isspace)
  let ds := signed.2.takeWhile isdigit
  if ds = [] then .error .invalid_argument
  else
    let v : Int := if signed.1 then -(digits_value 10 ds : Int) else (digits_value 10 ds : Int)
    if v < INT_MIN ∨ INT_MAX < v then .error .out_of_range else .ok v

/-- Whether a conversion by `strtof` stayed in range, overflowed or underflowed. -/
inductive RangeStatus where
  | ok
  | overflow
  | underflow
  deriving DecidableEq, Repr

/-- The fraction `num / den` divided by `2^q`, as a numerator and a denominator. -/
def scale2 (num den : Nat) (q : Int) : Nat × Nat :=
  if 0 ≤ q then (num, den * 2 ^ q.toNat) else (num * 2 ^ (-q).toNat, den)

/-- The integer nearest to `num / den`, a tie going to the even one (the default rounding
direction). -/
def round_half_even (num den : Nat) : Nat :=
  let q := num / den
  let r := num % den
  if 2 * r < den then q
  else if den < 2 * r then q + 1
  else if q % 2 = 0 then q else q + 1

/-- Halving loop of `bit_log2`, run for at most `fuel` steps. -/
def bit_log2_loop : Nat → Nat → Nat
  | 0, _ => 0
  | fuel + 1, n => if n < 2 then 0 else bit_log2_loop fuel (n / 2) + 1

/-- The position of the highest set bit of `n`. -/
def bit_log2 (n : Nat) : Nat := bit_log2_loop n n

/-- The exponent `e` with `2^e ≤ num / den < 2^(e+1)`, for positive `num` and `den`. -/
def floor_log2 (num den : Nat) : Int :=
  let e0 : Int := (bit_log2 num : Int) - (bit_log2 den : Int)
  let sc := scale2 num den e0
  if sc.1 < sc.2 then e0 - 1 else e0

/-- Conversion of the exact value `(-1)^neg * num / den` to binary32, rounding to nearest:
a value of magnitude at least `2^128 - 2^103` overflows to an infinity; a non-zero value
below `2^-126` that is not representable underflows (tininess is detected before
rounding). -/
def round_float32 (neg : Bool) (num den : Nat) : Float32 × RangeStatus :=
  if num = 0 then (Float32.finite neg 0 (-149), RangeStatus.ok)
  else if (2 ^ 128 - 2 ^ 103) * den ≤ num then (Float32.inf neg, RangeStatus.overflow)
  else
    let q : Int := max (floor_log2 num den - 23) (-149)
    let sc := scale2 num den q
    let m := round_half_even sc.1 sc.2
    let v := if m = 2 ^ 24 then Float32.finite neg (2 ^ 23) (q + 1) else Float32.finite neg m q
    if num * 2 ^ 126 < den ∧ sc.1 % sc.2 ≠ 0 then (v, RangeStatus.underflow)
    else (v, RangeStatus.ok)

/-- The value `m * base^e` as a numerator and a denominator. -/
def scale_pow (base m : Nat) (e : Int) : Nat × Nat :=
  if 0 ≤ e then (m * base ^ e.toNat, 1) else (m, base ^ (-e).toNat)

/-- The function `tolower` on one character. -/
def tolower (c : Char) : Char :=
  if 65 ≤ c.toNat ∧ c.toNat ≤ 90 then Char.ofNat (c.toNat + 32) else c

/-- Whether `s` starts with the lower-case word `word`, letter case ignored. -/
def starts_with_ci (word s : List Char) : Bool :=
  (s.take word.length).map tolower == word

/-- The digits before and after an optional radix point, and what follows them. -/
def scan_mantissa (isd : Char → Bool) (s : List Char) : List Char × List Char × List Char :=
  match s.dropWhile isd with
  | [] => (s.takeWhile isd, [], [])
  | c :: t =>
    if c = '.' then (s.takeWhile isd, t.takeWhile isd, t.dropWhile isd)
    else (s.takeWhile isd, [], c :: t)

/-- The value of an optional exponent part: the letter `e1` or `e2`, an optional sign and at
least one decimal digit; `0` when there is no such part. -/
def scan_exponent (e1 e2 : Char) (s : List Char) : Int :=
  match s with
  | [] => 0
  | c :: t =>
    if c = e1 ∨ c = e2 then
      let signed := take_sign t
      let ds := signed.2.takeWhile isdigit
      if ds = [] then 0
      else if signed.1 then -(digits_value 10 ds : Int) else (digits_value 10 ds : Int)
    else 0

/-- A hexadecimal mantissa after the prefix `0x` or `0X`, when the string has one with at
least one hexadecimal digit. -/
def scan_hex (s : List Char) : Option (List Char × List Char × List Char) :=
  match s with
  | z :: x :: t =>
    if z = '0' ∧ (x = 'x' ∨ x = 'X') then
      let m := scan_mantissa isxdigit t
      if m.1 ++ m.2.1 = [] then none else some m
    else none
  | _ => none

/-- The function `strtof` with no end pointer: white space is skipped, then an optional sign
and the longest prefix that is an infinity, a NaN, a hexadecimal or a decimal floating
number is converted, and what follows is ignored. `none` when no conversion is possible. -/
def strtof (str : List Char) : Option (Float32 × RangeStatus) :=
  let signed := take_sign (str.dropWhile isspace)
  let neg := signed.1
  let s := signed.2
  if starts_with_ci ['i', 'n', 'f'] s then some (Float32.inf neg, RangeStatus.ok)
  else if starts_with_ci ['n', 'a', 'n'] s then some (Float32.nan, RangeStatus.ok)
  else
    match scan_hex s with
    | some (ip, fp, rest) =>
      let v := scale_pow 2 (digits_value 16 (ip ++ fp))
        (scan_exponent 'p' 'P' rest - 4 * (fp.length : Int))
      some (round_float32 neg v.1 v.2)
    | none =>
      let m := scan_mantissa isdigit s
      if m.1 ++ m.2.1 = [] then none
      else
        let v := scale_pow 10 (digits_value 10 (m.1 ++ m.2.1))
          (scan_exponent 'e' 'E' m.2.2 - (m.2.1.length : Int))
        some (round_float32 neg v.1 v.2)

/-- The call `std::stof(str)`: `invalid_argument` when `strtof` converts nothing,
`out_of_range` when it sets `ERANGE`. It does so on overflow; whether it does on underflow
is implementation-defined and is the parameter `erange_on_underflow`. -/
def stof (erange_on_underflow : Bool) (str : List Char) : Except Exn Float32 :=
  match strtof str with
  | none => .error .invalid_argument
  | some (v, RangeStatus.ok) => .ok v
  | some (_, RangeStatus.overflow) => .error .out_of_range
  | some (v, RangeStatus.underflow) =>
    if erange_on_underflow then .error .out_of_range else .ok v

/-! ## Line parser (`parse_pixel_line`) -/

/-- The `try` block of `parse_pixel_line`: the five conversions are assigned to the fields of
`out` in turn, and the first one that throws ends the block with `false`. The result is the
returned flag and the value of `out` after the call. -/
def convert_fields (uf : Bool) (sx sy sr sg sb : List Char) (out : Pixel) : Bool × Pixel :=
  match stoi sx with
  | .error _ => (false, out)
  | .ok x =>
    let out := { out with x := x }
    match stoi sy with
    | .error _ => (false, out)
    | .ok y =>
      let out := { out with y := y }
      match stof uf sr with
      | .error _ => (false, out)
      | .ok r =>
        let out := { out with r := r }
        match stof uf sg with
        | .error _ => (false, out)
        | .ok g =>
          let out := { out with g := g }
          match stof uf sb with
          | .error _ => (false, out)
          | .ok b => (true, { out with b := b })

/-- The function `parse_pixel_line`. `out` is the record before the call; the result is the
returned flag with the record after the call, or the exception that leaves the function
(`substr` is called outside the `try` block). `uf` is the parameter of `stof`. The `size_t`
differences are natural-number differences: each is taken between a later and an earlier
position. -/
def parse_pixel_line (uf : Bool) (line : List Char) (out : Pixel) : Except Exn (Bool × Pixel) :=
  let p0 := 0
  match find line ',' p0 with
  | none => .ok (false, out)
  | some c1 =>
    match find line ',' (c1 + 1) with
    | none => .ok (false, out)
    | some c2 =>
      match find line ',' (c2 + 1) with
      | none => .ok (false, out)
      | some c3 =>
        match find line ',' (c3 + 1) with
        | none => .ok (false, out)
        | some c4 =>
          match substr line p0 (c1 - p0), substr line (c1 + 1) (c2 - (c1 + 1)),
              substr line (c2 + 1) (c3 - (c2 + 1)), substr line (c3 + 1) (c4 - (c3 + 1)),
              substr_to_end line (c4 + 1) with
          | .ok sx, .ok sy, .ok sr, .ok sg, .ok sb => .ok (convert_fields uf sx sy sr sg sb out)
          | .error e, _, _, _, _ => .error e
          | _, .error e, _, _, _ => .error e
          | _, _, .error e, _, _ => .error e
          | _, _, _, .error e, _ => .error e
          | _, _, _, _, .error e => .error e

/-! ## Loader (the read loop of `main`) -/

/-- The call `std::getline(fin, line)` on the unread rest of the input: `none` when nothing
is left, where the call fails and the loop ends; otherwise the characters up to the first
line break or the end of the input, and what is left after that line break. -/
def getline (fin : List Char) : Option (List Char × List Char) :=
  match fin with
  | [] => none
  | _ :: _ =>
    some (fin.takeWhile (fun c => c != '\n'), (fin.dropWhile (fun c => c != '\n')).drop 1)

/-- The variables of `main` that the read loop updates. -/
structure LoadState where
  pixel_list : List Pixel
  line_num : Nat
  loaded : Nat
  bad : Nat
  deriving DecidableEq, Repr

/-- The body of the read loop for one line. `px` is the value of the uninitialised local
`Pixel px` before the call of `parse_pixel_line`. -/
def load_step (uf : Bool) (px : Pixel) (st : LoadState) (line : List Char) :
    Except Exn LoadState :=
  let st := { st with line_num := st.line_num + 1 }
  if line = [] then .ok st
  else
    match parse_pixel_line uf line px with
    | .error e => .error e
    | .ok (true, px) =>
      .ok { st with pixel_list := st.pixel_list ++ [px], loaded := st.loaded + 1 }
    | .ok (false, _) => .ok { st with bad := st.bad + 1 }

/-- The loop `while (std::getline(fin, line))`, run for at most `fuel` calls of `getline`;
`none` when the fuel runs out, an exception when one leaves the body. -/
def load_loop (uf : Bool) (px : Pixel) : Nat → LoadState → List Char →
    Option (Except Exn LoadState)
  | 0, _, _ => none
  | fuel + 1, st, fin =>
    match getline fin with
    | none => some (.ok st)
    | some (line, rest) =>
      match load_step uf px st line with
      | .error e => some (.error e)
      | .ok st => load_loop uf px fuel st rest

/-- The read loop of `main` on the whole input, from the initial values of the variables. -/
def load (uf : Bool) (px : Pixel) (fin : List Char) : Option (Except Exn LoadState) :=
  load_loop uf px (fin.length + 1) ⟨[], 0, 0, 0⟩ fin

/-! ## Vocabulary of the statements on the parser -/

/-- An optional sign: nothing, `+` or `-`. -/
def is_sign (sg : List Char) : Prop := sg = [] ∨ sg = ['+'] ∨ sg = ['-']

/-- The string is white space, an optional sign and a decimal digit, followed by
anything. -/
def begins_with_integer (s : List Char) : Prop :=
  ∃ ws sg d rest, s = ws ++ (sg ++ d :: rest) ∧ (∀ c ∈ ws, isspace c = true) ∧ is_sign sg ∧
    isdigit d = true

/-- The string is white space, an optional sign and then a digit, a point and a digit, or
the letters of `inf` or `nan` in either case, followed by anything. -/
def begins_with_float (s : List Char) : Prop :=
  ∃ ws sg body, s = ws ++ (sg ++ body) ∧ (∀ c ∈ ws, isspace c = true) ∧ is_sign sg ∧
    ((∃ d rest, body = d :: rest ∧ isdigit d = true) ∨
     (∃ d rest, body = '.' :: d :: rest ∧ isdigit d = true) ∨
     (body.take 3).map tolower = ['i', 'n', 'f'] ∨
     (body.take 3).map tolower = ['n', 'a', 'n'])

/-- The characters of an optional sign: none, a plus (`some false`) or a minus
(`some true`). -/
def sign_text : Option Bool → List Char
  | none => []
  | some false => ['+']
  | some true => ['-']

/-- The number that a sequence of decimal digits denotes. -/
def decimal_value (ds : List Char) : Nat :=
  Nat.ofDigits 10 (ds.reverse.map (fun c => c.toNat - '0'.toNat))

/-- A base-10 integer literal: an optional sign and a sequence of decimal digits. -/
structure IntLit where
  sign : Option Bool
  digits : List Char

/-- The text of an integer literal. -/
def IntLit.text (l : IntLit) : List Char := sign_text l.sign ++ l.digits

/-- An integer literal has at least one digit, and only decimal digits. -/
def IntLit.well_formed (l : IntLit) : Bool := !l.digits.isEmpty && l.digits.all isdigit

/-- The integer that an integer literal denotes. -/
def IntLit.value (l : IntLit) : Int :=
  if l.sign = some true then -(decimal_value l.digits : Int) else (decimal_value l.digits : Int)

/-- A decimal floating-point literal: an optional sign, the digits before the point, the
point with the digits after it (optional), and an exponent part (optional) made of the
letter `e` or `E` (`true` for the capital) and an integer literal. -/
structure FloatLit where
  sign : Option Bool
  int_part : List Char
  frac_part : Option (List Char)
  exponent : Option (Bool × IntLit)

/-- The digits after the point. -/
def FloatLit.frac_digits (l : FloatLit) : List Char := l.frac_part.getD []

/-- The text of the point and the digits after it. -/
def FloatLit.frac_text (l : FloatLit) : List Char :=
  match l.frac_part with
  | none => []
  | some f => '.' :: f

/-- The text of the exponent part. -/
def FloatLit.exp_text (l : FloatLit) : List Char :=
  match l.exponent with
  | none => []
  | some (upper, e) => (if upper then 'E' else 'e') :: e.text

/-- The text of a floating-point literal. -/
def FloatLit.text (l : FloatLit) : List Char :=
  sign_text l.sign ++ (l.int_part ++ (l.frac_text ++ l.exp_text))

/-- A floating-point literal has only decimal digits around its point, at least one of
them, and a well-formed exponent. -/
def FloatLit.well_formed (l : FloatLit) : Bool :=
  l.int_part.all isdigit && l.frac_digits.all isdigit &&
  !(l.int_part ++ l.frac_digits).isEmpty &&
  (match l.exponent with
   | none => true
   | some (_, e) => e.well_formed)

/-- The power of ten of a floating-point literal. -/
def FloatLit.exp_value (l : FloatLit) : Int :=
  match l.exponent with
  | none => 0
  | some (_, e) => e.value

/-- The magnitude of the number that a floating-point literal denotes. -/
def FloatLit.magnitude (l : FloatLit) : ℚ :=
  (decimal_value (l.int_part ++ l.frac_digits) : ℚ)
    * (10 : ℚ) ^ (l.exp_value - (l.frac_digits.length : Int))

/-- The smallest positive normal `float`, `2^-126`. -/
def FLT_MIN : ℚ := 1 / 2 ^ 126

/-- The largest finite `float`, `(2^24 - 1) * 2^104`. -/
def FLT_MAX : ℚ := (2 ^ 24 - 1) * 2 ^ 104

/-- The literal denotes zero or a number whose magnitude is that of a normal `float`. -/
def FloatLit.in_range (l : FloatLit) : Prop :=
  l.magnitude = 0 ∨ (FLT_MIN ≤ l.magnitude ∧ l.magnitude ≤ FLT_MAX)

/-- The characters that occur in literals. -/
def literal_char (c : Char) : Bool :=
  isdigit c || c = '+' || c = '-' || c = '.' || c = 'e' || c = 'E'

/-! ## Vocabulary of the statements on the loader -/

/-- The record that `parse_pixel_line` gives on a line it accepts, `none` on a line it
rejects; `px` is the record handed to it. -/
def accepted (uf : Bool) (px : Pixel) (line : List Char) : Option Pixel :=
  match parse_pixel_line uf line px with
  | .ok (true, p) => some p
  | _ => none

/-- The text made of the lines `ls`, each followed by a line break, and of a last piece
`last` that has none (empty when the text ends with a line break or is empty). -/
def text_of : List (List Char) → List Char → List Char
  | [], last => last
  | l :: ls, last => l ++ '\n' :: text_of ls last

/-- The non-empty lines among `lines`, in order. -/
def nonempty_lines (lines : List (List Char)) : List (List Char) :=
  lines.filter (fun l => !l.isEmpty)

/-- The variables of the read loop after the lines `lines` have been read from the state
`st`: the accepted records of the non-empty lines appended in order, and the counters
advanced by the number of lines, of accepted and of rejected non-empty lines. -/
def state_after (uf : Bool) (px : Pixel) (st : LoadState) (lines : List (List Char)) :
    LoadState :=
  { pixel_list := st.pixel_list ++ (nonempty_lines lines).filterMap (accepted uf px)
    line_num := st.line_num + lines.length
    loaded := st.loaded + (nonempty_lines lines).countP (fun l => (accepted uf px l).isSome)
    bad := st.bad + (nonempty_lines lines).countP (fun l => (accepted uf px l).isNone) }

/-! ## Transformer (`flip_vertically`) -/

/-- First pass of `flip_vertically`: the loop `for p : pixel_list: if (p.y > max_y) max_y = p.y`
started from `max_y`. -/
def max_pass (max_y : Int) (pixel_list : List Pixel) : Int :=
  pixel_list.foldl (fun m p => if p.y > m then p.y else m) max_y

/-- The function `flip_vertically`; the argument is the vector before the call, the result
the vector after it. -/
def flip_vertically (pixel_list : List Pixel) : List Pixel :=
  match pixel_list with
  | [] => []
  | front :: _ =>
    let max_y := max_pass front.y pixel_list
    pixel_list.map (fun p => { p with y := int_sub max_y p.y })

/-- The value of the local `max_y` of `flip_vertically` after its first pass, on a non-empty
vector (`0` stands in on the empty one, where the function returns before declaring it). -/
def max_y_of (pixel_list : List Pixel) : Int :=
  match pixel_list with
  | [] => 0
  | front :: _ => max_pass front.y pixel_list

/-- A record with the given coordinates and all channels `+0.0f`, for examples. -/
def Pixel.at (x y : Int) : Pixel := ⟨Float32.zero, Float32.zero, Float32.zero, x, y⟩

/-! ## Aggregator (`average_colors`) -/

/-- A value of `long double` or of `double`: a binary floating-point value whose precision,
the number of bits of its significand, is given by the context. `finite neg mant exp` is
`(-1)^neg * mant * 2^exp`; a rounded value has `2^(prec-1) ≤ mant < 2^prec`, or is a zero
with `mant = 0` and `exp = 0`. The exponent is not bounded: the sums and the means of
`float` values over fewer than `2^64` records lie within the exponent range of `double`,
so that no operation of `average_colors` overflows or underflows. -/
inductive Binary where
  | finite (neg : Bool) (mant : Nat) (exp : Int)
  | inf (neg : Bool)
  | nan
  deriving DecidableEq, Repr

/-- Rounding of the exact value `(-1)^neg * num / den` to `prec` bits, to nearest with a tie
going to the even significand. -/
def round_binary (prec : Nat) (neg : Bool) (num den : Nat) : Binary :=
  if num = 0 then Binary.finite neg 0 0
  else
    let q : Int := floor_log2 num den - ((prec : Int) - 1)
    let sc := scale2 num den q
    let m := round_half_even sc.1 sc.2
    if m = 2 ^ prec then Binary.finite neg (2 ^ (prec - 1)) (q + 1) else Binary.finite neg m q

/-- The conversion of a `float` to `long double`, which is exact. -/
def widen (prec : Nat) : Float32 → Binary
  | Float32.finite neg m e => round_binary prec neg (scale_pow 2 m e).1 (scale_pow 2 m e).2
  | Float32.inf neg => Binary.inf neg
  | Float32.nan => Binary.nan

/-- The conversion `static_cast<long double>(n)` of a `size_t`. -/
def of_size (prec : Nat) (n : Nat) : Binary := round_binary prec false n 1

/-- The integer `n` with the sign `neg`. -/
def signed (neg : Bool) (n : Nat) : Int := if neg then -(n : Int) else (n : Int)

/-- The sum `a + b` in precision `prec`: the exact sum, rounded. An exact sum of zero is
`+0`, unless both operands are negative zeros. -/
def binary_add (prec : Nat) (a b : Binary) : Binary :=
  match a, b with
  | Binary.nan, _ => Binary.nan
  | _, Binary.nan => Binary.nan
  | Binary.inf na, Binary.inf nb => if na = nb then Binary.inf na else Binary.nan
  | Binary.inf na, Binary.finite _ _ _ => Binary.inf na
  | Binary.finite _ _ _, Binary.inf nb => Binary.inf nb
  | Binary.finite na ma ea, Binary.finite nb mb eb =>
    let e := min ea eb
    let s : Int := signed na (ma * 2 ^ (ea - e).toNat) + signed nb (mb * 2 ^ (eb - e).toNat)
    if s = 0 then Binary.finite (na && nb) 0 0
    else round_binary prec (decide (s < 0)) (scale_pow 2 s.natAbs e).1 (scale_pow 2 s.natAbs e).2

/-- Whether the value is a zero. -/
def Binary.is_zero : Binary → Bool
  | Binary.finite _ m _ => m == 0
  | _ => false

/-- The quotient `a / b` in precision `prec`: the exact quotient, rounded. `none` when `b`
is a zero: C++ leaves the division by zero undefined. -/
def binary_div (prec : Nat) (a b : Binary) : Option Binary :=
  if b.is_zero then none
  else
    match a, b with
    | Binary.nan, _ => some Binary.nan
    | _, Binary.nan => some Binary.nan
    | Binary.inf _, Binary.inf _ => some Binary.nan
    | Binary.inf na, Binary.finite nb _ _ => some (Binary.inf (xor na nb))
    | Binary.finite na _ _, Binary.inf nb => some (Binary.finite (xor na nb) 0 0)
    | Binary.finite na ma ea, Binary.finite nb mb eb =>
      some (round_binary prec (xor na nb) (scale2 ma mb (eb - ea)).1 (scale2 ma mb (eb - ea)).2)

/-- The conversion `static_cast<double>(x)` of a `long double`. -/
def to_double (x : Binary) : Binary :=
  match x with
  | Binary.finite neg m e => round_binary 53 neg (scale_pow 2 m e).1 (scale_pow 2 m e).2
  | Binary.inf neg => Binary.inf neg
  | Binary.nan => Binary.nan

/-- The loop of `average_colors` that adds the channels of every record to the three sums
`rsum`, `gsum`, `bsum`. -/
def sum_pass (prec : Nat) (pixel_list : List Pixel) (sums : Binary × Binary × Binary) :
    Binary × Binary × Binary :=
  pixel_list.foldl (fun s p => (binary_add prec s.1 (widen prec p.r),
    binary_add prec s.2.1 (widen prec p.g), binary_add prec s.2.2 (widen prec p.b))) sums

/-- What `average_colors` reports: that no pixel is loaded, or the three means as the
`double`s it prints. -/
inductive Report where
  | no_pixels
  | averages (r g b : Binary)
  deriving DecidableEq, Repr

/-- The three means `ravg`, `gavg`, `bavg` that `average_colors` computes in `long double`
on a non-empty vector; `none` when a division by zero is performed. -/
def channel_means (prec : Nat) (pixel_list : List Pixel) : Option (Binary × Binary × Binary) :=
  let zero := Binary.finite false 0 0
  let sums := sum_pass prec pixel_list (zero, zero, zero)
  let n := of_size prec pixel_list.length
  match binary_div prec sums.1 n, binary_div prec sums.2.1 n, binary_div prec sums.2.2 n with
  | some ravg, some gavg, some bavg => some (ravg, gavg, bavg)
  | _, _, _ => none

/-- The function `average_colors`, with `prec` the precision of `long double`. The result is
the report and the vector after the call; `none` when a division by zero is performed. -/
def average_colors (prec : Nat) (pixel_list : List Pixel) : Option (Report × List Pixel) :=
  match pixel_list with
  | [] => some (Report.no_pixels, pixel_list)
  | _ :: _ =>
    match channel_means prec pixel_list with
    | some (ravg, gavg, bavg) =>
      some (Report.averages (to_double ravg) (to_double gavg) (to_double bavg), pixel_list)
    | none => none

/-! ## Vocabulary of the statements on the aggregator -/

/-- The number that a finite value denotes; `0` stands in for an infinity and for a NaN. -/
def Binary.val : Binary → ℚ
  | Binary.finite neg m e => ((signed neg m : Int) : ℚ) * (2 : ℚ) ^ e
  | _ => 0

/-- The number that a finite `float` denotes; `0` stands in for an infinity and for a
NaN. -/
def Float32.val : Float32 → ℚ
  | Float32.finite neg m e => ((signed neg m : Int) : ℚ) * (2 : ℚ) ^ e
  | _ => 0

/-- A `float` value has a significand of at most 24 bits. -/
def Float32.valid : Float32 → Bool
  | Float32.finite _ m _ => decide (m < 2 ^ 24)
  | _ => true

/-- Whether the `float` is a finite number. -/
def Float32.is_finite : Float32 → Bool
  | Float32.finite _ _ _ => true
  | _ => false

/-- The number is a value of the binary format of precision `prec` (with no bound on the
exponent): a natural number below `2^prec` times a power of two, up to the sign. -/
def representable (prec : Nat) (x : ℚ) : Prop :=
  ∃ (m : Nat) (k : Int), m < 2 ^ prec ∧ |x| = (m : ℚ) * (2 : ℚ) ^ k

/-- Starting from `acc`, every partial sum of the numbers `vs`, added in order, is a value
of the format of precision `prec`: no addition rounds. -/
def exact_sums (prec : Nat) : ℚ → List ℚ → Prop
  | _, [] => True
  | acc, v :: vs => representable prec (acc + v) ∧ exact_sums prec (acc + v) vs

/-- The two values are the same number: they are equal, or both are zeros. -/
def same_number (a b : Binary) : Prop := a = b ∨ (a.is_zero = true ∧ b.is_zero = true)

/-- The value `b` is the value of the format of precision `prec` that denotes the number
`x`: `+0` for zero, and otherwise the sign of `x` with the significand of exactly `prec`
bits and the exponent that give `|x|`. -/
def encodes (prec : Nat) (b : Binary) (x : ℚ) : Prop :=
  (x = 0 ∧ b = Binary.finite false 0 0) ∨
  (x ≠ 0 ∧ ∃ (M : Nat) (E : Int), 2 ^ (prec - 1) ≤ M ∧ M < 2 ^ prec ∧
    |x| = (M : ℚ) * (2 : ℚ) ^ E ∧ b = Binary.finite (decide (x < 0)) M E)

/-- The sum of one channel, `f` selecting it, as the loop of `average_colors` builds it from
the initial value `acc`. -/
def chan_sum (prec : Nat) (f : Pixel → Float32) (pixel_list : List Pixel) (acc : Binary) :
    Binary :=
  pixel_list.foldl (fun s p => binary_add prec s (widen prec (f p))) acc

/-! ## Writer and `main` -/

/-- The character of the decimal digit `d`. -/
def digit_char (d : Nat) : Char := Char.ofNat (48 + d)

/-- Digit loop of `render_nat`: the digits of `n` are put in front of `acc`, the last one
first, in at most `fuel` steps. -/
def render_nat_loop : Nat → Nat → List Char → List Char
  | 0, _, acc => acc
  | fuel + 1, n, acc =>
    if n / 10 = 0 then digit_char (n % 10) :: acc
    else render_nat_loop fuel (n / 10) (digit_char (n % 10) :: acc)

/-- The text that `operator<<` writes for a non-negative integer: base 10, no leading
zero. -/
def render_nat (n : Nat) : List Char := render_nat_loop (n + 1) n []

/-- The text that `operator<<` writes for an `int`: a minus sign for a negative number, and
the digits. -/
def render_int (i : Int) : List Char :=
  if i < 0 then '-' :: render_nat i.natAbs else render_nat i.toNat

/-- The digits `ds` with zeros in front up to the width `w`. -/
def pad_left (w : Nat) (ds : List Char) : List Char :=
  List.replicate (w - ds.length) '0' ++ ds

/-- The text that `operator<<` writes for a `double` after `std::fixed` and
`std::setprecision(digits)`: the exact value rounded to `digits` decimal places. -/
def render_fixed (digits : Nat) (x : Binary) : List Char :=
  match x with
  | Binary.nan => ['n', 'a', 'n']
  | Binary.inf neg => (if neg then ['-'] else []) ++ ['i', 'n', 'f']
  | Binary.finite neg m e =>
    let n := round_half_even ((scale_pow 2 m e).1 * 10 ^ digits) (scale_pow 2 m e).2
    (if neg then ['-'] else []) ++ (render_nat (n / 10 ^ digits) ++
      (if digits = 0 then [] else '.' :: pad_left digits (render_nat (n % 10 ^ digits))))

/-- The line that the writer of `main` puts out for one record, with its line break. -/
def render_pixel (p : Pixel) : List Char :=
  render_int p.x ++ ',' :: (render_int p.y ++ ',' :: (render_fixed 16 (widen 53 p.r) ++ ',' ::
    (render_fixed 16 (widen 53 p.g) ++ ',' :: (render_fixed 16 (widen 53 p.b) ++ ['\n']))))

/-- The text that `average_colors` writes to the console. -/
def report_text (rep : Report) : List Char :=
  match rep with
  | Report.no_pixels => "No pixels loaded.\n".toList
  | Report.averages r g b =>
    "Average R: ".toList ++ render_fixed 6 r ++ "\nAverage G: ".toList ++ render_fixed 6 g
      ++ "\nAverage B: ".toList ++ render_fixed 6 b ++ ['\n']

/-- What a run of `main` leaves: the exit code, the texts written to `std::cout` and to
`std::cerr`, and the content written to `flipped.dat`, `none` when the run does not open
that file. -/
structure MainResult where
  exit_code : Int
  cout : List Char
  cerr : List Char
  flipped : Option (List Char)
  deriving DecidableEq, Repr

/-- The part of `main` after the read loop, from the variables `st` that the loop leaves. -/
def main_after_load (prec : Nat) (st : LoadState) (out_opens : Bool) : Option MainResult :=
  if st.loaded = 0 then
    some ⟨1, [], "No valid pixels were read. Aborting.\n".toList, none⟩
  else
    let cout1 := "Loaded ".toList ++ render_nat st.loaded ++ " pixels".toList ++
      (if st.bad > 0 then " (".toList ++ render_nat st.bad ++ " malformed line(s) skipped)".toList
       else []) ++ ".\n".toList
    match average_colors prec st.pixel_list with
    | none => none
    | some (rep, pixel_list) =>
      let cout2 := cout1 ++ report_text rep
      let pixel_list := flip_vertically pixel_list
      if out_opens then
        some ⟨0, cout2 ++ "Wrote flipped pixels to 'flipped.dat'.\n".toList, [],
          some ((pixel_list.map render_pixel).flatten)⟩
      else
        some ⟨1, cout2,
          "Error: could not open output file 'flipped.dat' for writing.\n".toList, none⟩

/-- The function `main`. `argv` is the argument vector, `open_in` gives the content of the
file at a path when it can be opened for reading, `out_opens` tells whether `flipped.dat`
can be opened for writing; `uf`, `prec` and `px` are the parameters of `stof`, of
`average_colors` and of the read loop. `none` when the run does not return from `main`: an
exception leaves it, a division by zero is performed, or the model runs out of fuel. -/
def main (uf : Bool) (prec : Nat) (px : Pixel) (argv : List (List Char))
    (open_in : List Char → Option (List Char)) (out_opens : Bool) : Option MainResult :=
  match argv with
  | [] => some ⟨1, [], "Usage: ".toList ++ " <input_file>\n".toList ++ "Example: ".toList
      ++ " pixels.dat\n".toList, none⟩
  | [prog] => some ⟨1, [], "Usage: ".toList ++ prog ++ " <input_file>\n".toList
      ++ "Example: ".toList ++ prog ++ " pixels.dat\n".toList, none⟩
  | _ :: input_path :: _ =>
    match open_in input_path with
    | none => some ⟨1, [], "Error: could not open input file '".toList ++ input_path
        ++ "'.\n".toList, none⟩
    | some fin =>
      match load uf px fin with
      | some (.ok st) => main_after_load prec st out_opens
      | _ => none

/-- The text `t` is the plain base-10 rendering of the integer `v`: a minus sign exactly when
`v` is negative, no other sign or padding, then the decimal digits of `|v|` with no leading
zero (the single digit `0` for zero). -/
def is_plain_decimal (v : Int) (t : List Char) : Prop :=
  ∃ ds : List Char, t = (if v < 0 then ['-'] else []) ++ ds ∧ ds ≠ [] ∧
    (∀ c ∈ ds, isdigit c = true) ∧ decimal_value ds = v.natAbs ∧
    (ds = ['0'] ∨ ∀ d rest, ds = d :: rest → d ≠ '0')

/-! ## Lemmas on the transformer -/

theorem wrap32_of_range (i : Int) (h0 : INT_MIN ≤ i) (h1 : i ≤ INT_MAX) : wrap32 i = i := by
  unfold INT_MIN at h0
  unfold INT_MAX at h1
  unfold wrap32
  omega

theorem max_pass_ge_init (l : List Pixel) (m : Int) : m ≤ max_pass m l := by
  induction l generalizing m with
  | nil => simp [max_pass]
  | cons p l ih =>
    simp only [max_pass, List.foldl_cons]
    have h := ih (if p.y > m then p.y else m)
    simp only [max_pass] at h
    by_cases hc : p.y > m
    · rw [if_pos hc] at h ⊢; omega
    · rw [if_neg hc] at h ⊢; omega

theorem max_pass_ge_mem (l : List Pixel) (m : Int) : ∀ p ∈ l, p.y ≤ max_pass m l := by
  induction l generalizing m with
  | nil => simp
  | cons q l ih =>
    intro p hp
    simp only [max_pass, List.foldl_cons]
    rcases List.mem_cons.mp hp with rfl | hp
    · have h := max_pass_ge_init l (if p.y > m then p.y else m)
      simp only [max_pass] at h
      by_cases hc : p.y > m
      · rw [if_pos hc] at h ⊢; omega
      · rw [if_neg hc] at h ⊢; omega
    · exact ih _ p hp

theorem max_pass_attained (l : List Pixel) (m : Int) :
    max_pass m l = m ∨ ∃ p ∈ l, p.y = max_pass m l := by
  induction l generalizing m with
  | nil => simp [max_pass]
  | cons q l ih =>
    simp only [max_pass, List.foldl_cons]
    rcases ih (if q.y > m then q.y else m) with h | ⟨p, hp, h⟩
    · simp only [max_pass] at h
      rw [h]
      split
      · right; exact ⟨q, List.mem_cons_self _ _, rfl⟩
      · left; rfl
    · right
      exact ⟨p, List.mem_cons_of_mem _ hp, h⟩

theorem flip_vertically_eq_map (l : List Pixel) :
    flip_vertically l = l.map (fun p => { p with y := int_sub (max_y_of l) p.y }) := by
  cases l <;> rfl

theorem max_y_of_ge (l : List Pixel) : ∀ p ∈ l, p.y ≤ max_y_of l := by
  cases l with
  | nil => simp
  | cons q l => exact max_pass_ge_mem (q :: l) q.y

theorem max_y_of_attained (l : List Pixel) (h : l ≠ []) : ∃ p ∈ l, p.y = max_y_of l := by
  cases l with
  | nil => exact absurd rfl h
  | cons q l =>
    rcases max_pass_attained (q :: l) q.y with h | h
    · exact ⟨q, List.mem_cons_self _ _, h.symm⟩
    · exact h

/-- A value that bounds every `y` and is the `y` of some record is the computed `max_y`. -/
theorem max_y_of_unique (l : List Pixel) (M : Int) (hge : ∀ p ∈ l, p.y ≤ M)
    (hat : ∃ p ∈ l, p.y = M) : max_y_of l = M := by
  obtain ⟨p, hp, hpM⟩ := hat
  have hne : l ≠ [] := List.ne_nil_of_mem hp
  obtain ⟨q, hq, hqM⟩ := max_y_of_attained l hne
  have h1 := max_y_of_ge l p hp
  have h2 := hge q hq
  omega

theorem flip_vertically_of_range (l : List Pixel) (h : ∀ p ∈ l, 0 ≤ p.y ∧ p.y ≤ INT_MAX) :
    flip_vertically l = l.map (fun p => { p with y := max_y_of l - p.y }) := by
  rw [flip_vertically_eq_map]
  apply List.map_congr_left
  intro p hp
  have hM := max_y_of_ge l p hp
  obtain ⟨q, hq, hqM⟩ := max_y_of_attained l (List.ne_nil_of_mem hp)
  have hp0 := h p hp
  have hq0 := h q hq
  have hw : int_sub (max_y_of l) p.y = max_y_of l - p.y := by
    unfold int_sub
    apply wrap32_of_range
    · unfold INT_MIN; omega
    · omega
  rw [hw]

/-! ## Lemmas on the string functions -/

theorem find_from_none (ch : Char) (s : List Char) (i : Nat) (h : ch ∉ s) :
    find_from ch s i = none := by
  induction s generalizing i with
  | nil => rfl
  | cons c cs ih =>
    have hc : ¬ c = ch := fun e => h (e ▸ List.mem_cons_self _ _)
    have hcs : ch ∉ cs := fun e => h (List.mem_cons_of_mem _ e)
    simp only [find_from, if_neg hc]
    exact ih (i + 1) hcs

theorem find_from_append (ch : Char) (a b : List Char) (i : Nat) (h : ch ∉ a) :
    find_from ch (a ++ ch :: b) i = some (i + a.length) := by
  induction a generalizing i with
  | nil => simp [find_from]
  | cons c cs ih =>
    have hc : ¬ c = ch := fun e => h (e ▸ List.mem_cons_self _ _)
    have hcs : ch ∉ cs := fun e => h (List.mem_cons_of_mem _ e)
    have e := ih (i + 1) hcs
    rw [List.cons_append, find_from, if_neg hc, e, List.length_cons]
    congr 1
    omega

/-- A string that contains `ch` splits at its first occurrence. -/
theorem split_first (ch : Char) (s : List Char) (h : ch ∈ s) :
    ∃ a b, s = a ++ ch :: b ∧ ch ∉ a := by
  induction s with
  | nil => exact absurd h (List.not_mem_nil _)
  | cons c cs ih =>
    by_cases hc : c = ch
    · exact ⟨[], cs, by simp [hc], List.not_mem_nil _⟩
    · have hcs : ch ∈ cs := by
        rcases List.mem_cons.mp h with e | e
        · exact absurd e.symm hc
        · exact e
      obtain ⟨a, b, hab, ha⟩ := ih hcs
      refine ⟨c :: a, b, by simp [hab], ?_⟩
      intro hm
      rcases List.mem_cons.mp hm with e | e
      · exact hc e.symm
      · exact ha e

theorem find_at (A f B : List Char) (ch : Char) (h : ch ∉ f) :
    find (A ++ (f ++ ch :: B)) ch A.length = some (A.length + f.length) := by
  unfold find
  rw [List.drop_left]
  exact find_from_append ch f B A.length h

theorem find_at_none (A f : List Char) (ch : Char) (h : ch ∉ f) :
    find (A ++ f) ch A.length = none := by
  unfold find
  rw [List.drop_left]
  exact find_from_none ch f A.length h

theorem substr_at (A f B : List Char) :
    substr (A ++ (f ++ B)) A.length f.length = .ok f := by
  unfold substr
  rw [if_neg (by simp), List.drop_left, List.take_left]

theorem substr_to_end_at (A B : List Char) : substr_to_end (A ++ B) A.length = .ok B := by
  unfold substr_to_end
  rw [if_neg (by simp), List.drop_left]

/-! ## Lemmas on the line parser -/

/-- The line made of five fields with a comma after each of the first four. -/
theorem parse_pixel_line_fields (uf : Bool) (f1 f2 f3 f4 f5 : List Char) (out : Pixel)
    (h1 : ',' ∉ f1) (h2 : ',' ∉ f2) (h3 : ',' ∉ f3) (h4 : ',' ∉ f4) :
    parse_pixel_line uf (f1 ++ ',' :: (f2 ++ ',' :: (f3 ++ ',' :: (f4 ++ ',' :: f5)))) out
      = .ok (convert_fields uf f1 f2 f3 f4 f5 out) := by
  have e1 := find_at [] f1 (f2 ++ ',' :: (f3 ++ ',' :: (f4 ++ ',' :: f5))) ',' h1
  have e2 := find_at (f1 ++ [',']) f2 (f3 ++ ',' :: (f4 ++ ',' :: f5)) ',' h2
  have e3 := find_at (f1 ++ [','] ++ (f2 ++ [','])) f3 (f4 ++ ',' :: f5) ',' h3
  have e4 := find_at (f1 ++ [','] ++ (f2 ++ [',']) ++ (f3 ++ [','])) f4 f5 ',' h4
  have s1 := substr_at [] f1 (',' :: (f2 ++ ',' :: (f3 ++ ',' :: (f4 ++ ',' :: f5))))
  have s2 := substr_at (f1 ++ [',']) f2 (',' :: (f3 ++ ',' :: (f4 ++ ',' :: f5)))
  have s3 := substr_at (f1 ++ [','] ++ (f2 ++ [','])) f3 (',' :: (f4 ++ ',' :: f5))
  have s4 := substr_at (f1 ++ [','] ++ (f2 ++ [',']) ++ (f3 ++ [','])) f4 (',' :: f5)
  have s5 := substr_to_end_at
    (f1 ++ [','] ++ (f2 ++ [',']) ++ (f3 ++ [',']) ++ (f4 ++ [','])) f5
  simp only [List.nil_append, List.length_nil, List.append_assoc, List.singleton_append,
    List.length_append, List.length_cons, Nat.zero_add, List.cons_append] at e1 e2 e3 e4 s1 s2 s3 s4 s5
  have p3 : f1.length + (f2.length + 1 + 1) = f1.length + 1 + f2.length + 1 := by omega
  have p4 : f1.length + (f2.length + (f3.length + 1 + 1) + 1)
      = f1.length + 1 + f2.length + 1 + f3.length + 1 := by omega
  have p5 : f1.length + (f2.length + (f3.length + (f4.length + 1 + 1) + 1) + 1)
      = f1.length + 1 + f2.length + 1 + f3.length + 1 + f4.length + 1 := by omega
  rw [p3] at e3 s3
  rw [p4] at e4 s4
  rw [p5] at s5
  unfold parse_pixel_line
  simp only [e1, e2, e3, e4, Nat.sub_zero, Nat.add_sub_cancel_left, s1, s2, s3, s4, s5]

/-- A string with more than `n` occurrences of `ch` splits at the first one, and at least
`n` occurrences follow it. -/
theorem split_first_count (ch : Char) (s : List Char) (n : Nat) (h : n + 1 ≤ s.count ch) :
    ∃ a b, s = a ++ ch :: b ∧ ch ∉ a ∧ b.count ch + 1 = s.count ch := by
  have hm : ch ∈ s := List.count_pos_iff.mp (by omega)
  obtain ⟨a, b, hab, ha⟩ := split_first ch s hm
  refine ⟨a, b, hab, ha, ?_⟩
  rw [hab, List.count_append, List.count_cons_self, List.count_eq_zero_of_not_mem ha]
  omega

theorem parse_pixel_line_no_comma (uf : Bool) (line : List Char) (out : Pixel)
    (h : ',' ∉ line) : parse_pixel_line uf line out = .ok (false, out) := by
  have e1 := find_at_none [] line ',' h
  simp only [List.nil_append, List.length_nil] at e1
  unfold parse_pixel_line
  simp only [e1]

theorem parse_pixel_line_one_comma (uf : Bool) (f1 r : List Char) (out : Pixel)
    (h1 : ',' ∉ f1) (h : ',' ∉ r) :
    parse_pixel_line uf (f1 ++ ',' :: r) out = .ok (false, out) := by
  have e1 := find_at [] f1 r ',' h1
  have e2 := find_at_none (f1 ++ [',']) r ',' h
  simp only [List.nil_append, List.length_nil, List.append_assoc, List.singleton_append,
    List.length_append, List.length_cons, Nat.zero_add] at e1 e2
  unfold parse_pixel_line
  simp only [e1, e2]

theorem parse_pixel_line_two_commas (uf : Bool) (f1 f2 r : List Char) (out : Pixel)
    (h1 : ',' ∉ f1) (h2 : ',' ∉ f2) (h : ',' ∉ r) :
    parse_pixel_line uf (f1 ++ ',' :: (f2 ++ ',' :: r)) out = .ok (false, out) := by
  have e1 := find_at [] f1 (f2 ++ ',' :: r) ',' h1
  have e2 := find_at (f1 ++ [',']) f2 r ',' h2
  have e3 := find_at_none (f1 ++ [','] ++ (f2 ++ [','])) r ',' h
  simp only [List.nil_append, List.length_nil, List.append_assoc, List.singleton_append,
    List.length_append, List.length_cons, Nat.zero_add, List.cons_append] at e1 e2 e3
  have p3 : f1.length + (f2.length + 1 + 1) = f1.length + 1 + f2.length + 1 := by omega
  rw [p3] at e3
  unfold parse_pixel_line
  simp only [e1, e2, e3]

theorem parse_pixel_line_three_commas (uf : Bool) (f1 f2 f3 r : List Char) (out : Pixel)
    (h1 : ',' ∉ f1) (h2 : ',' ∉ f2) (h3 : ',' ∉ f3) (h : ',' ∉ r) :
    parse_pixel_line uf (f1 ++ ',' :: (f2 ++ ',' :: (f3 ++ ',' :: r))) out
      = .ok (false, out) := by
  have e1 := find_at [] f1 (f2 ++ ',' :: (f3 ++ ',' :: r)) ',' h1
  have e2 := find_at (f1 ++ [',']) f2 (f3 ++ ',' :: r) ',' h2
  have e3 := find_at (f1 ++ [','] ++ (f2 ++ [','])) f3 r ',' h3
  have e4 := find_at_none (f1 ++ [','] ++ (f2 ++ [',']) ++ (f3 ++ [','])) r ',' h
  simp only [List.nil_append, List.length_nil, List.append_assoc, List.singleton_append,
    List.length_append, List.length_cons, Nat.zero_add, List.cons_append] at e1 e2 e3 e4
  have p3 : f1.length + (f2.length + 1 + 1) = f1.length + 1 + f2.length + 1 := by omega
  have p4 : f1.length + (f2.length + (f3.length + 1 + 1) + 1)
      = f1.length + 1 + f2.length + 1 + f3.length + 1 := by omega
  rw [p3] at e3
  rw [p4] at e4
  unfold parse_pixel_line
  simp only [e1, e2, e3, e4]

/-- Every line has fewer than four commas, with the parser's answer then `false` and the
record untouched, or is made of four comma-free fields, each followed by a comma, and a
rest. -/
theorem line_cases (uf : Bool) (line : List Char) (out : Pixel) :
    (line.count ',' < 4 ∧ parse_pixel_line uf line out = .ok (false, out)) ∨
    (4 ≤ line.count ',' ∧ ∃ f1 f2 f3 f4 f5 : List Char,
      ',' ∉ f1 ∧ ',' ∉ f2 ∧ ',' ∉ f3 ∧ ',' ∉ f4 ∧
      line = f1 ++ ',' :: (f2 ++ ',' :: (f3 ++ ',' :: (f4 ++ ',' :: f5)))) := by
  by_cases m1 : ',' ∈ line
  swap
  · exact Or.inl ⟨by rw [List.count_eq_zero_of_not_mem m1]; omega,
      parse_pixel_line_no_comma uf line out m1⟩
  obtain ⟨f1, r1, rfl, h1, c1⟩ :=
    split_first_count ',' line 0 (List.count_pos_iff.mpr m1)
  by_cases m2 : ',' ∈ r1
  swap
  · have z := List.count_eq_zero_of_not_mem m2
    exact Or.inl ⟨by omega, parse_pixel_line_one_comma uf f1 r1 out h1 m2⟩
  obtain ⟨f2, r2, rfl, h2, c2⟩ :=
    split_first_count ',' r1 0 (List.count_pos_iff.mpr m2)
  by_cases m3 : ',' ∈ r2
  swap
  · have z := List.count_eq_zero_of_not_mem m3
    exact Or.inl ⟨by omega, parse_pixel_line_two_commas uf f1 f2 r2 out h1 h2 m3⟩
  obtain ⟨f3, r3, rfl, h3, c3⟩ :=
    split_first_count ',' r2 0 (List.count_pos_iff.mpr m3)
  by_cases m4 : ',' ∈ r3
  swap
  · have z := List.count_eq_zero_of_not_mem m4
    exact Or.inl ⟨by omega, parse_pixel_line_three_commas uf f1 f2 f3 r3 out h1 h2 h3 m4⟩
  obtain ⟨f4, f5, rfl, h4, c4⟩ :=
    split_first_count ',' r3 0 (List.count_pos_iff.mpr m4)
  exact Or.inr ⟨by omega, f1, f2, f3, f4, f5, h1, h2, h3, h4, rfl⟩

/-- No exception leaves `parse_pixel_line`: every `substr` call is within bounds. -/
theorem parse_pixel_line_returns (uf : Bool) (line : List Char) (out : Pixel) :
    ∃ res, parse_pixel_line uf line out = .ok res := by
  rcases line_cases uf line out with ⟨_, h⟩ | ⟨_, f1, f2, f3, f4, f5, h1, h2, h3, h4, rfl⟩
  · exact ⟨_, h⟩
  · exact ⟨_, parse_pixel_line_fields uf f1 f2 f3 f4 f5 out h1 h2 h3 h4⟩

/-- What the `try` block leaves after a failure: the fields assigned before the conversion
that threw hold new values, the others are as before. -/
theorem convert_fields_false (uf : Bool) (sx sy sr sg sb : List Char) (out p : Pixel)
    (h : convert_fields uf sx sy sr sg sb out = (false, p)) :
    p = out ∨ (∃ x, stoi sx = .ok x ∧ p = { out with x := x }) ∨
    (∃ x y, stoi sx = .ok x ∧ stoi sy = .ok y ∧ p = { out with x := x, y := y }) ∨
    (∃ x y r, stoi sx = .ok x ∧ stoi sy = .ok y ∧ stof uf sr = .ok r ∧
      p = { out with x := x, y := y, r := r }) ∨
    (∃ x y r g, stoi sx = .ok x ∧ stoi sy = .ok y ∧ stof uf sr = .ok r ∧
      stof uf sg = .ok g ∧ p = { out with x := x, y := y, r := r, g := g }) := by
  unfold convert_fields at h
  cases hx : stoi sx with
  | error e => rw [hx] at h; simp only [Prod.mk.injEq, true_and] at h; exact Or.inl h.symm
  | ok x =>
    rw [hx] at h
    cases hy : stoi sy with
    | error e =>
      rw [hy] at h; simp only [Prod.mk.injEq, true_and] at h
      exact Or.inr (Or.inl ⟨x, rfl, h.symm⟩)
    | ok y =>
      rw [hy] at h
      cases hr : stof uf sr with
      | error e =>
        rw [hr] at h; simp only [Prod.mk.injEq, true_and] at h
        exact Or.inr (Or.inr (Or.inl ⟨x, y, rfl, rfl, h.symm⟩))
      | ok r =>
        rw [hr] at h
        cases hg : stof uf sg with
        | error e =>
          rw [hg] at h; simp only [Prod.mk.injEq, true_and] at h
          exact Or.inr (Or.inr (Or.inr (Or.inl ⟨x, y, r, rfl, rfl, rfl, h.symm⟩)))
        | ok g =>
          rw [hg] at h
          cases hb : stof uf sb with
          | error e =>
            rw [hb] at h; simp only [Prod.mk.injEq, true_and] at h
            exact Or.inr (Or.inr (Or.inr (Or.inr ⟨x, y, r, g, rfl, rfl, rfl, rfl, h.symm⟩)))
          | ok b =>
            rw [hb] at h
            simp at h

/-- The `try` block ends with `true` exactly when the five conversions succeed, and the
record is then made of the five converted values. -/
theorem convert_fields_true (uf : Bool) (sx sy sr sg sb : List Char) (out p : Pixel) :
    convert_fields uf sx sy sr sg sb out = (true, p) ↔
    ∃ x y r g b, stoi sx = .ok x ∧ stoi sy = .ok y ∧ stof uf sr = .ok r ∧
      stof uf sg = .ok g ∧ stof uf sb = .ok b ∧ p = ⟨r, g, b, x, y⟩ := by
  unfold convert_fields
  constructor
  · intro h
    cases hx : stoi sx with
    | error e => rw [hx] at h; simp at h
    | ok x =>
      rw [hx] at h
      cases hy : stoi sy with
      | error e => rw [hy] at h; simp at h
      | ok y =>
        rw [hy] at h
        cases hr : stof uf sr with
        | error e => rw [hr] at h; simp at h
        | ok r =>
          rw [hr] at h
          cases hg : stof uf sg with
          | error e => rw [hg] at h; simp at h
          | ok g =>
            rw [hg] at h
            cases hb : stof uf sb with
            | error e => rw [hb] at h; simp at h
            | ok b =>
              rw [hb] at h
              simp only [Prod.mk.injEq, true_and] at h
              exact ⟨x, y, r, g, b, rfl, rfl, rfl, rfl, rfl, h.symm⟩
  · rintro ⟨x, y, r, g, b, hx, hy, hr, hg, hb, rfl⟩
    rw [hx, hy, hr, hg, hb]

/-- The flag of the `try` block is `false` as soon as one conversion throws. -/
theorem convert_fields_rejects (uf : Bool) (sx sy sr sg sb : List Char) (out : Pixel)
    (h : (∃ e, stoi sx = .error e) ∨ (∃ e, stoi sy = .error e) ∨ (∃ e, stof uf sr = .error e) ∨
      (∃ e, stof uf sg = .error e) ∨ (∃ e, stof uf sb = .error e)) :
    (convert_fields uf sx sy sr sg sb out).1 = false := by
  cases hb : (convert_fields uf sx sy sr sg sb out).1 with
  | false => rfl
  | true =>
    have hp : convert_fields uf sx sy sr sg sb out
        = (true, (convert_fields uf sx sy sr sg sb out).2) := by
      rw [← hb]
    obtain ⟨x, y, r, g, b, hx, hy, hr, hg, hb', -⟩ := (convert_fields_true _ _ _ _ _ _ _ _).mp hp
    rcases h with ⟨e, h⟩ | ⟨e, h⟩ | ⟨e, h⟩ | ⟨e, h⟩ | ⟨e, h⟩
    · rw [hx] at h; cases h
    · rw [hy] at h; cases h
    · rw [hr] at h; cases h
    · rw [hg] at h; cases h
    · rw [hb'] at h; cases h

/-! ## Lemmas on the conversions -/

theorem take_sign_split (t : List Char) :
    ∃ sg, is_sign sg ∧ t = sg ++ (take_sign t).2 := by
  cases t with
  | nil => exact ⟨[], Or.inl rfl, rfl⟩
  | cons c t =>
    by_cases hm : c = '-'
    · refine ⟨['-'], Or.inr (Or.inr rfl), ?_⟩
      simp [take_sign, hm]
    · by_cases hp : c = '+'
      · refine ⟨['+'], Or.inr (Or.inl rfl), ?_⟩
        simp [take_sign, hp]
      · refine ⟨[], Or.inl rfl, ?_⟩
        simp [take_sign, hm, hp]

theorem takeWhile_ne_nil (p : Char → Bool) (u : List Char) (h : u.takeWhile p ≠ []) :
    ∃ d rest, u = d :: rest ∧ p d = true := by
  cases u with
  | nil => simp at h
  | cons d rest =>
    by_cases hd : p d = true
    · exact ⟨d, rest, rfl, hd⟩
    · rw [List.takeWhile_cons_of_neg hd] at h
      exact absurd rfl h

/-- Decomposition of a string into its leading white space, its sign and the rest. -/
theorem space_sign_split (s : List Char) :
    ∃ ws sg, (∀ c ∈ ws, isspace c = true) ∧ is_sign sg ∧
      s = ws ++ (sg ++ (take_sign (s.dropWhile isspace)).2) := by
  obtain ⟨sg, hsg, e⟩ := take_sign_split (s.dropWhile isspace)
  refine ⟨s.takeWhile isspace, sg, fun c hc => List.mem_takeWhile_imp hc, hsg, ?_⟩
  rw [← e, List.takeWhile_append_dropWhile]

theorem stoi_begins (s : List Char) (h : ¬ begins_with_integer s) :
    stoi s = .error .invalid_argument := by
  unfold stoi
  by_cases hd : (take_sign (s.dropWhile isspace)).2.takeWhile isdigit = []
  · simp only [hd, if_true]
  · exfalso
    apply h
    obtain ⟨d, rest, hu, hdig⟩ := takeWhile_ne_nil _ _ hd
    obtain ⟨ws, sg, hws, hsg, e⟩ := space_sign_split s
    rw [hu] at e
    exact ⟨ws, sg, d, rest, e, hws, hsg, hdig⟩

theorem scan_mantissa_fst (p : Char → Bool) (s : List Char) :
    (scan_mantissa p s).1 = s.takeWhile p := by
  unfold scan_mantissa
  split
  · rfl
  · split <;> rfl

theorem scan_mantissa_frac (p : Char → Bool) (s : List Char)
    (h1 : s.takeWhile p = []) (h2 : (scan_mantissa p s).2.1 ≠ []) :
    ∃ d rest, s = '.' :: d :: rest ∧ p d = true := by
  have hs : s.dropWhile p = s := by
    have := List.takeWhile_append_dropWhile p s
    rw [h1] at this
    exact this
  unfold scan_mantissa at h2
  rw [hs] at h2
  cases s with
  | nil => simp at h2
  | cons c t =>
    simp only at h2
    by_cases hc : c = '.'
    · rw [if_pos hc] at h2
      simp only at h2
      obtain ⟨d, rest, ht, hd⟩ := takeWhile_ne_nil _ _ h2
      exact ⟨d, rest, by rw [hc, ht], hd⟩
    · rw [if_neg hc] at h2
      simp at h2

theorem strtof_begins (s : List Char) (h : ¬ begins_with_float s) : strtof s = none := by
  obtain ⟨ws, sg, hws, hsg, e⟩ := space_sign_split s
  generalize hb : (take_sign (s.dropWhile isspace)).2 = body at e
  have hno : ((∃ d rest, body = d :: rest ∧ isdigit d = true) ∨
      (∃ d rest, body = '.' :: d :: rest ∧ isdigit d = true) ∨
      (body.take 3).map tolower = ['i', 'n', 'f'] ∨
      (body.take 3).map tolower = ['n', 'a', 'n']) → False :=
    fun hbody => h ⟨ws, sg, body, e, hws, hsg, hbody⟩
  unfold strtof
  simp only [hb]
  by_cases hinf : starts_with_ci ['i', 'n', 'f'] body = true
  · exfalso
    apply hno
    right; right; left
    simpa [starts_with_ci] using hinf
  by_cases hnan : starts_with_ci ['n', 'a', 'n'] body = true
  · exfalso
    apply hno
    right; right; right
    simpa [starts_with_ci] using hnan
  rw [if_neg hinf, if_neg hnan]
  cases hx : scan_hex body with
  | some m =>
    exfalso
    apply hno
    left
    unfold scan_hex at hx
    split at hx
    · rename_i z x t
      split at hx
      · rename_i hz
        exact ⟨z, x :: t, rfl, by rw [hz.1]; decide⟩
      · cases hx
    · cases hx
  | none =>
    simp only
    by_cases hm : (scan_mantissa isdigit body).1 ++ (scan_mantissa isdigit body).2.1 = []
    · rw [if_pos hm]
    · exfalso
      apply hno
      by_cases hi : body.takeWhile isdigit = []
      · right; left
        apply scan_mantissa_frac isdigit body hi
        intro hf
        apply hm
        rw [scan_mantissa_fst, hi, hf]
        rfl
      · left
        exact takeWhile_ne_nil _ _ hi

theorem stof_begins (uf : Bool) (s : List Char) (h : ¬ begins_with_float s) :
    stof uf s = .error .invalid_argument := by
  unfold stof
  rw [strtof_begins s h]

/-! ## Lemmas on literals -/

theorem isdigit_literal_char (c : Char) (h : isdigit c = true) : literal_char c = true := by
  simp [literal_char, h]

theorem sign_text_literal (sg : Option Bool) : ∀ c ∈ sign_text sg, literal_char c = true := by
  intro c hc
  rcases sg with _ | _ | _
  · simp [sign_text] at hc
  · simp only [sign_text, List.mem_singleton] at hc
    rw [hc]; decide
  · simp only [sign_text, List.mem_singleton] at hc
    rw [hc]; decide

theorem IntLit.digits_spec (l : IntLit) (h : l.well_formed = true) :
    l.digits ≠ [] ∧ ∀ c ∈ l.digits, isdigit c = true := by
  simp only [IntLit.well_formed, Bool.and_eq_true, Bool.not_eq_true', List.isEmpty_eq_false,
    List.all_eq_true] at h
  exact ⟨by simpa using h.1, h.2⟩

theorem IntLit.int_text_literal (l : IntLit) (h : l.well_formed = true) :
    ∀ c ∈ l.text, literal_char c = true := by
  intro c hc
  rcases List.mem_append.mp hc with hc | hc
  · exact sign_text_literal _ c hc
  · exact isdigit_literal_char c ((l.digits_spec h).2 c hc)

/-- The digit loop computes the number that the digits denote. -/
theorem digits_value_decimal (ds : List Char) (h : ∀ c ∈ ds, isdigit c = true) :
    digits_value 10 ds = decimal_value ds := by
  have key : ∀ (l : List Char) (acc : Nat), (∀ c ∈ l, isdigit c = true) →
      l.foldl (fun n c => 10 * n + digit_value c) acc
        = acc * 10 ^ l.length + Nat.ofDigits 10 (l.reverse.map (fun c => c.toNat - '0'.toNat)) := by
    intro l
    induction l with
    | nil => intro acc _; simp
    | cons c cs ih =>
      intro acc hl
      have hc : isdigit c = true := hl c (List.mem_cons_self _ _)
      have hcs : ∀ d ∈ cs, isdigit d = true := fun d hd => hl d (List.mem_cons_of_mem _ hd)
      rw [List.foldl_cons, ih _ hcs]
      simp only [List.reverse_cons, List.map_append, List.map_cons, List.map_nil,
        Nat.ofDigits_append, Nat.ofDigits_singleton, List.length_map, List.length_reverse,
        List.length_cons, digit_value, hc, if_true]
      have e0 : '0'.toNat = 48 := by decide
      rw [e0]
      ring
  unfold digits_value decimal_value
  rw [key ds 0 h]
  simp

theorem dropWhile_space_literal (s : List Char) (h : ∀ c ∈ s, literal_char c = true) :
    s.dropWhile isspace = s := by
  cases s with
  | nil => rfl
  | cons c t =>
    have hc := h c (List.mem_cons_self _ _)
    have hs : ¬ isspace c = true := by
      intro hsp
      simp only [literal_char, isdigit, isspace, Bool.or_eq_true, Bool.and_eq_true,
        decide_eq_true_eq] at hc hsp
      rcases hsp with ((((e | e) | e) | e) | e) | e <;> rw [e] at hc <;> revert hc <;> decide
    exact List.dropWhile_cons_of_neg hs

theorem take_sign_sign_text (sg : Option Bool) (body : List Char)
    (h : ∀ d rest, body = d :: rest → d ≠ '-' ∧ d ≠ '+') :
    take_sign (sign_text sg ++ body) = (decide (sg = some true), body) := by
  rcases sg with _ | _ | _
  · cases body with
    | nil => rfl
    | cons d rest =>
      obtain ⟨hm, hp⟩ := h d rest rfl
      simp [sign_text, take_sign, hm, hp]
  · simp [sign_text, take_sign]
  · simp [sign_text, take_sign]

theorem isdigit_not_sign (d : Char) (h : isdigit d = true) : d ≠ '-' ∧ d ≠ '+' := by
  constructor <;> intro e <;> rw [e] at h <;> revert h <;> decide

theorem takeWhile_digits (ds rest : List Char) (h : ∀ c ∈ ds, isdigit c = true)
    (hr : ∀ d t, rest = d :: t → isdigit d = false) :
    (ds ++ rest).takeWhile isdigit = ds ∧ (ds ++ rest).dropWhile isdigit = rest := by
  induction ds with
  | nil =>
    cases rest with
    | nil => exact ⟨rfl, rfl⟩
    | cons d t =>
      have := hr d t rfl
      simp [List.takeWhile, List.dropWhile, this]
  | cons c cs ih =>
    have hc := h c (List.mem_cons_self _ _)
    have := ih (fun d hd => h d (List.mem_cons_of_mem _ hd))
    simp [List.takeWhile, List.dropWhile, hc, this]

/-- On the text of a well-formed integer literal in the range of `int`, `std::stoi` returns
the integer that the literal denotes. -/
theorem stoi_literal (l : IntLit) (h : l.well_formed = true)
    (hr : INT_MIN ≤ l.value ∧ l.value ≤ INT_MAX) : stoi l.text = .ok l.value := by
  obtain ⟨hne, hd⟩ := l.digits_spec h
  unfold stoi
  rw [dropWhile_space_literal _ (l.int_text_literal h)]
  have hs : take_sign l.text = (decide (l.sign = some true), l.digits) := by
    apply take_sign_sign_text
    intro d rest e
    exact isdigit_not_sign d (hd d (by rw [e]; exact List.mem_cons_self _ _))
  rw [hs]
  have ht : l.digits.takeWhile isdigit = l.digits := by
    have := (takeWhile_digits l.digits [] hd (fun d t e => by cases e)).1
    simpa using this
  simp only [ht, if_neg hne, digits_value_decimal l.digits hd]
  have hv : (if decide (l.sign = some true) = true then -(decimal_value l.digits : Int)
      else (decimal_value l.digits : Int)) = l.value := by
    unfold IntLit.value
    by_cases hsg : l.sign = some true <;> simp [hsg]
  rw [hv]
  rw [if_neg (by omega)]

theorem FloatLit.spec (l : FloatLit) (h : l.well_formed = true) :
    (∀ c ∈ l.int_part, isdigit c = true) ∧ (∀ c ∈ l.frac_digits, isdigit c = true) ∧
    l.int_part ++ l.frac_digits ≠ [] ∧
    (∀ up e, l.exponent = some (up, e) → e.well_formed = true) := by
  simp only [FloatLit.well_formed, Bool.and_eq_true, Bool.not_eq_true', List.isEmpty_eq_false,
    List.all_eq_true] at h
  obtain ⟨⟨⟨h1, h2⟩, h3⟩, h4⟩ := h
  refine ⟨h1, h2, by simpa using h3, ?_⟩
  intro up e he
  rw [he] at h4
  exact h4

theorem FloatLit.exp_text_head (l : FloatLit) :
    ∀ d t, l.exp_text = d :: t → d = 'e' ∨ d = 'E' := by
  intro d t e
  unfold FloatLit.exp_text at e
  cases hx : l.exponent with
  | none => rw [hx] at e; cases e
  | some pe =>
    obtain ⟨up, x⟩ := pe
    rw [hx] at e
    cases up
    · simp only [Bool.false_eq_true, if_false, List.cons.injEq] at e
      exact Or.inl e.1.symm
    · simp only [if_true, List.cons.injEq] at e
      exact Or.inr e.1.symm

theorem FloatLit.exp_text_literal (l : FloatLit) (h : l.well_formed = true) :
    ∀ c ∈ l.exp_text, literal_char c = true := by
  intro c hc
  unfold FloatLit.exp_text at hc
  cases he : l.exponent with
  | none => rw [he] at hc; simp at hc
  | some pe =>
    obtain ⟨up, e⟩ := pe
    rw [he] at hc
    rcases List.mem_cons.mp hc with hc | hc
    · rw [hc]
      cases up <;> decide
    · exact e.int_text_literal ((l.spec h).2.2.2 up e he) c hc

theorem FloatLit.frac_text_literal (l : FloatLit) (h : l.well_formed = true) :
    ∀ c ∈ l.frac_text, literal_char c = true := by
  intro c hc
  have hf := (l.spec h).2.1
  unfold FloatLit.frac_text at hc
  unfold FloatLit.frac_digits at hf
  cases hfp : l.frac_part with
  | none => rw [hfp] at hc; simp at hc
  | some f =>
    rw [hfp] at hc hf
    rcases List.mem_cons.mp hc with hc | hc
    · rw [hc]; decide
    · exact isdigit_literal_char c (hf c hc)

theorem FloatLit.body_literal (l : FloatLit) (h : l.well_formed = true) :
    ∀ c ∈ l.int_part ++ (l.frac_text ++ l.exp_text), literal_char c = true := by
  intro c hc
  rcases List.mem_append.mp hc with hc | hc
  · exact isdigit_literal_char c ((l.spec h).1 c hc)
  · rcases List.mem_append.mp hc with hc | hc
    · exact l.frac_text_literal h c hc
    · exact l.exp_text_literal h c hc

theorem FloatLit.float_text_literal (l : FloatLit) (h : l.well_formed = true) :
    ∀ c ∈ l.text, literal_char c = true := by
  intro c hc
  rcases List.mem_append.mp hc with hc | hc
  · exact sign_text_literal _ c hc
  · exact l.body_literal h c hc

/-- The number part of a well-formed literal starts with a digit or with the point. -/
theorem FloatLit.body_head (l : FloatLit) (h : l.well_formed = true) :
    ∃ d t, l.int_part ++ (l.frac_text ++ l.exp_text) = d :: t ∧ (isdigit d = true ∨ d = '.') := by
  obtain ⟨hi, hf, hne, -⟩ := l.spec h
  cases hip : l.int_part with
  | cons d t => exact ⟨d, _, rfl, Or.inl (hi d (by rw [hip]; exact List.mem_cons_self _ _))⟩
  | nil =>
    rw [hip] at hne
    unfold FloatLit.frac_digits at hne
    unfold FloatLit.frac_text
    cases hfp : l.frac_part with
    | none => rw [hfp] at hne; simp at hne
    | some f => exact ⟨'.', _, rfl, Or.inr rfl⟩

theorem not_word_of_head (w1 w2 w3 d : Char) (t : List Char)
    (h : tolower d ≠ w1) : starts_with_ci [w1, w2, w3] (d :: t) = false := by
  unfold starts_with_ci
  cases t with
  | nil => simp
  | cons a u =>
    cases u with
    | nil => simp
    | cons b v => simp [h]

theorem tolower_head (d : Char) (h : isdigit d = true ∨ d = '.') :
    tolower d ≠ 'i' ∧ tolower d ≠ 'n' := by
  rcases h with h | h
  · simp only [isdigit, Bool.and_eq_true, decide_eq_true_eq] at h
    have e : tolower d = d := by
      unfold tolower
      rw [if_neg (by omega)]
    rw [e]
    constructor <;> intro c <;> rw [c] at h <;> revert h <;> decide
  · rw [h]
    decide

theorem scan_hex_literal (body : List Char) (h : ∀ c ∈ body, literal_char c = true) :
    scan_hex body = none := by
  unfold scan_hex
  split
  · rename_i z x t
    have hx := h x (List.mem_cons_of_mem _ (List.mem_cons_self _ _))
    rw [if_neg]
    rintro ⟨-, e | e⟩ <;> rw [e] at hx <;> revert hx <;> decide
  · rfl

theorem exp_head_not_digit (l : FloatLit) :
    ∀ d t, l.exp_text = d :: t → isdigit d = false := by
  intro d t e
  rcases l.exp_text_head d t e with h | h <;> rw [h] <;> decide

theorem scan_mantissa_literal (l : FloatLit) (h : l.well_formed = true) :
    scan_mantissa isdigit (l.int_part ++ (l.frac_text ++ l.exp_text))
      = (l.int_part, l.frac_digits, l.exp_text) := by
  obtain ⟨hi, hf, -, -⟩ := l.spec h
  unfold FloatLit.frac_text
  unfold FloatLit.frac_digits at hf ⊢
  cases hfp : l.frac_part with
  | none =>
    obtain ⟨e1, e2⟩ := takeWhile_digits l.int_part l.exp_text hi (exp_head_not_digit l)
    unfold scan_mantissa
    simp only [List.nil_append, e1, e2, Option.getD_none]
    cases hx : l.exp_text with
    | nil => rfl
    | cons c t =>
      have hc : ¬ c = '.' := by
        rcases l.exp_text_head c t hx with e | e <;> rw [e] <;> decide
      simp only [if_neg hc]
  | some f =>
    rw [hfp] at hf
    simp only [Option.getD_some] at hf ⊢
    obtain ⟨e1, e2⟩ := takeWhile_digits l.int_part ('.' :: f ++ l.exp_text) hi
      (fun d t e => by
        have : d = '.' := by
          simp only [List.cons_append, List.cons.injEq] at e
          exact e.1.symm
        rw [this]; decide)
    obtain ⟨e3, e4⟩ := takeWhile_digits f l.exp_text hf (exp_head_not_digit l)
    rw [List.cons_append] at e1 e2
    unfold scan_mantissa
    simp only [e1, e2, List.cons_append, if_true, e3, e4]

theorem scan_exponent_literal (l : FloatLit) (h : l.well_formed = true) :
    scan_exponent 'e' 'E' l.exp_text = l.exp_value := by
  unfold FloatLit.exp_text FloatLit.exp_value
  cases hx : l.exponent with
  | none => rfl
  | some pe =>
    obtain ⟨up, e⟩ := pe
    have he := (l.spec h).2.2.2 up e hx
    obtain ⟨hne, hd⟩ := e.digits_spec he
    have hc : (if up = true then 'E' else 'e') = 'e' ∨ (if up = true then 'E' else 'e') = 'E' := by
      cases up
      · exact Or.inl rfl
      · exact Or.inr rfl
    have hs : take_sign e.text = (decide (e.sign = some true), e.digits) := by
      apply take_sign_sign_text
      intro d rest e'
      exact isdigit_not_sign d (hd d (by rw [e']; exact List.mem_cons_self _ _))
    have ht : e.digits.takeWhile isdigit = e.digits := by
      have := (takeWhile_digits e.digits [] hd (fun d t e => by cases e)).1
      simpa using this
    simp only [scan_exponent, if_pos hc, hs, ht, if_neg hne, digits_value_decimal e.digits hd]
    unfold IntLit.value
    by_cases hsg : e.sign = some true <;> simp [hsg]

/-- On the text of a well-formed floating-point literal `strtof` converts the whole text:
the exact value handed to the rounding is the one that the literal denotes. -/
theorem strtof_literal (l : FloatLit) (h : l.well_formed = true) :
    strtof l.text = some (round_float32 (decide (l.sign = some true))
      (scale_pow 10 (decimal_value (l.int_part ++ l.frac_digits))
        (l.exp_value - (l.frac_digits.length : Int))).1
      (scale_pow 10 (decimal_value (l.int_part ++ l.frac_digits))
        (l.exp_value - (l.frac_digits.length : Int))).2) := by
  obtain ⟨hi, hf, hne, -⟩ := l.spec h
  obtain ⟨d, t, hb, hd⟩ := l.body_head h
  unfold strtof
  rw [dropWhile_space_literal _ (l.float_text_literal h)]
  have hs : take_sign l.text
      = (decide (l.sign = some true), l.int_part ++ (l.frac_text ++ l.exp_text)) := by
    apply take_sign_sign_text
    intro d' rest e
    rw [hb] at e
    have : d' = d := by
      simp only [List.cons.injEq] at e
      exact e.1.symm
    rw [this]
    rcases hd with hd | hd
    · exact isdigit_not_sign d hd
    · rw [hd]; decide
  have hinf : starts_with_ci ['i', 'n', 'f'] (l.int_part ++ (l.frac_text ++ l.exp_text))
      = false := by
    rw [hb]; exact not_word_of_head _ _ _ d t (tolower_head d hd).1
  have hnan : starts_with_ci ['n', 'a', 'n'] (l.int_part ++ (l.frac_text ++ l.exp_text))
      = false := by
    rw [hb]; exact not_word_of_head _ _ _ d t (tolower_head d hd).2
  have hdig : ∀ c ∈ l.int_part ++ l.frac_digits, isdigit c = true := by
    intro c hc
    rcases List.mem_append.mp hc with hc | hc
    · exact hi c hc
    · exact hf c hc
  simp only [hs, hinf, hnan, Bool.false_eq_true, if_false, scan_hex_literal _ (l.body_literal h),
    scan_mantissa_literal l h, if_neg hne, scan_exponent_literal l h,
    digits_value_decimal _ hdig]

/-- The rounding stays in range on zero and on a value between `2^-126` and the overflow
threshold. -/
theorem round_float32_ok (neg : Bool) (num den : Nat)
    (h : num = 0 ∨ (den ≤ num * 2 ^ 126 ∧ num < (2 ^ 128 - 2 ^ 103) * den)) :
    (round_float32 neg num den).2 = RangeStatus.ok := by
  unfold round_float32
  by_cases h0 : num = 0
  · rw [if_pos h0]
  · rw [if_neg h0]
    rcases h with h | ⟨hlo, hhi⟩
    · exact absurd h h0
    · rw [if_neg (by omega)]
      simp only
      rw [if_neg (by intro hc; have := hc.1; omega)]

theorem scale_pow_value (m : Nat) (e : Int) :
    0 < (scale_pow 10 m e).2 ∧
    ((scale_pow 10 m e).1 : ℚ) / ((scale_pow 10 m e).2 : ℚ) = (m : ℚ) * (10 : ℚ) ^ e := by
  unfold scale_pow
  by_cases he : 0 ≤ e
  · rw [if_pos he]
    refine ⟨Nat.one_pos, ?_⟩
    obtain ⟨n, rfl⟩ := Int.eq_ofNat_of_zero_le he
    simp
  · rw [if_neg he]
    have hn : 0 ≤ -e := by omega
    obtain ⟨n, hn'⟩ := Int.eq_ofNat_of_zero_le hn
    have e' : e = -(n : Int) := by omega
    refine ⟨by positivity, ?_⟩
    rw [hn', e']
    simp [div_eq_mul_inv]

/-- For a literal in range the conversion of its exact value stays in range. -/
theorem in_range_status (neg : Bool) (l : FloatLit) (hr : l.in_range) :
    (round_float32 neg
      (scale_pow 10 (decimal_value (l.int_part ++ l.frac_digits))
        (l.exp_value - (l.frac_digits.length : Int))).1
      (scale_pow 10 (decimal_value (l.int_part ++ l.frac_digits))
        (l.exp_value - (l.frac_digits.length : Int))).2).2 = RangeStatus.ok := by
  obtain ⟨hden, hval⟩ := scale_pow_value (decimal_value (l.int_part ++ l.frac_digits))
    (l.exp_value - (l.frac_digits.length : Int))
  generalize (scale_pow 10 (decimal_value (l.int_part ++ l.frac_digits))
    (l.exp_value - (l.frac_digits.length : Int))).1 = num at hval ⊢
  generalize (scale_pow 10 (decimal_value (l.int_part ++ l.frac_digits))
    (l.exp_value - (l.frac_digits.length : Int))).2 = den at hval hden ⊢
  have hmag : l.magnitude = (num : ℚ) / (den : ℚ) := by
    rw [hval]; rfl
  have hdq : (0 : ℚ) < (den : ℚ) := by exact_mod_cast hden
  apply round_float32_ok
  rcases hr with hz | ⟨hlo, hhi⟩
  · left
    rw [hmag, div_eq_zero_iff] at hz
    rcases hz with hz | hz
    · exact_mod_cast hz
    · exact absurd hz (ne_of_gt hdq)
  · right
    rw [hmag] at hlo hhi
    constructor
    · have h1 : (1 : ℚ) / 2 ^ 126 ≤ (num : ℚ) / (den : ℚ) := hlo
      rw [div_le_div_iff₀ (by positivity) hdq] at h1
      have h2 : ((den : ℕ) : ℚ) ≤ ((num * 2 ^ 126 : ℕ) : ℚ) := by
        push_cast
        linarith
      exact_mod_cast h2
    · have h1 : (num : ℚ) / (den : ℚ) ≤ (2 ^ 24 - 1) * 2 ^ 104 := hhi
      rw [div_le_iff₀ hdq] at h1
      have h2 : ((num : ℕ) : ℚ) ≤ ((340282346638528859811704183484516925440 * den : ℕ) : ℚ) := by
        push_cast
        have e : ((2 : ℚ) ^ 24 - 1) * 2 ^ 104 = 340282346638528859811704183484516925440 := by
          norm_num
        rw [e] at h1
        exact h1
      have h3 : num ≤ 340282346638528859811704183484516925440 * den := by exact_mod_cast h2
      have e : (2 ^ 128 - 2 ^ 103 : ℕ) = 340282356779733661637539395458142568448 := by norm_num
      rw [e]
      omega

/-- On the text of a well-formed floating-point literal in range, `std::stof` returns the
rounded value and throws nothing. -/
theorem stof_literal (uf : Bool) (l : FloatLit) (h : l.well_formed = true) (hr : l.in_range) :
    ∃ v, stof uf l.text = .ok v := by
  have hs := in_range_status (decide (l.sign = some true)) l hr
  unfold stof
  rw [strtof_literal l h]
  generalize round_float32 (decide (l.sign = some true))
    (scale_pow 10 (decimal_value (l.int_part ++ l.frac_digits))
      (l.exp_value - (l.frac_digits.length : Int))).1
    (scale_pow 10 (decimal_value (l.int_part ++ l.frac_digits))
      (l.exp_value - (l.frac_digits.length : Int))).2 = res at hs ⊢
  obtain ⟨v, st⟩ := res
  simp only at hs
  rw [hs]
  exact ⟨v, rfl⟩

theorem literal_no_comma (s : List Char) (h : ∀ c ∈ s, literal_char c = true) : ',' ∉ s := by
  intro hc
  have := h ',' hc
  revert this
  decide

/-! ## Lemmas on the loader -/

/-- The record of an accepted line does not depend on the record handed to the parser. -/
theorem accepted_indep (uf : Bool) (px px' : Pixel) (line : List Char) :
    accepted uf px line = accepted uf px' line := by
  unfold accepted
  rcases line_cases uf line px with ⟨hc, hf⟩ | ⟨-, f1, f2, f3, f4, f5, h1, h2, h3, h4, rfl⟩
  · rcases line_cases uf line px' with ⟨-, hf'⟩ | ⟨hc', -⟩
    · rw [hf, hf']
    · omega
  · rw [parse_pixel_line_fields uf f1 f2 f3 f4 f5 px h1 h2 h3 h4,
      parse_pixel_line_fields uf f1 f2 f3 f4 f5 px' h1 h2 h3 h4]
    have key : ∀ p, convert_fields uf f1 f2 f3 f4 f5 px = (true, p) ↔
        convert_fields uf f1 f2 f3 f4 f5 px' = (true, p) := by
      intro p
      rw [convert_fields_true, convert_fields_true]
    generalize convert_fields uf f1 f2 f3 f4 f5 px = a at key
    generalize convert_fields uf f1 f2 f3 f4 f5 px' = b at key
    obtain ⟨ba, pa⟩ := a
    obtain ⟨bb, pb⟩ := b
    cases ba <;> cases bb
    · rfl
    · have := (key pb).mpr rfl
      cases this
    · have := (key pa).mp rfl
      cases this
    · have := (key pa).mp rfl
      cases this
      rfl

theorem getline_of_ne (fin : List Char) (h : fin ≠ []) :
    getline fin = some (fin.takeWhile (fun c => c != '\n'),
      (fin.dropWhile (fun c => c != '\n')).drop 1) := by
  cases fin with
  | nil => exact absurd rfl h
  | cons c t => rfl

theorem getline_line (l rest : List Char) (h : '\n' ∉ l) :
    getline (l ++ '\n' :: rest) = some (l, rest) := by
  have hp : ∀ c ∈ l, (fun c : Char => c != '\n') c = true := by
    intro c hc
    have : c ≠ '\n' := fun e => h (e ▸ hc)
    simpa using this
  have e1 : (l ++ '\n' :: rest).takeWhile (fun c => c != '\n') = l := by
    rw [List.takeWhile_append_of_pos hp]
    simp
  have e2 : (l ++ '\n' :: rest).dropWhile (fun c => c != '\n') = '\n' :: rest := by
    rw [List.dropWhile_append_of_pos hp]
    simp
  rw [getline_of_ne _ (by simp), e1, e2]
  rfl

theorem getline_last (l : List Char) (h : '\n' ∉ l) (hne : l ≠ []) :
    getline l = some (l, []) := by
  have hp : ∀ c ∈ l, (fun c : Char => c != '\n') c = true := by
    intro c hc
    have : c ≠ '\n' := fun e => h (e ▸ hc)
    simpa using this
  have e1 : l.takeWhile (fun c => c != '\n') = l := List.takeWhile_eq_self_iff.mpr hp
  have e2 : l.dropWhile (fun c => c != '\n') = [] := List.dropWhile_eq_nil_iff.mpr hp
  rw [getline_of_ne _ hne, e1, e2]
  rfl

/-- Every text is made of lines that end with a line break and of a last piece without. -/
theorem every_text (fin : List Char) :
    ∃ ls last, (∀ l ∈ ls, '\n' ∉ l) ∧ '\n' ∉ last ∧ fin = text_of ls last := by
  induction fin with
  | nil => exact ⟨[], [], by simp, by simp, rfl⟩
  | cons c t ih =>
    obtain ⟨ls, last, hls, hlast, e⟩ := ih
    by_cases hc : c = '\n'
    · refine ⟨[] :: ls, last, ?_, hlast, ?_⟩
      · intro l hl
        rcases List.mem_cons.mp hl with rfl | hl
        · simp
        · exact hls l hl
      · rw [e, hc]; rfl
    · cases ls with
      | nil =>
        refine ⟨[], c :: last, by simp, ?_, ?_⟩
        · intro hm
          rcases List.mem_cons.mp hm with e' | e'
          · exact hc e'.symm
          · exact hlast e'
        · rw [e]; rfl
      | cons l ls =>
        refine ⟨(c :: l) :: ls, last, ?_, hlast, ?_⟩
        · intro l' hl'
          rcases List.mem_cons.mp hl' with rfl | hl'
          · intro hm
            rcases List.mem_cons.mp hm with e' | e'
            · exact hc e'.symm
            · exact hls l (List.mem_cons_self _ _) e'
          · exact hls l' (List.mem_cons_of_mem _ hl')
        · rw [e]; rfl

/-- One pass through the loop body: no exception, and the state advanced by one line. -/
theorem load_step_ok (uf : Bool) (px : Pixel) (st : LoadState) (line : List Char) :
    load_step uf px st line = .ok (state_after uf px st [line]) := by
  unfold load_step
  by_cases hl : line = []
  · simp [hl, state_after, nonempty_lines]
  · obtain ⟨⟨b, p⟩, hp⟩ := parse_pixel_line_returns uf line px
    have hne : (!line.isEmpty) = true := by
      cases line with
      | nil => exact absurd rfl hl
      | cons c t => rfl
    cases b <;>
      simp [hl, hp, state_after, nonempty_lines, List.filter, hne, accepted, List.countP_cons]

theorem state_after_cons (uf : Bool) (px : Pixel) (st : LoadState) (l : List Char)
    (lines : List (List Char)) :
    state_after uf px (state_after uf px st [l]) lines = state_after uf px st (l :: lines) := by
  by_cases hl : (!l.isEmpty) = true
  · simp [state_after, nonempty_lines, List.filter, hl, List.countP_cons, List.filterMap_cons]
    refine ⟨?_, by omega, by omega, by omega⟩
    cases accepted uf px l <;> simp
  · simp [state_after, nonempty_lines, List.filter, hl]
    omega

theorem state_after_nil (uf : Bool) (px : Pixel) (st : LoadState) :
    state_after uf px st [] = st := by
  simp [state_after, nonempty_lines]

theorem state_after_indep (uf : Bool) (px px' : Pixel) (st : LoadState)
    (lines : List (List Char)) : state_after uf px st lines = state_after uf px' st lines := by
  have e : accepted uf px = accepted uf px' := funext (accepted_indep uf px px')
  unfold state_after
  rw [e]

/-- The read loop on a text, from any state and with fuel beyond the length of the text:
it ends, no exception leaves it, and the state has advanced by the lines of the text. -/
theorem load_loop_text (uf : Bool) (px : Pixel) (ls : List (List Char)) (last : List Char)
    (hls : ∀ l ∈ ls, '\n' ∉ l) (hlast : '\n' ∉ last) :
    ∀ (st : LoadState) (fuel : Nat), (text_of ls last).length < fuel →
      load_loop uf px fuel st (text_of ls last)
        = some (.ok (state_after uf px st (ls ++ (if last = [] then [] else [last])))) := by
  induction ls with
  | nil =>
    intro st fuel hf
    cases fuel with
    | zero => omega
    | succ f =>
      simp only [text_of] at hf ⊢
      by_cases hl : last = []
      · rw [hl]
        simp [load_loop, getline, state_after_nil]
      · simp only [load_loop, getline_last last hlast hl, load_step_ok, if_neg hl,
          List.nil_append]
        have hpos : 0 < last.length := List.length_pos.mpr hl
        cases f with
        | zero => omega
        | succ f' => simp [load_loop, getline]
  | cons l ls ih =>
    intro st fuel hf
    have hl : '\n' ∉ l := hls l (List.mem_cons_self _ _)
    have hls' : ∀ l' ∈ ls, '\n' ∉ l' := fun l' h' => hls l' (List.mem_cons_of_mem _ h')
    cases fuel with
    | zero => omega
    | succ f =>
      simp only [text_of, List.length_append, List.length_cons] at hf
      simp only [text_of, load_loop, getline_line l _ hl, load_step_ok]
      rw [ih hls' _ f (by omega), state_after_cons]
      rfl

/-! ## More lemmas on the slices and on the transformer -/

/-- The four searches and the five slices of `parse_pixel_line` on a line made of four
comma-free fields, each followed by a comma, and a rest. -/
theorem find_substr_fields (f1 f2 f3 f4 f5 : List Char)
    (h1 : ',' ∉ f1) (h2 : ',' ∉ f2) (h3 : ',' ∉ f3) (h4 : ',' ∉ f4) :
    find (f1 ++ ',' :: (f2 ++ ',' :: (f3 ++ ',' :: (f4 ++ ',' :: f5)))) ',' 0
      = some f1.length ∧
    find (f1 ++ ',' :: (f2 ++ ',' :: (f3 ++ ',' :: (f4 ++ ',' :: f5)))) ',' (f1.length + 1)
      = some (f1.length + 1 + f2.length) ∧
    find (f1 ++ ',' :: (f2 ++ ',' :: (f3 ++ ',' :: (f4 ++ ',' :: f5)))) ','
        (f1.length + 1 + f2.length + 1)
      = some (f1.length + 1 + f2.length + 1 + f3.length) ∧
    find (f1 ++ ',' :: (f2 ++ ',' :: (f3 ++ ',' :: (f4 ++ ',' :: f5)))) ','
        (f1.length + 1 + f2.length + 1 + f3.length + 1)
      = some (f1.length + 1 + f2.length + 1 + f3.length + 1 + f4.length) ∧
    substr (f1 ++ ',' :: (f2 ++ ',' :: (f3 ++ ',' :: (f4 ++ ',' :: f5)))) 0 f1.length
      = .ok f1 ∧
    substr (f1 ++ ',' :: (f2 ++ ',' :: (f3 ++ ',' :: (f4 ++ ',' :: f5)))) (f1.length + 1)
        f2.length = .ok f2 ∧
    substr (f1 ++ ',' :: (f2 ++ ',' :: (f3 ++ ',' :: (f4 ++ ',' :: f5))))
        (f1.length + 1 + f2.length + 1) f3.length = .ok f3 ∧
    substr (f1 ++ ',' :: (f2 ++ ',' :: (f3 ++ ',' :: (f4 ++ ',' :: f5))))
        (f1.length + 1 + f2.length + 1 + f3.length + 1) f4.length = .ok f4 ∧
    substr_to_end (f1 ++ ',' :: (f2 ++ ',' :: (f3 ++ ',' :: (f4 ++ ',' :: f5))))
        (f1.length + 1 + f2.length + 1 + f3.length + 1 + f4.length + 1) = .ok f5 := by
  have e1 := find_at [] f1 (f2 ++ ',' :: (f3 ++ ',' :: (f4 ++ ',' :: f5))) ',' h1
  have e2 := find_at (f1 ++ [',']) f2 (f3 ++ ',' :: (f4 ++ ',' :: f5)) ',' h2
  have e3 := find_at (f1 ++ [','] ++ (f2 ++ [','])) f3 (f4 ++ ',' :: f5) ',' h3
  have e4 := find_at (f1 ++ [','] ++ (f2 ++ [',']) ++ (f3 ++ [','])) f4 f5 ',' h4
  have s1 := substr_at [] f1 (',' :: (f2 ++ ',' :: (f3 ++ ',' :: (f4 ++ ',' :: f5))))
  have s2 := substr_at (f1 ++ [',']) f2 (',' :: (f3 ++ ',' :: (f4 ++ ',' :: f5)))
  have s3 := substr_at (f1 ++ [','] ++ (f2 ++ [','])) f3 (',' :: (f4 ++ ',' :: f5))
  have s4 := substr_at (f1 ++ [','] ++ (f2 ++ [',']) ++ (f3 ++ [','])) f4 (',' :: f5)
  have s5 := substr_to_end_at
    (f1 ++ [','] ++ (f2 ++ [',']) ++ (f3 ++ [',']) ++ (f4 ++ [','])) f5
  simp only [List.nil_append, List.length_nil, List.append_assoc, List.singleton_append,
    List.length_append, List.length_cons, Nat.zero_add, List.cons_append]
    at e1 e2 e3 e4 s1 s2 s3 s4 s5
  have p3 : f1.length + (f2.length + 1 + 1) = f1.length + 1 + f2.length + 1 := by omega
  have p4 : f1.length + (f2.length + (f3.length + 1 + 1) + 1)
      = f1.length + 1 + f2.length + 1 + f3.length + 1 := by omega
  have p5 : f1.length + (f2.length + (f3.length + (f4.length + 1 + 1) + 1) + 1)
      = f1.length + 1 + f2.length + 1 + f3.length + 1 + f4.length + 1 := by omega
  rw [p3] at e3 s3
  rw [p4] at e4 s4
  rw [p5] at s5
  exact ⟨e1, e2, e3, e4, s1, s2, s3, s4, s5⟩

/-- The flip as a map when no difference `max_y - y` exceeds `INT_MAX`. -/
theorem flip_vertically_of_span (l : List Pixel)
    (h : ∀ p ∈ l, max_y_of l - p.y ≤ INT_MAX) :
    flip_vertically l = l.map (fun p => { p with y := max_y_of l - p.y }) := by
  rw [flip_vertically_eq_map]
  apply List.map_congr_left
  intro p hp
  have hM := max_y_of_ge l p hp
  have hw : int_sub (max_y_of l) p.y = max_y_of l - p.y := by
    unfold int_sub
    apply wrap32_of_range
    · unfold INT_MIN; omega
    · exact h p hp
  rw [hw]

/-! ## Lemmas on the rounding -/

theorem bit_log2_loop_spec : ∀ (fuel n : Nat), 0 < n → n ≤ fuel →
    2 ^ bit_log2_loop fuel n ≤ n ∧ n < 2 ^ (bit_log2_loop fuel n + 1) := by
  intro fuel
  induction fuel with
  | zero => intro n h0 h1; omega
  | succ f ih =>
    intro n h0 h1
    unfold bit_log2_loop
    by_cases h2 : n < 2
    · rw [if_pos h2]
      have : n = 1 := by omega
      subst this
      exact ⟨by norm_num, by norm_num⟩
    · rw [if_neg h2]
      have hd : 0 < n / 2 := Nat.div_pos (by omega) (by norm_num)
      obtain ⟨a, b⟩ := ih (n / 2) hd (by omega)
      constructor
      · rw [pow_succ]
        have := Nat.div_mul_le_self n 2
        nlinarith
      · rw [pow_succ]
        have := Nat.lt_mul_div_succ n (b := 2) (by norm_num)
        omega

theorem bit_log2_spec (n : Nat) (h : 0 < n) :
    2 ^ bit_log2 n ≤ n ∧ n < 2 ^ (bit_log2 n + 1) :=
  bit_log2_loop_spec n n h (Nat.le_refl n)

theorem scale2_spec (num den : Nat) (q : Int) (hden : 0 < den) :
    0 < (scale2 num den q).2 ∧
    ((scale2 num den q).1 : ℚ) / ((scale2 num den q).2 : ℚ)
      = ((num : ℚ) / (den : ℚ)) / (2 : ℚ) ^ q := by
  have hdq : (den : ℚ) ≠ 0 := by exact_mod_cast (ne_of_gt hden)
  unfold scale2
  by_cases hq : 0 ≤ q
  · rw [if_pos hq]
    obtain ⟨n, rfl⟩ := Int.eq_ofNat_of_zero_le hq
    refine ⟨by positivity, ?_⟩
    simp only [Int.toNat_ofNat, Nat.cast_mul, Nat.cast_pow, Nat.cast_ofNat, zpow_natCast]
    rw [div_div]
  · rw [if_neg hq]
    have hn : 0 ≤ -q := by omega
    obtain ⟨n, hn'⟩ := Int.eq_ofNat_of_zero_le hn
    have e' : q = -(n : Int) := by omega
    refine ⟨hden, ?_⟩
    rw [hn', e']
    simp only [Int.toNat_ofNat, Nat.cast_mul, Nat.cast_pow, Nat.cast_ofNat, zpow_neg,
      zpow_natCast]
    field_simp

theorem two_zpow_pos (e : Int) : (0 : ℚ) < (2 : ℚ) ^ e := zpow_pos (by norm_num) e

/-- The exponent computed by `floor_log2` is the one of the binade of `num / den`. -/
theorem floor_log2_spec (num den : Nat) (hn : 0 < num) (hd : 0 < den) :
    (2 : ℚ) ^ floor_log2 num den ≤ (num : ℚ) / (den : ℚ) ∧
    (num : ℚ) / (den : ℚ) < (2 : ℚ) ^ (floor_log2 num den + 1) := by
  obtain ⟨n1, n2⟩ := bit_log2_spec num hn
  obtain ⟨d1, d2⟩ := bit_log2_spec den hd
  have hdq : (0 : ℚ) < (den : ℚ) := by exact_mod_cast hd
  have hnq : (0 : ℚ) < (num : ℚ) := by exact_mod_cast hn
  have n1q : (2 : ℚ) ^ (bit_log2 num : Int) ≤ (num : ℚ) := by
    rw [zpow_natCast]; exact_mod_cast n1
  have n2q : (num : ℚ) < (2 : ℚ) ^ ((bit_log2 num : Int) + 1) := by
    rw [show ((bit_log2 num : Int) + 1) = ((bit_log2 num + 1 : Nat) : Int) by push_cast; ring,
      zpow_natCast]
    exact_mod_cast n2
  have d1q : (2 : ℚ) ^ (bit_log2 den : Int) ≤ (den : ℚ) := by
    rw [zpow_natCast]; exact_mod_cast d1
  have d2q : (den : ℚ) < (2 : ℚ) ^ ((bit_log2 den : Int) + 1) := by
    rw [show ((bit_log2 den : Int) + 1) = ((bit_log2 den + 1 : Nat) : Int) by push_cast; ring,
      zpow_natCast]
    exact_mod_cast d2
  obtain ⟨sp, sv⟩ := scale2_spec num den ((bit_log2 num : Int) - (bit_log2 den : Int)) hd
  have spq : (0 : ℚ) < ((scale2 num den ((bit_log2 num : Int) - (bit_log2 den : Int))).2 : ℚ) := by
    exact_mod_cast sp
  have h2 : (2 : ℚ) ≠ 0 := by norm_num
  -- bounds of the quotient from the bounds of numerator and denominator
  have lo : (2 : ℚ) ^ ((bit_log2 num : Int) - (bit_log2 den : Int) - 1)
      < (num : ℚ) / (den : ℚ) := by
    rw [lt_div_iff₀ hdq]
    calc (2 : ℚ) ^ ((bit_log2 num : Int) - (bit_log2 den : Int) - 1) * (den : ℚ)
        < (2 : ℚ) ^ ((bit_log2 num : Int) - (bit_log2 den : Int) - 1)
            * (2 : ℚ) ^ ((bit_log2 den : Int) + 1) :=
          mul_lt_mul_of_pos_left d2q (two_zpow_pos _)
      _ = (2 : ℚ) ^ (bit_log2 num : Int) := by
          rw [← zpow_add₀ h2]; congr 1; ring
      _ ≤ (num : ℚ) := n1q
  have hi : (num : ℚ) / (den : ℚ)
      < (2 : ℚ) ^ ((bit_log2 num : Int) - (bit_log2 den : Int) + 1) := by
    rw [div_lt_iff₀ hdq]
    calc (num : ℚ) < (2 : ℚ) ^ ((bit_log2 num : Int) + 1) := n2q
      _ = (2 : ℚ) ^ ((bit_log2 num : Int) - (bit_log2 den : Int) + 1)
            * (2 : ℚ) ^ (bit_log2 den : Int) := by
          rw [← zpow_add₀ h2]; congr 1; ring
      _ ≤ (2 : ℚ) ^ ((bit_log2 num : Int) - (bit_log2 den : Int) + 1) * (den : ℚ) :=
          mul_le_mul_of_nonneg_left d1q (le_of_lt (two_zpow_pos _))
  unfold floor_log2
  simp only
  by_cases hc : (scale2 num den ((bit_log2 num : Int) - (bit_log2 den : Int))).1
      < (scale2 num den ((bit_log2 num : Int) - (bit_log2 den : Int))).2
  · rw [if_pos hc]
    have hcq : ((scale2 num den ((bit_log2 num : Int) - (bit_log2 den : Int))).1 : ℚ)
        / ((scale2 num den ((bit_log2 num : Int) - (bit_log2 den : Int))).2 : ℚ) < 1 := by
      rw [div_lt_one spq]; exact_mod_cast hc
    rw [sv, div_lt_one (two_zpow_pos _)] at hcq
    refine ⟨le_of_lt lo, ?_⟩
    rw [show (bit_log2 num : Int) - (bit_log2 den : Int) - 1 + 1
      = (bit_log2 num : Int) - (bit_log2 den : Int) by ring]
    exact hcq
  · rw [if_neg hc]
    have hcq : 1 ≤ ((scale2 num den ((bit_log2 num : Int) - (bit_log2 den : Int))).1 : ℚ)
        / ((scale2 num den ((bit_log2 num : Int) - (bit_log2 den : Int))).2 : ℚ) := by
      rw [one_le_div spq]; exact_mod_cast (Nat.le_of_not_lt hc)
    rw [sv, one_le_div (two_zpow_pos _)] at hcq
    exact ⟨hcq, hi⟩

/-- A number lies in one binade only. -/
theorem binade_unique (x : ℚ) (a b : Int)
    (ha : (2 : ℚ) ^ a ≤ x ∧ x < (2 : ℚ) ^ (a + 1))
    (hb : (2 : ℚ) ^ b ≤ x ∧ x < (2 : ℚ) ^ (b + 1)) : a = b := by
  have h1 : (2 : ℚ) ^ a < (2 : ℚ) ^ (b + 1) := lt_of_le_of_lt ha.1 hb.2
  have h2 : (2 : ℚ) ^ b < (2 : ℚ) ^ (a + 1) := lt_of_le_of_lt hb.1 ha.2
  rw [zpow_lt_zpow_iff_right₀ (by norm_num)] at h1 h2
  omega

theorem round_half_even_exact (M b : Nat) (hb : 0 < b) : round_half_even (M * b) b = M := by
  unfold round_half_even
  simp only [Nat.mul_mod_left, Nat.mul_zero, Nat.mul_div_cancel _ hb]
  rw [if_pos hb]

theorem scale_pow_two_value (m : Nat) (e : Int) :
    0 < (scale_pow 2 m e).2 ∧
    ((scale_pow 2 m e).1 : ℚ) / ((scale_pow 2 m e).2 : ℚ) = (m : ℚ) * (2 : ℚ) ^ e := by
  unfold scale_pow
  by_cases he : 0 ≤ e
  · rw [if_pos he]
    refine ⟨Nat.one_pos, ?_⟩
    obtain ⟨n, rfl⟩ := Int.eq_ofNat_of_zero_le he
    simp
  · rw [if_neg he]
    have hn : 0 ≤ -e := by omega
    obtain ⟨n, hn'⟩ := Int.eq_ofNat_of_zero_le hn
    have e' : e = -(n : Int) := by omega
    refine ⟨by positivity, ?_⟩
    rw [hn', e']
    simp [div_eq_mul_inv]

/-- A significand of exactly `prec` bits puts the number `M * 2^E` in the binade of
exponent `E + prec - 1`. -/
theorem canonical_binade (prec M : Nat) (E : Int) (hp : 1 ≤ prec)
    (h1 : 2 ^ (prec - 1) ≤ M) (h2 : M < 2 ^ prec) :
    (2 : ℚ) ^ (E + ((prec : Int) - 1)) ≤ (M : ℚ) * (2 : ℚ) ^ E ∧
    (M : ℚ) * (2 : ℚ) ^ E < (2 : ℚ) ^ (E + ((prec : Int) - 1) + 1) := by
  have h2ne : (2 : ℚ) ≠ 0 := by norm_num
  have hpc : ((prec : Int) - 1) = ((prec - 1 : Nat) : Int) := by omega
  have h1q : (2 : ℚ) ^ ((prec : Int) - 1) ≤ (M : ℚ) := by
    rw [hpc, zpow_natCast]; exact_mod_cast h1
  have h2q : (M : ℚ) < (2 : ℚ) ^ ((prec : Int) - 1 + 1) := by
    rw [show ((prec : Int) - 1 + 1) = ((prec : Nat) : Int) by ring, zpow_natCast]
    exact_mod_cast h2
  constructor
  · rw [zpow_add₀ h2ne, mul_comm]
    exact mul_le_mul_of_nonneg_right h1q (le_of_lt (two_zpow_pos E))
  · rw [show E + ((prec : Int) - 1) + 1 = ((prec : Int) - 1 + 1) + E by ring, zpow_add₀ h2ne]
    exact mul_lt_mul_of_pos_right h2q (two_zpow_pos E)

/-- A number that is a full `prec`-bit significand times a power of two is rounded to
itself, whatever fraction presents it. -/
theorem round_binary_canonical (prec : Nat) (neg : Bool) (num den M : Nat) (E : Int)
    (hp : 1 ≤ prec) (hden : 0 < den) (h1 : 2 ^ (prec - 1) ≤ M) (h2 : M < 2 ^ prec)
    (hx : (num : ℚ) / (den : ℚ) = (M : ℚ) * (2 : ℚ) ^ E) :
    round_binary prec neg num den = Binary.finite neg M E := by
  have hdq : (0 : ℚ) < (den : ℚ) := by exact_mod_cast hden
  have hMpos : 0 < M := lt_of_lt_of_le (by positivity) h1
  have hMq : (0 : ℚ) < (M : ℚ) := by exact_mod_cast hMpos
  have hxpos : (0 : ℚ) < (num : ℚ) / (den : ℚ) := by
    rw [hx]; exact mul_pos hMq (two_zpow_pos E)
  have hnum : 0 < num := by
    rcases Nat.eq_zero_or_pos num with h | h
    · rw [h] at hxpos; simp at hxpos
    · exact h
  have hfl := floor_log2_spec num den hnum hden
  have hcb := canonical_binade prec M E hp h1 h2
  rw [← hx] at hcb
  have he : floor_log2 num den = E + ((prec : Int) - 1) := binade_unique _ _ _ hfl hcb
  unfold round_binary
  rw [if_neg (by omega)]
  simp only
  have hq : floor_log2 num den - ((prec : Int) - 1) = E := by omega
  rw [hq]
  obtain ⟨sp, sv⟩ := scale2_spec num den E hden
  have spq : (0 : ℚ) < ((scale2 num den E).2 : ℚ) := by exact_mod_cast sp
  rw [hx, mul_div_assoc, div_self (ne_of_gt (two_zpow_pos E)), mul_one,
    div_eq_iff (ne_of_gt spq)] at sv
  have hs : (scale2 num den E).1 = M * (scale2 num den E).2 := by exact_mod_cast sv
  rw [hs, round_half_even_exact M _ sp, if_neg (by omega)]

/-- A positive natural number below `2^prec` times a power of two can be written with a
significand of exactly `prec` bits. -/
theorem normalize_exists (prec m : Nat) (k : Int) (hp : 1 ≤ prec) (hm0 : 0 < m)
    (hm : m < 2 ^ prec) :
    ∃ (M : Nat) (E : Int), 2 ^ (prec - 1) ≤ M ∧ M < 2 ^ prec ∧
      (m : ℚ) * (2 : ℚ) ^ k = (M : ℚ) * (2 : ℚ) ^ E := by
  obtain ⟨l1, l2⟩ := bit_log2_spec m hm0
  have hL : bit_log2 m < prec := by
    have : 2 ^ bit_log2 m < 2 ^ prec := lt_of_le_of_lt l1 hm
    exact (Nat.pow_lt_pow_iff_right (by norm_num)).mp this
  refine ⟨m * 2 ^ (prec - 1 - bit_log2 m), k - ((prec - 1 - bit_log2 m : Nat) : Int), ?_, ?_, ?_⟩
  · calc 2 ^ (prec - 1) = 2 ^ bit_log2 m * 2 ^ (prec - 1 - bit_log2 m) := by
          rw [← pow_add]; congr 1; omega
      _ ≤ m * 2 ^ (prec - 1 - bit_log2 m) := Nat.mul_le_mul_right _ l1
  · calc m * 2 ^ (prec - 1 - bit_log2 m)
        < 2 ^ (bit_log2 m + 1) * 2 ^ (prec - 1 - bit_log2 m) :=
          Nat.mul_lt_mul_of_pos_right l2 (by positivity)
      _ = 2 ^ prec := by rw [← pow_add]; congr 1; omega
  · have h2ne : (2 : ℚ) ≠ 0 := by norm_num
    rw [zpow_sub₀ h2ne, zpow_natCast]
    push_cast
    field_simp
    ring

/-- Two full `prec`-bit significands with powers of two that give the same number are the
same. -/
theorem canonical_unique (prec M M' : Nat) (E E' : Int) (hp : 1 ≤ prec)
    (h1 : 2 ^ (prec - 1) ≤ M) (h2 : M < 2 ^ prec)
    (h1' : 2 ^ (prec - 1) ≤ M') (h2' : M' < 2 ^ prec)
    (h : (M : ℚ) * (2 : ℚ) ^ E = (M' : ℚ) * (2 : ℚ) ^ E') : M = M' ∧ E = E' := by
  have a := canonical_binade prec M E hp h1 h2
  have b := canonical_binade prec M' E' hp h1' h2'
  rw [← h] at b
  have e := binade_unique _ _ _ a b
  have hE : E = E' := by omega
  subst hE
  have := mul_right_cancel₀ (ne_of_gt (two_zpow_pos E)) h
  exact ⟨by exact_mod_cast this, rfl⟩

theorem round_half_even_ge (a b : Nat) : a / b ≤ round_half_even a b := by
  unfold round_half_even
  simp only
  split
  · exact Nat.le_refl _
  · split
    · omega
    · split <;> omega

/-- The rounding of a positive number is not a zero. -/
theorem round_binary_ne_zero (prec : Nat) (neg : Bool) (num den : Nat) (hp : 1 ≤ prec)
    (hn : 0 < num) (hd : 0 < den) : (round_binary prec neg num den).is_zero = false := by
  obtain ⟨lo, -⟩ := floor_log2_spec num den hn hd
  obtain ⟨sp, sv⟩ := scale2_spec num den (floor_log2 num den - ((prec : Int) - 1)) hd
  have spq : (0 : ℚ) < ((scale2 num den (floor_log2 num den - ((prec : Int) - 1))).2 : ℚ) := by
    exact_mod_cast sp
  have h2ne : (2 : ℚ) ≠ 0 := by norm_num
  have hge : (1 : ℚ) ≤ ((scale2 num den (floor_log2 num den - ((prec : Int) - 1))).1 : ℚ)
      / ((scale2 num den (floor_log2 num den - ((prec : Int) - 1))).2 : ℚ) := by
    rw [sv, one_le_div (two_zpow_pos _)]
    refine le_trans ?_ lo
    exact zpow_le_zpow_right₀ (by norm_num) (by omega)
  rw [one_le_div spq] at hge
  have hle : (scale2 num den (floor_log2 num den - ((prec : Int) - 1))).2
      ≤ (scale2 num den (floor_log2 num den - ((prec : Int) - 1))).1 := by exact_mod_cast hge
  have hdiv : 1 ≤ (scale2 num den (floor_log2 num den - ((prec : Int) - 1))).1
      / (scale2 num den (floor_log2 num den - ((prec : Int) - 1))).2 :=
    (Nat.one_le_div_iff sp).mpr hle
  have hm := round_half_even_ge (scale2 num den (floor_log2 num den - ((prec : Int) - 1))).1
    (scale2 num den (floor_log2 num den - ((prec : Int) - 1))).2
  unfold round_binary
  rw [if_neg (by omega)]
  simp only
  split
  · simp only [Binary.is_zero, beq_eq_false_iff_ne, ne_eq]
    exact ne_of_gt (by positivity)
  · simp only [Binary.is_zero, beq_eq_false_iff_ne, ne_eq]
    omega

/-! ## Lemmas on the operations of the aggregator -/

theorem signed_cast_abs (neg : Bool) (m : Nat) : |((signed neg m : Int) : ℚ)| = (m : ℚ) := by
  cases neg <;> simp [signed]

theorem signed_neg_iff (neg : Bool) (m : Nat) (hm : 0 < m) :
    ((signed neg m : Int) : ℚ) < 0 ↔ neg = true := by
  have hq : (0 : ℚ) < (m : ℚ) := by exact_mod_cast hm
  cases neg
  · simp [signed]
  · simp [signed, hq]

theorem encodes_unique (prec : Nat) (b b' : Binary) (x : ℚ) (hp : 1 ≤ prec)
    (h : encodes prec b x) (h' : encodes prec b' x) : b = b' := by
  rcases h with ⟨h0, hb⟩ | ⟨hn, M, E, m1, m2, hv, hb⟩
  · rcases h' with ⟨-, hb'⟩ | ⟨hn', -⟩
    · rw [hb, hb']
    · exact absurd h0 hn'
  · rcases h' with ⟨h0', -⟩ | ⟨-, M', E', m1', m2', hv', hb'⟩
    · exact absurd h0' hn
    · obtain ⟨eM, eE⟩ := canonical_unique prec M M' E E' hp m1 m2 m1' m2' (by rw [← hv, ← hv'])
      rw [hb, hb', eM, eE]

theorem encodes_val (prec : Nat) (b : Binary) (x : ℚ) (h : encodes prec b x) : b.val = x := by
  rcases h with ⟨h0, hb⟩ | ⟨hn, M, E, m1, m2, hv, hb⟩
  · rw [hb, h0]
    simp [Binary.val, signed]
  · rw [hb]
    unfold Binary.val signed
    by_cases hx : x < 0
    · simp only [hx, decide_True, if_true]
      rw [abs_of_neg hx] at hv
      push_cast
      linarith
    · simp only [hx, decide_False, Bool.false_eq_true, if_false]
      rw [abs_of_nonneg (le_of_not_lt hx)] at hv
      push_cast
      linarith

/-- The rounding of a fraction whose value is a non-zero number of the format is the value
that denotes it. -/
theorem round_binary_encodes (prec : Nat) (num den : Nat) (x : ℚ) (hp : 1 ≤ prec)
    (hden : 0 < den) (hx0 : x ≠ 0) (hval : (num : ℚ) / (den : ℚ) = |x|)
    (hrep : representable prec x) :
    encodes prec (round_binary prec (decide (x < 0)) num den) x := by
  obtain ⟨m, k, hm, hmk⟩ := hrep
  have hm0 : 0 < m := by
    rcases Nat.eq_zero_or_pos m with h | h
    · rw [h] at hmk
      simp at hmk
      exact absurd hmk hx0
    · exact h
  obtain ⟨M, E, m1, m2, hME⟩ := normalize_exists prec m k hp hm0 hm
  right
  refine ⟨hx0, M, E, m1, m2, by rw [hmk, hME], ?_⟩
  exact round_binary_canonical prec _ num den M E hp hden m1 m2 (by rw [hval, hmk, hME])

/-- The aligned integer sum of `binary_add` times the common power of two is the sum of the
two numbers. -/
theorem aligned_sum_val (na nb : Bool) (ma mb : Nat) (ea eb : Int) :
    ((signed na (ma * 2 ^ (ea - min ea eb).toNat)
        + signed nb (mb * 2 ^ (eb - min ea eb).toNat) : Int) : ℚ) * (2 : ℚ) ^ (min ea eb)
      = (Binary.finite na ma ea).val + (Binary.finite nb mb eb).val := by
  have h2ne : (2 : ℚ) ≠ 0 := by norm_num
  have key : ∀ (n : Bool) (m : Nat) (e d : Int), d ≤ e →
      ((signed n (m * 2 ^ (e - d).toNat) : Int) : ℚ) * (2 : ℚ) ^ d
        = ((signed n m : Int) : ℚ) * (2 : ℚ) ^ e := by
    intro n m e d hde
    obtain ⟨j, hj⟩ := Int.eq_ofNat_of_zero_le (show 0 ≤ e - d by omega)
    have he : e = d + (j : Int) := by omega
    rw [hj, he, zpow_add₀ h2ne, zpow_natCast]
    cases n <;> simp [signed] <;> ring
  unfold Binary.val
  push_cast
  rw [add_mul, key na ma ea _ (min_le_left _ _), key nb mb eb _ (min_le_right _ _)]

/-- Adding a finite value to the value that denotes `x` gives the value that denotes the
sum, when the sum is a number of the format. -/
theorem binary_add_encodes (prec : Nat) (a : Binary) (x : ℚ) (nb : Bool) (mb : Nat) (eb : Int)
    (hp : 1 ≤ prec) (ha : encodes prec a x)
    (hrep : representable prec (x + (Binary.finite nb mb eb).val)) :
    encodes prec (binary_add prec a (Binary.finite nb mb eb))
      (x + (Binary.finite nb mb eb).val) := by
  have hav := encodes_val prec a x ha
  have hfin : ∃ na ma ea, a = Binary.finite na ma ea ∧ (x ≠ 0 → (na = true ↔ x < 0)) ∧
      (x = 0 → na = false) := by
    rcases ha with ⟨h0, hb⟩ | ⟨hn, M, E, m1, m2, hv, hb⟩
    · exact ⟨false, 0, 0, hb, fun h => absurd h0 h, fun _ => rfl⟩
    · exact ⟨decide (x < 0), M, E, hb, fun _ => by simp, fun h => absurd h hn⟩
  obtain ⟨na, ma, ea, rfl, hsign, hzero⟩ := hfin
  have hs := aligned_sum_val na nb ma mb ea eb
  rw [hav] at hs
  generalize hS : (signed na (ma * 2 ^ (ea - min ea eb).toNat)
    + signed nb (mb * 2 ^ (eb - min ea eb).toNat) : Int) = s at hs
  have hpos := two_zpow_pos (min ea eb)
  have hbin : binary_add prec (Binary.finite na ma ea) (Binary.finite nb mb eb)
      = if s = 0 then Binary.finite (na && nb) 0 0
        else round_binary prec (decide (s < 0)) (scale_pow 2 s.natAbs (min ea eb)).1
          (scale_pow 2 s.natAbs (min ea eb)).2 := by
    simp only [binary_add, hS]
  rw [hbin]
  by_cases hs0 : s = 0
  · rw [if_pos hs0]
    rw [hs0] at hs
    simp only [Int.cast_zero, zero_mul] at hs
    left
    refine ⟨hs.symm, ?_⟩
    have hnn : (na && nb) = false := by
      by_cases hx : x = 0
      · rw [hzero hx]; rfl
      · -- the two numbers are opposite and not zero
        have hy : (Binary.finite nb mb eb).val = -x := by linarith
        cases hnb : nb
        · simp
        · have hyn : (Binary.finite true mb eb).val ≤ 0 := by
            unfold Binary.val signed
            simp only [if_true]
            have : (0 : ℚ) ≤ (mb : ℚ) := by positivity
            have := two_zpow_pos eb
            push_cast
            nlinarith
          rw [hnb] at hy
          rw [hy] at hyn
          have hxpos : ¬ x < 0 := by
            intro hlt
            linarith
          have : ¬ na = true := fun h => hxpos ((hsign hx).mp h)
          simp [this]
    rw [hnn]
  · rw [if_neg hs0]
    have hsq : ((s : Int) : ℚ) ≠ 0 := by exact_mod_cast hs0
    have hx0 : x + (Binary.finite nb mb eb).val ≠ 0 := by
      rw [← hs]
      exact mul_ne_zero hsq (ne_of_gt hpos)
    have hlt : decide (s < 0) = decide (x + (Binary.finite nb mb eb).val < 0) := by
      have : (s < 0) ↔ (x + (Binary.finite nb mb eb).val < 0) := by
        rw [← hs]
        constructor
        · intro h
          have : ((s : Int) : ℚ) < 0 := by exact_mod_cast h
          exact mul_neg_of_neg_of_pos this hpos
        · intro h
          by_contra hc
          have : (0 : ℚ) ≤ ((s : Int) : ℚ) := by exact_mod_cast (not_lt.mp hc)
          have := mul_nonneg this (le_of_lt hpos)
          linarith
      exact decide_eq_decide.mpr this
    rw [hlt]
    obtain ⟨dp, dv⟩ := scale_pow_two_value s.natAbs (min ea eb)
    apply round_binary_encodes prec _ _ _ hp dp hx0 _ hrep
    rw [dv, ← hs, abs_mul, abs_of_pos hpos]
    congr 1
    rw [Nat.cast_natAbs, Int.cast_abs]

theorem float_val_abs (neg : Bool) (m : Nat) (e : Int) :
    |(Float32.finite neg m e).val| = (m : ℚ) * (2 : ℚ) ^ e := by
  unfold Float32.val
  rw [abs_mul, signed_cast_abs, abs_of_pos (two_zpow_pos e)]

theorem float_val_neg (neg : Bool) (m : Nat) (e : Int) (hm : 0 < m) :
    decide ((Float32.finite neg m e).val < 0) = neg := by
  have hq : (0 : ℚ) < (m : ℚ) := by exact_mod_cast hm
  have hp := two_zpow_pos e
  unfold Float32.val signed
  cases neg
  · simp only [Bool.false_eq_true, if_false, decide_eq_false_iff_not, not_lt]
    push_cast
    positivity
  · simp only [if_true, decide_eq_true_eq]
    push_cast
    nlinarith

/-- The `long double` of a finite `float` is a zero of the same sign, or the value that
denotes the same number. -/
theorem widen_finite (prec : Nat) (neg : Bool) (m : Nat) (e : Int) (hp : 1 ≤ prec)
    (hm : m < 2 ^ prec) :
    (m = 0 ∧ widen prec (Float32.finite neg m e) = Binary.finite neg 0 0) ∨
    (m ≠ 0 ∧ encodes prec (widen prec (Float32.finite neg m e)) (Float32.finite neg m e).val) := by
  obtain ⟨dp, dv⟩ := scale_pow_two_value m e
  rcases Nat.eq_zero_or_pos m with h0 | hpos
  · left
    refine ⟨h0, ?_⟩
    have hnum : (scale_pow 2 m e).1 = 0 := by
      rw [h0] at dv
      have hdq : ((scale_pow 2 0 e).2 : ℚ) ≠ 0 := by
        have : 0 < (scale_pow 2 0 e).2 := (scale_pow_two_value 0 e).1
        exact_mod_cast (ne_of_gt this)
      simp only [Nat.cast_zero, zero_mul, div_eq_zero_iff, hdq, or_false] at dv
      rw [h0]
      exact_mod_cast dv
    simp only [widen, round_binary, hnum, if_true]
  · right
    refine ⟨by omega, ?_⟩
    have hq : (0 : ℚ) < (m : ℚ) := by exact_mod_cast hpos
    have hx0 : (Float32.finite neg m e).val ≠ 0 := by
      intro h
      have := float_val_abs neg m e
      rw [h, abs_zero] at this
      have := mul_pos hq (two_zpow_pos e)
      linarith
    have := round_binary_encodes prec (scale_pow 2 m e).1 (scale_pow 2 m e).2
      (Float32.finite neg m e).val hp dp hx0 (by rw [dv, float_val_abs])
      ⟨m, e, hm, float_val_abs neg m e⟩
    rw [float_val_neg neg m e hpos] at this
    exact this

/-- The `long double` of a finite `float` is finite and denotes the same number. -/
theorem widen_val (prec : Nat) (neg : Bool) (m : Nat) (e : Int) (hp : 1 ≤ prec)
    (hm : m < 2 ^ prec) :
    ∃ nb mb eb, widen prec (Float32.finite neg m e) = Binary.finite nb mb eb ∧
      (Binary.finite nb mb eb).val = (Float32.finite neg m e).val := by
  rcases widen_finite prec neg m e hp hm with ⟨h0, hw⟩ | ⟨-, henc⟩
  · refine ⟨neg, 0, 0, hw, ?_⟩
    rw [h0]
    cases neg <;> simp [Binary.val, Float32.val, signed]
  · have hv := encodes_val _ _ _ henc
    rcases henc with ⟨-, hb⟩ | ⟨-, M, E, -, -, -, hb⟩
    · exact ⟨false, 0, 0, hb, by rw [← hb]; exact hv⟩
    · exact ⟨_, M, E, hb, by rw [← hb]; exact hv⟩

/-- The sum of a channel over records with finite `float`s denotes the exact sum, when no
addition rounds. -/
theorem chan_sum_encodes (prec : Nat) (f : Pixel → Float32) (hp : 24 ≤ prec) :
    ∀ (l : List Pixel) (acc : Binary) (A : ℚ), encodes prec acc A →
      (∀ p ∈ l, (f p).is_finite = true ∧ (f p).valid = true) →
      exact_sums prec A (l.map (fun p => (f p).val)) →
      encodes prec (chan_sum prec f l acc) (A + (l.map (fun p => (f p).val)).sum) := by
  intro l
  induction l with
  | nil =>
    intro acc A ha _ _
    simpa [chan_sum] using ha
  | cons p t ih =>
    intro acc A ha hfin hex
    have hp1 : 1 ≤ prec := by omega
    obtain ⟨hf, hv⟩ := hfin p (List.mem_cons_self _ _)
    simp only [List.map_cons, exact_sums] at hex
    obtain ⟨hrep, hrest⟩ := hex
    cases hfp : f p with
    | inf n => rw [hfp] at hf; simp [Float32.is_finite] at hf
    | nan => rw [hfp] at hf; simp [Float32.is_finite] at hf
    | finite neg m e =>
      rw [hfp] at hv hrep hrest
      have hm : m < 2 ^ prec := by
        have h24 : m < 2 ^ 24 := by simpa [Float32.valid] using hv
        exact lt_of_lt_of_le h24 (Nat.pow_le_pow_right (by norm_num) hp)
      obtain ⟨nb, mb, eb, hw, hwv⟩ := widen_val prec neg m e hp1 hm
      rw [← hwv] at hrep
      have hstep := binary_add_encodes prec acc A nb mb eb hp1 ha hrep
      rw [hwv] at hstep
      have := ih (binary_add prec acc (widen prec (f p))) (A + (Float32.finite neg m e).val)
        (by rw [hfp, hw]; exact hstep)
        (fun q hq => hfin q (List.mem_cons_of_mem _ hq)) hrest
      simp only [chan_sum, List.foldl_cons, List.map_cons, List.sum_cons, hfp] at this ⊢
      rw [← add_assoc]
      exact this

theorem sum_pass_chan (prec : Nat) (l : List Pixel) (a b c : Binary) :
    sum_pass prec l (a, b, c)
      = (chan_sum prec Pixel.r l a, chan_sum prec Pixel.g l b, chan_sum prec Pixel.b l c) := by
  induction l generalizing a b c with
  | nil => rfl
  | cons p t ih =>
    simp only [sum_pass, chan_sum, List.foldl_cons] at ih ⊢
    exact ih _ _ _

/-- The `long double` of a record count below `2^prec` denotes the count. -/
theorem of_size_encodes (prec n : Nat) (hp : 1 ≤ prec) (hn : 0 < n) (hlt : n < 2 ^ prec) :
    encodes prec (of_size prec n) (n : ℚ) := by
  have hq : (0 : ℚ) < (n : ℚ) := by exact_mod_cast hn
  have := round_binary_encodes prec n 1 (n : ℚ) hp Nat.one_pos (ne_of_gt hq)
    (by rw [abs_of_pos hq]; simp) ⟨n, 0, hlt, by rw [abs_of_pos hq]; simp⟩
  rw [show decide ((n : ℚ) < 0) = false by simp] at this
  exact this

/-- Dividing the value that denotes `x` by a positive finite value gives the value that
denotes the quotient, when the quotient is a number of the format. -/
theorem binary_div_encodes (prec : Nat) (a : Binary) (x : ℚ) (mb : Nat) (eb : Int)
    (hp : 1 ≤ prec) (ha : encodes prec a x) (hmb : 0 < mb)
    (hrep : representable prec (x / (Binary.finite false mb eb).val)) :
    ∃ c, binary_div prec a (Binary.finite false mb eb) = some c ∧
      encodes prec c (x / (Binary.finite false mb eb).val) := by
  have hmq : (0 : ℚ) < (mb : ℚ) := by exact_mod_cast hmb
  have hy : (Binary.finite false mb eb).val = (mb : ℚ) * (2 : ℚ) ^ eb := by
    simp [Binary.val, signed]
  have hypos : (0 : ℚ) < (Binary.finite false mb eb).val := by
    rw [hy]; exact mul_pos hmq (two_zpow_pos eb)
  have hz : (Binary.finite false mb eb).is_zero = false := by
    simp only [Binary.is_zero, beq_eq_false_iff_ne, ne_eq]
    omega
  rcases ha with ⟨h0, hb⟩ | ⟨hn, M, E, m1, m2, hv, hb⟩
  · refine ⟨Binary.finite false 0 0, ?_, Or.inl ⟨by rw [h0, zero_div], rfl⟩⟩
    rw [hb]
    have hnum : (scale2 0 mb (eb - 0)).1 = 0 := by
      unfold scale2
      split <;> simp
    simp only [binary_div, hz, Bool.false_eq_true, if_false, round_binary, hnum, if_true,
      Bool.xor_false]
  · refine ⟨round_binary prec (xor (decide (x < 0)) false) (scale2 M mb (eb - E)).1
      (scale2 M mb (eb - E)).2, by rw [hb]; simp only [binary_div, hz, Bool.false_eq_true, if_false], ?_⟩
    have hq0 : x / (Binary.finite false mb eb).val ≠ 0 := div_ne_zero hn (ne_of_gt hypos)
    have hsgn : decide (x < 0) = decide (x / (Binary.finite false mb eb).val < 0) := by
      apply decide_eq_decide.mpr
      rw [div_neg_iff]
      constructor
      · intro h; exact Or.inr ⟨h, hypos⟩
      · rintro (⟨-, h⟩ | ⟨h, -⟩)
        · linarith
        · exact h
    rw [Bool.xor_false, hsgn]
    obtain ⟨sp, sv⟩ := scale2_spec M mb (eb - E) hmb
    apply round_binary_encodes prec _ _ _ hp sp hq0 _ hrep
    rw [sv, abs_div, hv, abs_of_pos hypos, hy]
    have h2ne : (2 : ℚ) ≠ 0 := by norm_num
    rw [zpow_sub₀ h2ne]
    have := two_zpow_pos eb
    have := two_zpow_pos E
    field_simp

/-- The `double` of the value that denotes a number of the `double` format denotes the same
number. -/
theorem to_double_encodes (prec : Nat) (a : Binary) (x : ℚ) (ha : encodes prec a x)
    (hrep : representable 53 x) : encodes 53 (to_double a) x := by
  rcases ha with ⟨h0, hb⟩ | ⟨hn, M, E, m1, m2, hv, hb⟩
  · left
    refine ⟨h0, ?_⟩
    rw [hb]
    decide
  · rw [hb]
    obtain ⟨dp, dv⟩ := scale_pow_two_value M E
    exact round_binary_encodes 53 _ _ x (by norm_num) dp hn (by rw [dv, hv]) hrep

theorem encodes_representable (prec : Nat) (b : Binary) (x : ℚ) (h : encodes prec b x) :
    representable prec x := by
  rcases h with ⟨h0, -⟩ | ⟨-, M, E, -, m2, hv, -⟩
  · exact ⟨0, 0, by positivity, by rw [h0]; simp⟩
  · exact ⟨M, E, m2, hv⟩

theorem binary_div_some (prec : Nat) (a b : Binary) (hz : b.is_zero = false) :
    ∃ c, binary_div prec a b = some c := by
  unfold binary_div
  rw [hz]
  simp only [Bool.false_eq_true, if_false]
  cases a <;> cases b <;> exact ⟨_, rfl⟩

/-- The record count as a `long double`, for a count of one: finite, positive, of value 1. -/
theorem of_size_one (prec : Nat) (hp : 1 ≤ prec) :
    ∃ mn en, of_size prec 1 = Binary.finite false mn en ∧ 0 < mn ∧
      (Binary.finite false mn en).val = 1 := by
  have h1 : (1 : Nat) < 2 ^ prec := Nat.one_lt_two_pow (by omega)
  have henc := of_size_encodes prec 1 hp Nat.one_pos h1
  have hv := encodes_val _ _ _ henc
  rcases henc with ⟨h0, -⟩ | ⟨-, M, E, m1, -, -, hb⟩
  · simp at h0
  · have hM : 0 < M := lt_of_lt_of_le (by positivity) m1
    rw [hb] at hv
    simp only [Nat.cast_one, Nat.cast_ofNat] at hv hb
    rw [show decide ((1 : ℚ) < 0) = false by simp] at hv hb
    exact ⟨M, E, hb, hM, hv⟩

/-- One channel of a single record: the sum from `+0`, the mean over one record and its
conversion to `double` are the channel's own number. -/
theorem single_mean (prec : Nat) (f : Float32) (hp : 53 ≤ prec) (hv : f.valid = true) :
    ∃ m, binary_div prec (binary_add prec (Binary.finite false 0 0) (widen prec f))
        (of_size prec 1) = some m ∧
      same_number m (widen prec f) ∧ same_number (to_double m) (widen 53 f) ∧
      (f.is_finite = true → m.val = f.val ∧ (to_double m).val = f.val) := by
  have hp1 : 1 ≤ prec := by omega
  obtain ⟨mn, en, hn, hmn, hnv⟩ := of_size_one prec hp1
  have hnz : (Binary.finite false mn en).is_zero = false := by
    simp only [Binary.is_zero, beq_eq_false_iff_ne, ne_eq]; omega
  cases f with
  | inf neg =>
    refine ⟨Binary.inf neg, ?_, Or.inl rfl, Or.inl rfl, fun h => by simp [Float32.is_finite] at h⟩
    rw [hn]
    simp [widen, binary_add, binary_div, hnz]
  | nan =>
    refine ⟨Binary.nan, ?_, Or.inl rfl, Or.inl rfl, fun h => by simp [Float32.is_finite] at h⟩
    rw [hn]
    simp [widen, binary_add, binary_div, hnz]
  | finite neg m e =>
    have h24 : m < 2 ^ 24 := by simpa [Float32.valid] using hv
    have hm : m < 2 ^ prec :=
      lt_of_lt_of_le h24 (Nat.pow_le_pow_right (by norm_num) (by omega))
    have hm53 : m < 2 ^ 53 := lt_of_lt_of_le h24 (by norm_num)
    have hz : encodes prec (Binary.finite false 0 0) 0 := Or.inl ⟨rfl, rfl⟩
    obtain ⟨nb, mb, eb, hw, hwv⟩ := widen_val prec neg m e hp1 hm
    have hx53 : representable 53 (Float32.finite neg m e).val :=
      ⟨m, e, hm53, float_val_abs neg m e⟩
    have hxp : representable prec (Float32.finite neg m e).val :=
      ⟨m, e, hm, float_val_abs neg m e⟩
    have hs := binary_add_encodes prec _ 0 nb mb eb hp1 hz (by rw [zero_add, hwv]; exact hxp)
    rw [zero_add, hwv, ← hw] at hs
    obtain ⟨c, hc, hce⟩ := binary_div_encodes prec _ _ mn en hp1 hs hmn
      (by rw [hnv, div_one]; exact hxp)
    rw [hnv, div_one] at hce
    rw [← hn] at hc
    have hd := to_double_encodes prec c _ hce hx53
    refine ⟨c, hc, ?_, ?_, fun _ => ⟨encodes_val _ _ _ hce, encodes_val _ _ _ hd⟩⟩
    · rcases widen_finite prec neg m e hp1 hm with ⟨h0, hw0⟩ | ⟨-, henc⟩
      · right
        have hval0 : (Float32.finite neg m e).val = 0 := by
          rw [h0]; simp [Float32.val, signed]
        rw [hval0] at hce
        have : c = Binary.finite false 0 0 := encodes_unique prec _ _ 0 hp1 hce hz
        rw [this, hw0]
        exact ⟨rfl, rfl⟩
      · exact Or.inl (encodes_unique prec _ _ _ hp1 hce henc)
    · rcases widen_finite 53 neg m e (by norm_num) hm53 with ⟨h0, hw0⟩ | ⟨-, henc⟩
      · right
        have hval0 : (Float32.finite neg m e).val = 0 := by
          rw [h0]; simp [Float32.val, signed]
        rw [hval0] at hd
        have : to_double c = Binary.finite false 0 0 :=
          encodes_unique 53 _ _ 0 (by norm_num) hd (Or.inl ⟨rfl, rfl⟩)
        rw [this, hw0]
        exact ⟨rfl, rfl⟩
      · exact Or.inl (encodes_unique 53 _ _ _ (by norm_num) hd henc)

/-! ## Lemmas on the writer -/

theorem digit_char_spec (d : Nat) (h : d < 10) :
    isdigit (digit_char d) = true ∧ digit_value (digit_char d) = d ∧
    (d ≠ 0 → digit_char d ≠ '0') := by
  interval_cases d <;> decide

theorem digits_value_snoc (ds : List Char) (c : Char) :
    digits_value 10 (ds ++ [c]) = 10 * digits_value 10 ds + digit_value c := by
  simp [digits_value, List.foldl_append]

/-- The digit loop writes the decimal digits of `n`, without a leading zero. -/
theorem render_nat_loop_spec : ∀ (fuel n : Nat) (acc : List Char), n < fuel →
    ∃ ds, render_nat_loop fuel n acc = ds ++ acc ∧ ds ≠ [] ∧
      (∀ c ∈ ds, isdigit c = true) ∧ digits_value 10 ds = n ∧
      (n = 0 → ds = ['0']) ∧ (n ≠ 0 → ∀ d rest, ds = d :: rest → d ≠ '0') := by
  intro fuel
  induction fuel with
  | zero => intro n acc h; omega
  | succ f ih =>
    intro n acc hn
    have hmod : n % 10 < 10 := Nat.mod_lt _ (by norm_num)
    obtain ⟨hd1, hd2, hd3⟩ := digit_char_spec (n % 10) hmod
    unfold render_nat_loop
    by_cases hq : n / 10 = 0
    · rw [if_pos hq]
      have hlt : n < 10 := by omega
      have hmn : n % 10 = n := Nat.mod_eq_of_lt hlt
      refine ⟨[digit_char (n % 10)], rfl, by simp, ?_, ?_, ?_, ?_⟩
      · intro c hc
        rw [List.mem_singleton.mp hc]; exact hd1
      · rw [hmn] at hd2
        simp [digits_value, hd2, hmn]
      · intro h0
        rw [h0]; rfl
      · intro h0 d rest e
        simp only [List.cons.injEq] at e
        rw [← e.1]
        exact hd3 (by omega)
    · rw [if_neg hq]
      obtain ⟨ds, e, hne, hdig, hval, -, hhead⟩ :=
        ih (n / 10) (digit_char (n % 10) :: acc) (by omega)
      refine ⟨ds ++ [digit_char (n % 10)], by rw [e]; simp, by simp, ?_, ?_, ?_, ?_⟩
      · intro c hc
        rcases List.mem_append.mp hc with hc | hc
        · exact hdig c hc
        · rw [List.mem_singleton.mp hc]; exact hd1
      · rw [digits_value_snoc, hval, hd2]
        omega
      · intro h0
        rw [h0] at hq
        exact absurd rfl hq
      · intro _ d rest e
        cases ds with
        | nil => exact absurd rfl hne
        | cons d' t' =>
          simp only [List.cons_append, List.cons.injEq] at e
          rw [← e.1]
          exact hhead hq d' t' rfl

theorem render_nat_spec (n : Nat) :
    render_nat n ≠ [] ∧ (∀ c ∈ render_nat n, isdigit c = true) ∧
    digits_value 10 (render_nat n) = n ∧
    (render_nat n = ['0'] ∨ ∀ d rest, render_nat n = d :: rest → d ≠ '0') := by
  obtain ⟨ds, e, hne, hdig, hval, h0, hn0⟩ := render_nat_loop_spec (n + 1) n [] (by omega)
  have e' : render_nat n = ds := by
    unfold render_nat
    rw [e, List.append_nil]
  rw [e']
  refine ⟨hne, hdig, hval, ?_⟩
  by_cases hn : n = 0
  · exact Or.inl (h0 hn)
  · exact Or.inr (hn0 hn)

/-- The writer puts out an `int` as its plain base-10 text. -/
theorem render_int_plain (i : Int) : is_plain_decimal i (render_int i) := by
  obtain ⟨hne, hdig, hval, hhead⟩ := render_nat_spec i.natAbs
  refine ⟨render_nat i.natAbs, ?_, hne, hdig, ?_, hhead⟩
  · unfold render_int
    by_cases hi : i < 0
    · simp [hi]
    · have : i.toNat = i.natAbs := by omega
      simp [hi, this]
  · rw [← digits_value_decimal _ hdig, hval]

/-- The text of an `int` is the text of a well-formed integer literal that denotes it. -/
theorem render_int_literal (i : Int) :
    ∃ l : IntLit, l.well_formed = true ∧ l.text = render_int i ∧ l.value = i := by
  obtain ⟨hne, hdig, hval, -⟩ := render_nat_spec i.natAbs
  have hdv : decimal_value (render_nat i.natAbs) = i.natAbs := by
    rw [← digits_value_decimal _ hdig, hval]
  by_cases hi : i < 0
  · refine ⟨⟨some true, render_nat i.natAbs⟩, ?_, ?_, ?_⟩
    · simp only [IntLit.well_formed, Bool.and_eq_true, Bool.not_eq_true', List.isEmpty_eq_false,
        List.all_eq_true]
      cases h : render_nat i.natAbs with
      | nil => exact absurd h hne
      | cons c t => exact ⟨by simp, by rw [← h]; exact hdig⟩
    · simp [IntLit.text, sign_text, render_int, hi]
    · simp only [IntLit.value, if_true, hdv]
      omega
  · have ht : i.toNat = i.natAbs := by omega
    refine ⟨⟨none, render_nat i.natAbs⟩, ?_, ?_, ?_⟩
    · simp only [IntLit.well_formed, Bool.and_eq_true, Bool.not_eq_true', List.isEmpty_eq_false,
        List.all_eq_true]
      cases h : render_nat i.natAbs with
      | nil => exact absurd h hne
      | cons c t => exact ⟨by simp, by rw [← h]; exact hdig⟩
    · simp [IntLit.text, sign_text, render_int, hi, ht]
    · simp only [IntLit.value, hdv]
      simp
      omega

/-- Reading back the text of an `int` gives the `int`. -/
theorem stoi_render_int (i : Int) (h : INT_MIN ≤ i ∧ i ≤ INT_MAX) :
    stoi (render_int i) = .ok i := by
  obtain ⟨l, hw, ht, hv⟩ := render_int_literal i
  rw [← ht, ← hv]
  exact stoi_literal l hw (by rw [hv]; exact h)

theorem render_int_chars (i : Int) : ∀ c ∈ render_int i, literal_char c = true := by
  obtain ⟨l, hw, ht, -⟩ := render_int_literal i
  rw [← ht]
  exact l.int_text_literal hw

/-- The characters that the writer puts out for a number: those of literals and the
letters of `inf` and `nan`. -/
theorem render_fixed_chars (digits : Nat) (x : Binary) :
    ∀ c ∈ render_fixed digits x, literal_char c = true ∨ c = 'i' ∨ c = 'n' ∨ c = 'f' ∨ c = 'a' := by
  intro c hc
  cases x with
  | nan =>
    simp only [render_fixed, List.mem_cons, List.mem_singleton, List.not_mem_nil, or_false] at hc
    rcases hc with h | h | h
    · exact Or.inr (Or.inr (Or.inl h))
    · exact Or.inr (Or.inr (Or.inr (Or.inr h)))
    · exact Or.inr (Or.inr (Or.inl h))
  | inf neg =>
    simp only [render_fixed, List.mem_append, List.mem_cons, List.mem_singleton,
      List.not_mem_nil, or_false] at hc
    rcases hc with h | h | h | h
    · left
      cases neg
      · simp at h
      · simp only [if_true, List.mem_singleton] at h
        rw [h]; decide
    · exact Or.inr (Or.inl h)
    · exact Or.inr (Or.inr (Or.inl h))
    · exact Or.inr (Or.inr (Or.inr (Or.inl h)))
  | finite neg m e =>
    left
    simp only [render_fixed, List.mem_append] at hc
    rcases hc with h | h | h
    · cases neg
      · simp at h
      · simp only [if_true, List.mem_singleton] at h
        rw [h]; decide
    · exact isdigit_literal_char c ((render_nat_spec _).2.1 c h)
    · by_cases hd : digits = 0
      · simp [hd] at h
      · simp only [hd, if_false, List.mem_cons, pad_left, List.mem_append,
          List.mem_replicate] at h
        rcases h with h | ⟨-, h⟩ | h
        · rw [h]; decide
        · rw [h]; decide
        · exact isdigit_literal_char c ((render_nat_spec _).2.1 c h)

theorem render_fixed_no_sep (digits : Nat) (x : Binary) :
    ',' ∉ render_fixed digits x ∧ '\n' ∉ render_fixed digits x := by
  constructor <;> intro hc <;>
    rcases render_fixed_chars digits x _ hc with h | h | h | h | h <;> revert h <;> decide

theorem render_int_no_sep (i : Int) : ',' ∉ render_int i ∧ '\n' ∉ render_int i := by
  constructor <;> intro hc <;> have h := render_int_chars i _ hc <;> revert h <;> decide

/-! ## Lemmas on `main` -/

/-- The read loop on a whole text. -/
theorem load_text (uf : Bool) (px : Pixel) (ls : List (List Char)) (last : List Char)
    (hls : ∀ l ∈ ls, '\n' ∉ l) (hlast : '\n' ∉ last) :
    load uf px (text_of ls last) = some (.ok (state_after uf px ⟨[], 0, 0, 0⟩
      (ls ++ (if last = [] then [] else [last])))) :=
  load_loop_text uf px ls last hls hlast _ _ (Nat.lt_succ_self _)

theorem filterMap_length_countP (uf : Bool) (px : Pixel) (lines : List (List Char)) :
    (lines.filterMap (accepted uf px)).length
      = lines.countP (fun l => (accepted uf px l).isSome) := by
  induction lines with
  | nil => rfl
  | cons a t ih =>
    simp only [List.filterMap_cons, List.countP_cons]
    cases h : accepted uf px a with
    | none => simpa using ih
    | some v => simpa using ih

/-- The read loop keeps the number of records equal to the counter `loaded`. -/
theorem state_after_length (uf : Bool) (px : Pixel) (st : LoadState)
    (lines : List (List Char)) (h : st.pixel_list.length = st.loaded) :
    (state_after uf px st lines).pixel_list.length = (state_after uf px st lines).loaded := by
  simp only [state_after, List.length_append, filterMap_length_countP, h]

theorem nonempty_lines_last (ls : List (List Char)) (last : List Char) :
    nonempty_lines (ls ++ (if last = [] then [] else [last])) = nonempty_lines (ls ++ [last]) := by
  by_cases hl : last = []
  · simp [hl, nonempty_lines]
  · simp [hl]

theorem render_pixel_count (p : Pixel) : (render_pixel p).count '\n' = 1 := by
  have h1 := List.count_eq_zero_of_not_mem (render_int_no_sep p.x).2
  have h2 := List.count_eq_zero_of_not_mem (render_int_no_sep p.y).2
  have h3 := List.count_eq_zero_of_not_mem (render_fixed_no_sep 16 (widen 53 p.r)).2
  have h4 := List.count_eq_zero_of_not_mem (render_fixed_no_sep 16 (widen 53 p.g)).2
  have h5 := List.count_eq_zero_of_not_mem (render_fixed_no_sep 16 (widen 53 p.b)).2
  have hc : ¬ (',' : Char) = '\n' := by decide
  simp only [render_pixel, List.count_append, List.count_cons, h1, h2, h3, h4, h5,
    List.count_nil, beq_iff_eq, hc, if_false, if_true]

theorem written_lines_count (l : List Pixel) :
    ((l.map render_pixel).flatten).count '\n' = l.length := by
  induction l with
  | nil => rfl
  | cons p t ih =>
    simp only [List.map_cons, List.flatten_cons, List.count_append, render_pixel_count, ih,
      List.length_cons]
    omega

theorem flip_vertically_length (l : List Pixel) : (flip_vertically l).length = l.length := by
  rw [flip_vertically_eq_map, List.length_map]

/-- On a non-empty vector, with a `long double` of at least one bit, `average_colors`
reports three means and leaves the vector as it is. -/
theorem average_colors_nonempty (prec : Nat) (l : List Pixel) (hp : 1 ≤ prec) (hne : l ≠ []) :
    ∃ r g b, average_colors prec l = some (Report.averages r g b, l) := by
  have hlen : 0 < l.length := List.length_pos.mpr hne
  have hz : (of_size prec l.length).is_zero = false :=
    round_binary_ne_zero prec false l.length 1 hp hlen Nat.one_pos
  obtain ⟨cr, hr⟩ := binary_div_some prec
    (sum_pass prec l (Binary.finite false 0 0, Binary.finite false 0 0,
      Binary.finite false 0 0)).1 _ hz
  obtain ⟨cg, hg⟩ := binary_div_some prec
    (sum_pass prec l (Binary.finite false 0 0, Binary.finite false 0 0,
      Binary.finite false 0 0)).2.1 _ hz
  obtain ⟨cb, hb⟩ := binary_div_some prec
    (sum_pass prec l (Binary.finite false 0 0, Binary.finite false 0 0,
      Binary.finite false 0 0)).2.2 _ hz
  have hc : channel_means prec l = some (cr, cg, cb) := by
    simp only [channel_means, hr, hg, hb]
  cases l with
  | nil => exact absurd rfl hne
  | cons p t =>
    have ha : average_colors prec (p :: t)
        = some (Report.averages (to_double cr) (to_double cg) (to_double cb), p :: t) := by
      unfold average_colors
      simp only [hc]
    exact ⟨to_double cr, to_double cg, to_double cb, ha⟩

/-- The record count as a `long double`, for a positive count below `2^prec`: finite,
positive, of the value of the count. -/
theorem of_size_finite (prec n : Nat) (hp : 1 ≤ prec) (hn : 0 < n) (hlt : n < 2 ^ prec) :
    ∃ mn en, of_size prec n = Binary.finite false mn en ∧ 0 < mn ∧
      (Binary.finite false mn en).val = (n : ℚ) := by
  have hq : (0 : ℚ) < (n : ℚ) := by exact_mod_cast hn
  have henc := of_size_encodes prec n hp hn hlt
  have hv := encodes_val _ _ _ henc
  rcases henc with ⟨h0, -⟩ | ⟨-, M, E, m1, -, -, hb⟩
  · exact absurd h0 (ne_of_gt hq)
  · have hM : 0 < M := lt_of_lt_of_le (by positivity) m1
    rw [hb] at hv
    rw [show decide ((n : ℚ) < 0) = false by simp] at hv hb
    exact ⟨M, E, hb, hM, hv⟩

/-- The mean of one channel, when no addition rounds and the exact mean `q` is a number of
the `long double` format and of the `double` format: the mean and the `double` printed
denote `q`. -/
theorem chan_mean_encodes (prec : Nat) (f : Pixel → Float32) (l : List Pixel) (q : ℚ)
    (hp : 24 ≤ prec) (hne : l ≠ []) (hlen : l.length < 2 ^ prec)
    (hfin : ∀ p ∈ l, (f p).is_finite = true ∧ (f p).valid = true)
    (hex : exact_sums prec 0 (l.map (fun p => (f p).val)))
    (hq : q = (l.map (fun p => (f p).val)).sum / (l.length : ℚ))
    (hrep : representable prec q) (hrep53 : representable 53 q) :
    ∃ c, binary_div prec (chan_sum prec f l (Binary.finite false 0 0)) (of_size prec l.length)
        = some c ∧ encodes prec c q ∧ encodes 53 (to_double c) q := by
  have hp1 : 1 ≤ prec := by omega
  have hz : encodes prec (Binary.finite false 0 0) 0 := Or.inl ⟨rfl, rfl⟩
  have hs := chan_sum_encodes prec f hp l _ 0 hz hfin hex
  rw [zero_add] at hs
  obtain ⟨mn, en, hn, hmn, hnv⟩ :=
    of_size_finite prec l.length hp1 (List.length_pos.mpr hne) hlen
  obtain ⟨c, hc, hce⟩ := binary_div_encodes prec _ _ mn en hp1 hs hmn
    (by rw [hnv, ← hq]; exact hrep)
  rw [hnv, ← hq] at hce
  rw [← hn] at hc
  exact ⟨c, hc, hce, to_double_encodes prec c q hce hrep53⟩

/-- The `double` nearest to a fraction whose value is a number of the `double` format is
the value that denotes it. -/
theorem double_of_fraction (num den : Nat) (hn : 0 < num) (hd : 0 < den)
    (hrep : representable 53 ((num : ℚ) / (den : ℚ))) :
    encodes 53 (round_binary 53 false num den) ((num : ℚ) / (den : ℚ)) := by
  have hq : (0 : ℚ) < (num : ℚ) / (den : ℚ) :=
    div_pos (by exact_mod_cast hn) (by exact_mod_cast hd)
  have := round_binary_encodes 53 num den _ (by norm_num) hd (ne_of_gt hq)
    (by rw [abs_of_pos hq]) hrep
  rw [show decide ((num : ℚ) / (den : ℚ) < 0) = false by simpa using le_of_lt hq] at this
  exact this

/-- The read loop on the two lines `0,0,0.5,0.5,0.5` and `0,3,1.0,0.0,0.0`. -/
theorem load_two_lines (uf : Bool) (px : Pixel) :
    load uf px "0,0,0.5,0.5,0.5\n0,3,1.0,0.0,0.0\n".toList
      = some (.ok ⟨[⟨Float32.finite false 8388608 (-24), Float32.finite false 8388608 (-24),
            Float32.finite false 8388608 (-24), 0, 0⟩,
          ⟨Float32.finite false 8388608 (-23), Float32.zero, Float32.zero, 0, 3⟩], 2, 2, 0⟩) := by
  have h := load_text uf px ["0,0,0.5,0.5,0.5".toList, "0,3,1.0,0.0,0.0".toList] []
    (by decide) (by decide)
  rw [state_after_indep uf px (Pixel.at 0 0)] at h
  refine h.trans ?_
  cases uf <;> decide

/-- The report of `average_colors` on the two records of these lines. -/
theorem average_two_records (prec : Nat) (hp : 53 ≤ prec) :
    average_colors prec
      [⟨Float32.finite false 8388608 (-24), Float32.finite false 8388608 (-24),
          Float32.finite false 8388608 (-24), 0, 0⟩,
        ⟨Float32.finite false 8388608 (-23), Float32.zero, Float32.zero, 0, 3⟩]
      = some (Report.averages (round_binary 53 false 3 4) (round_binary 53 false 1 4)
          (round_binary 53 false 1 4),
        [⟨Float32.finite false 8388608 (-24), Float32.finite false 8388608 (-24),
            Float32.finite false 8388608 (-24), 0, 0⟩,
          ⟨Float32.finite false 8388608 (-23), Float32.zero, Float32.zero, 0, 3⟩]) := by
  have hp24 : 24 ≤ prec := by omega
  have hlen : ([⟨Float32.finite false 8388608 (-24), Float32.finite false 8388608 (-24),
          Float32.finite false 8388608 (-24), 0, 0⟩,
        ⟨Float32.finite false 8388608 (-23), Float32.zero, Float32.zero, 0, 3⟩] :
        List Pixel).length < 2 ^ prec := by
    have : 2 ^ 53 ≤ 2 ^ prec := Nat.pow_le_pow_right (by norm_num) hp
    have h2 : (2 : Nat) < 2 ^ 53 := by norm_num
    simp only [List.length_cons, List.length_nil]
    omega
  have big : ∀ m : Nat, m < 2 ^ 24 → m < 2 ^ prec := fun m hm =>
    lt_of_lt_of_le hm (Nat.pow_le_pow_right (by norm_num) hp24)
  obtain ⟨cr, er, -, dr⟩ := chan_mean_encodes prec Pixel.r _ (3 / 4) hp24 (by simp) hlen
    (by decide)
    ⟨⟨1, -1, big 1 (by norm_num), by norm_num [Float32.val, signed]⟩,
      ⟨3, -1, big 3 (by norm_num), by norm_num [Float32.val, signed]⟩, trivial⟩
    (by norm_num [Float32.val, signed])
    ⟨3, -2, big 3 (by norm_num), by norm_num⟩ ⟨3, -2, by norm_num, by norm_num⟩
  obtain ⟨cg, eg, -, dg⟩ := chan_mean_encodes prec Pixel.g _ (1 / 4) hp24 (by simp) hlen
    (by decide)
    ⟨⟨1, -1, big 1 (by norm_num), by norm_num [Float32.val, signed]⟩,
      ⟨1, -1, big 1 (by norm_num), by norm_num [Float32.val, signed, Float32.zero]⟩, trivial⟩
    (by norm_num [Float32.val, signed, Float32.zero])
    ⟨1, -2, big 1 (by norm_num), by norm_num⟩ ⟨1, -2, by norm_num, by norm_num⟩
  obtain ⟨cb, eb, -, db⟩ := chan_mean_encodes prec Pixel.b _ (1 / 4) hp24 (by simp) hlen
    (by decide)
    ⟨⟨1, -1, big 1 (by norm_num), by norm_num [Float32.val, signed]⟩,
      ⟨1, -1, big 1 (by norm_num), by norm_num [Float32.val, signed, Float32.zero]⟩, trivial⟩
    (by norm_num [Float32.val, signed, Float32.zero])
    ⟨1, -2, big 1 (by norm_num), by norm_num⟩ ⟨1, -2, by norm_num, by norm_num⟩
  have h34 := double_of_fraction 3 4 (by norm_num) (by norm_num)
    ⟨3, -2, by norm_num, by norm_num⟩
  have h14 := double_of_fraction 1 4 (by norm_num) (by norm_num)
    ⟨1, -2, by norm_num, by norm_num⟩
  have xr : to_double cr = round_binary 53 false 3 4 :=
    encodes_unique 53 _ _ _ (by norm_num) dr (by simpa using h34)
  have xg : to_double cg = round_binary 53 false 1 4 :=
    encodes_unique 53 _ _ _ (by norm_num) dg (by simpa using h14)
  have xb : to_double cb = round_binary 53 false 1 4 :=
    encodes_unique 53 _ _ _ (by norm_num) db (by simpa using h14)
  have hc : channel_means prec
      [⟨Float32.finite false 8388608 (-24), Float32.finite false 8388608 (-24),
          Float32.finite false 8388608 (-24), 0, 0⟩,
        ⟨Float32.finite false 8388608 (-23), Float32.zero, Float32.zero, 0, 3⟩]
      = some (cr, cg, cb) := by
    unfold channel_means
    simp only [sum_pass_chan, er, eg, eb]
  unfold average_colors
  simp only [hc, xr, xg, xb]

/-! ## Lemmas on writing and reading back -/

/-- A line of two integer literals and three floating-point literals, all well formed and
in range, is accepted, with the record made of the five converted values. -/
theorem parse_well_formed (uf : Bool) (x y : IntLit) (r g b : FloatLit) (out : Pixel)
    (hx : x.well_formed = true) (hxr : INT_MIN ≤ x.value ∧ x.value ≤ INT_MAX)
    (hy : y.well_formed = true) (hyr : INT_MIN ≤ y.value ∧ y.value ≤ INT_MAX)
    (hr : r.well_formed = true) (hrr : r.in_range)
    (hg : g.well_formed = true) (hgr : g.in_range)
    (hb : b.well_formed = true) (hbr : b.in_range) :
    ∃ fr fg fb, stof uf r.text = .ok fr ∧ stof uf g.text = .ok fg ∧ stof uf b.text = .ok fb ∧
      parse_pixel_line uf
        (x.text ++ ',' :: (y.text ++ ',' :: (r.text ++ ',' :: (g.text ++ ',' :: b.text)))) out
        = .ok (true, ⟨fr, fg, fb, x.value, y.value⟩) := by
  have cx := literal_no_comma _ (x.int_text_literal hx)
  have cy := literal_no_comma _ (y.int_text_literal hy)
  have cr := literal_no_comma _ (r.float_text_literal hr)
  have cg := literal_no_comma _ (g.float_text_literal hg)
  obtain ⟨fr, er⟩ := stof_literal uf r hr hrr
  obtain ⟨fg, eg⟩ := stof_literal uf g hg hgr
  obtain ⟨fb, eb⟩ := stof_literal uf b hb hbr
  refine ⟨fr, fg, fb, er, eg, eb, ?_⟩
  rw [parse_pixel_line_fields uf _ _ _ _ _ out cx cy cr cg]
  congr 1
  exact (convert_fields_true uf _ _ _ _ _ out _).mpr
    ⟨x.value, y.value, fr, fg, fb, stoi_literal x hx hxr, stoi_literal y hy hyr, er, eg, eb, rfl⟩

/-- Once the two integer conversions succeed, the record after the `try` block has their
values in `x` and `y`, whatever the other conversions do. -/
theorem convert_fields_xy (uf : Bool) (sx sy sr sg sb : List Char) (out : Pixel) (x y : Int)
    (hx : stoi sx = .ok x) (hy : stoi sy = .ok y) :
    (convert_fields uf sx sy sr sg sb out).2.x = x ∧
    (convert_fields uf sx sy sr sg sb out).2.y = y := by
  unfold convert_fields
  rw [hx, hy]
  simp only
  cases stof uf sr with
  | error e => exact ⟨rfl, rfl⟩
  | ok r =>
    simp only
    cases stof uf sg with
    | error e => exact ⟨rfl, rfl⟩
    | ok g =>
      simp only
      cases stof uf sb with
      | error e => exact ⟨rfl, rfl⟩
      | ok b => exact ⟨rfl, rfl⟩

theorem round_half_even_le_succ (a b : Nat) : round_half_even a b ≤ a / b + 1 := by
  unfold round_half_even
  simp only
  split
  · omega
  · split
    · omega
    · split <;> omega

/-- A quotient below `N` is rounded to at most `N`. -/
theorem round_half_even_le_of_lt (a b N : Nat) (h : a < N * b) : round_half_even a b ≤ N := by
  have hb : 0 < b := by
    rcases Nat.eq_zero_or_pos b with h0 | h0
    · rw [h0] at h; simp at h
    · exact h0
  have hq : a / b < N := (Nat.div_lt_iff_lt_mul hb).mpr h
  have := round_half_even_le_succ a b
  omega

/-- A quotient of at most the integer `K` is rounded to at most `K`. -/
theorem round_half_even_le_of_le (a b K : Nat) (hb : 0 < b) (h : a ≤ K * b) :
    round_half_even a b ≤ K := by
  rcases Nat.lt_or_ge a (K * b) with hlt | hge
  · exact round_half_even_le_of_lt a b K hlt
  · have e : a = K * b := Nat.le_antisymm h hge
    rw [e, round_half_even_exact K b hb]

/-- A quotient below `K + 1/2` is rounded to at most `K`. -/
theorem round_half_even_le_of_lt_half (a b K : Nat) (h : 2 * a < (2 * K + 1) * b) :
    round_half_even a b ≤ K := by
  have hb : 0 < b := by
    rcases Nat.eq_zero_or_pos b with h0 | h0
    · rw [h0] at h; simp at h
    · exact h0
  have hdm := Nat.div_add_mod a b
  have hmod := Nat.mod_lt a hb
  rcases Nat.lt_or_ge (a / b) K with hlt | hge
  · have := round_half_even_le_succ a b
    omega
  · have hKb : b * K ≤ b * (a / b) := Nat.mul_le_mul_left b hge
    have hq : a / b = K := by
      by_contra hne
      have h1 : K + 1 ≤ a / b := by omega
      have h2 : b * (K + 1) ≤ b * (a / b) := Nat.mul_le_mul_left b h1
      have h3 : (2 * K + 1) * b = 2 * (b * K) + b := by ring
      have h4 : b * (K + 1) = b * K + b := by ring
      rw [h3] at h
      rw [h4] at h2
      omega
    have h3 : (2 * K + 1) * b = 2 * (b * K) + b := by ring
    rw [h3] at h
    rw [hq] at hdm
    have hr : 2 * (a % b) < b := by omega
    unfold round_half_even
    simp only
    rw [if_pos hr, hq]

/-- A value converted by `strtof` without overflow is a finite `float` with a significand
of at most `2^24` and a magnitude of at most `FLT_MAX`. -/
theorem round_float32_bound (neg : Bool) (num den : Nat) (hden : 0 < den)
    (hno : num < (2 ^ 128 - 2 ^ 103) * den) :
    ∃ (m : Nat) (q : Int), (round_float32 neg num den).1 = Float32.finite neg m q ∧
      m ≤ 2 ^ 24 ∧ (m : ℚ) * (2 : ℚ) ^ q ≤ FLT_MAX := by
  have hFM : FLT_MAX = (2 ^ 24 - 1) * 2 ^ 104 := rfl
  by_cases h0 : num = 0
  · refine ⟨0, -149, ?_, by norm_num, ?_⟩
    · simp [round_float32, h0]
    · rw [hFM]; norm_num
  have hnum : 0 < num := Nat.pos_of_ne_zero h0
  have hdq : (0 : ℚ) < (den : ℚ) := by exact_mod_cast hden
  have h2ne : (2 : ℚ) ≠ 0 := by norm_num
  obtain ⟨lo, hi⟩ := floor_log2_spec num den hnum hden
  -- the value is below `2^128 - 2^103`
  have hxT : (num : ℚ) / (den : ℚ) < 2 ^ 128 - 2 ^ 103 := by
    rw [div_lt_iff₀ hdq]
    have : ((num : Nat) : ℚ) < (((2 ^ 128 - 2 ^ 103) * den : Nat) : ℚ) := by exact_mod_cast hno
    have e : (((2 ^ 128 - 2 ^ 103) * den : Nat) : ℚ) = (2 ^ 128 - 2 ^ 103) * (den : ℚ) := by
      have : (2 ^ 128 - 2 ^ 103 : Nat) = 340282356779733661637539395458142568448 := by norm_num
      rw [this]
      push_cast
      norm_num
    rw [e] at this
    exact this
  have he : floor_log2 num den ≤ 127 := by
    have h1 : (2 : ℚ) ^ floor_log2 num den < (2 : ℚ) ^ (128 : Int) := by
      refine lt_of_le_of_lt lo (lt_trans hxT ?_)
      norm_num
    rw [zpow_lt_zpow_iff_right₀ (by norm_num)] at h1
    omega
  generalize hq : max (floor_log2 num den - 23) (-149) = q
  have hq1 : floor_log2 num den - 23 ≤ q := by rw [← hq]; exact le_max_left _ _
  have hq2 : q ≤ 104 := by
    rw [← hq]
    exact max_le (by omega) (by norm_num)
  obtain ⟨sp, sv⟩ := scale2_spec num den q hden
  have spq : (0 : ℚ) < ((scale2 num den q).2 : ℚ) := by exact_mod_cast sp
  -- the scaled quotient is below `2^24`
  have hlt24 : (scale2 num den q).1 < 2 ^ 24 * (scale2 num den q).2 := by
    have h1 : ((scale2 num den q).1 : ℚ) / ((scale2 num den q).2 : ℚ) < 2 ^ 24 := by
      rw [sv, div_lt_iff₀ (two_zpow_pos q)]
      calc (num : ℚ) / (den : ℚ) < (2 : ℚ) ^ (floor_log2 num den + 1) := hi
        _ ≤ (2 : ℚ) ^ (24 + q) := zpow_le_zpow_right₀ (by norm_num) (by omega)
        _ = 2 ^ 24 * (2 : ℚ) ^ q := by
            rw [zpow_add₀ h2ne]; norm_num
    rw [div_lt_iff₀ spq] at h1
    exact_mod_cast h1
  have hm24 := round_half_even_le_of_lt _ _ _ hlt24
  have hres : (round_float32 neg num den).1
      = if round_half_even (scale2 num den q).1 (scale2 num den q).2 = 2 ^ 24
        then Float32.finite neg (2 ^ 23) (q + 1)
        else Float32.finite neg (round_half_even (scale2 num den q).1 (scale2 num den q).2) q := by
    unfold round_float32
    rw [if_neg h0, if_neg (by omega)]
    simp only [hq]
    split <;> rfl
  rw [hres, hFM]
  have hqpos := two_zpow_pos q
  by_cases hq104 : q = 104
  · -- the top binade: the quotient is below `2^24 - 1/2`
    have hhalf : 2 * (scale2 num den q).1 < (2 * (2 ^ 24 - 1) + 1) * (scale2 num den q).2 := by
      have h1 : ((scale2 num den q).1 : ℚ) / ((scale2 num den q).2 : ℚ)
          < (2 ^ 25 - 1) / 2 := by
        rw [sv, div_lt_iff₀ (two_zpow_pos q), hq104]
        refine lt_of_lt_of_le hxT ?_
        norm_num
      rw [div_lt_iff₀ spq] at h1
      have h2 : (2 : ℚ) * ((scale2 num den q).1 : ℚ)
          < (33554431 : ℚ) * ((scale2 num den q).2 : ℚ) := by
        have e : ((2 : ℚ) ^ 25 - 1) = 33554431 := by norm_num
        rw [e] at h1
        linarith
      have h3 : 2 * (scale2 num den q).1 < 33554431 * (scale2 num den q).2 := by
        exact_mod_cast h2
      have e : (2 * (2 ^ 24 - 1) + 1 : Nat) = 33554431 := by norm_num
      rw [e]
      exact h3
    have hm := round_half_even_le_of_lt_half _ _ _ hhalf
    have hne : ¬ round_half_even (scale2 num den q).1 (scale2 num den q).2 = 2 ^ 24 := by
      have : (2 : Nat) ^ 24 - 1 < 2 ^ 24 := by norm_num
      omega
    rw [if_neg hne]
    refine ⟨_, q, rfl, hm24, ?_⟩
    have hmq : ((round_half_even (scale2 num den q).1 (scale2 num den q).2 : Nat) : ℚ)
        ≤ 2 ^ 24 - 1 := by
      have : ((round_half_even (scale2 num den q).1 (scale2 num den q).2 : Nat) : ℚ)
          ≤ ((2 ^ 24 - 1 : Nat) : ℚ) := by exact_mod_cast hm
      refine le_trans this ?_
      norm_num
    have e104 : (2 : ℚ) ^ q = 2 ^ 104 := by rw [hq104]; norm_num
    rw [e104]
    exact mul_le_mul_of_nonneg_right hmq (by positivity)
  · -- a lower binade: the value is at most `2^127`
    have hq103 : q ≤ 103 := by omega
    have hval : ∀ m : Nat, m ≤ 2 ^ 24 → ∀ q' : Int, q' ≤ 103 →
        (m : ℚ) * (2 : ℚ) ^ q' ≤ (2 ^ 24 - 1) * 2 ^ 104 := by
      intro m hm q' hq'
      have h1 : (m : ℚ) ≤ 2 ^ 24 := by exact_mod_cast hm
      have h2 : (2 : ℚ) ^ q' ≤ (2 : ℚ) ^ (103 : Int) :=
        zpow_le_zpow_right₀ (by norm_num) hq'
      have h3 : (0 : ℚ) < (2 : ℚ) ^ q' := two_zpow_pos q'
      calc (m : ℚ) * (2 : ℚ) ^ q' ≤ 2 ^ 24 * (2 : ℚ) ^ (103 : Int) :=
            mul_le_mul h1 h2 (le_of_lt h3) (by norm_num)
        _ ≤ (2 ^ 24 - 1) * 2 ^ 104 := by norm_num
    split
    · refine ⟨2 ^ 23, q + 1, rfl, by norm_num, ?_⟩
      have e : ((2 ^ 23 : Nat) : ℚ) * (2 : ℚ) ^ (q + 1) = ((2 ^ 24 : Nat) : ℚ) * (2 : ℚ) ^ q := by
        rw [zpow_add₀ h2ne]
        push_cast
        ring
      rw [e]
      exact hval _ (le_refl _) q hq103
    · exact ⟨_, q, rfl, hm24, hval _ hm24 q hq103⟩

theorem render_nat_loop_length : ∀ (fuel n : Nat) (acc : List Char) (k : Nat), n < fuel →
    1 ≤ k → n < 10 ^ k → (render_nat_loop fuel n acc).length ≤ k + acc.length := by
  intro fuel
  induction fuel with
  | zero => intro n acc k h; omega
  | succ f ih =>
    intro n acc k hn hk hlt
    unfold render_nat_loop
    by_cases hq : n / 10 = 0
    · rw [if_pos hq]
      simp only [List.length_cons]
      omega
    · rw [if_neg hq]
      have hk2 : 2 ≤ k := by
        by_contra hc
        have : k = 1 := by omega
        rw [this] at hlt
        simp only [pow_one] at hlt
        omega
      have hlt' : n / 10 < 10 ^ (k - 1) := by
        have e : 10 ^ k = 10 ^ (k - 1) * 10 := by
          rw [← pow_succ]; congr 1; omega
        rw [e] at hlt
        exact (Nat.div_lt_iff_lt_mul (by norm_num)).mpr hlt
      have := ih (n / 10) (digit_char (n % 10) :: acc) (k - 1) (by omega) (by omega) hlt'
      simp only [List.length_cons] at this
      omega

theorem render_nat_length (n k : Nat) (hk : 1 ≤ k) (h : n < 10 ^ k) :
    (render_nat n).length ≤ k := by
  have := render_nat_loop_length (n + 1) n [] k (by omega) hk h
  simpa [render_nat] using this

theorem digits_value_append (a b : List Char) :
    digits_value 10 (a ++ b) = digits_value 10 a * 10 ^ b.length + digits_value 10 b := by
  have key : ∀ (l : List Char) (acc : Nat),
      l.foldl (fun n c => 10 * n + digit_value c) acc
        = acc * 10 ^ l.length + l.foldl (fun n c => 10 * n + digit_value c) 0 := by
    intro l
    induction l with
    | nil => intro acc; simp
    | cons c cs ih =>
      intro acc
      rw [List.foldl_cons, ih, List.foldl_cons, ih (10 * 0 + digit_value c)]
      simp only [List.length_cons, pow_succ]
      ring
  unfold digits_value
  rw [List.foldl_append, key]

theorem digits_value_zeros (k : Nat) : digits_value 10 (List.replicate k '0') = 0 := by
  induction k with
  | zero => rfl
  | succ k ih =>
    rw [List.replicate_succ, show '0' :: List.replicate k '0' = ['0'] ++ List.replicate k '0' by rfl,
      digits_value_append, ih]
    simp [digits_value, digit_value, isdigit]

/-- The text written for a finite `double` of magnitude at most `FLT_MAX`, with 16 decimal
places, is the text of a well-formed floating-point literal in range. -/
theorem render_fixed_literal (neg : Bool) (m : Nat) (e : Int)
    (hb : (m : ℚ) * (2 : ℚ) ^ e ≤ FLT_MAX) :
    ∃ L : FloatLit, L.well_formed = true ∧ L.in_range ∧
      L.text = render_fixed 16 (Binary.finite neg m e) := by
  obtain ⟨dp, dv⟩ := scale_pow_two_value m e
  have dpq : (0 : ℚ) < ((scale_pow 2 m e).2 : ℚ) := by exact_mod_cast dp
  generalize hN : round_half_even ((scale_pow 2 m e).1 * 10 ^ 16) (scale_pow 2 m e).2 = N
  -- the rounded number of units of `10^-16` is at most `FLT_MAX * 10^16`
  have hNle : N ≤ 340282346638528859811704183484516925440 * 10 ^ 16 := by
    rw [← hN]
    apply round_half_even_le_of_le _ _ _ dp
    have h1 : ((scale_pow 2 m e).1 : ℚ) / ((scale_pow 2 m e).2 : ℚ)
        ≤ 340282346638528859811704183484516925440 := by
      rw [dv]
      refine le_trans hb ?_
      unfold FLT_MAX
      norm_num
    rw [div_le_iff₀ dpq] at h1
    have h2 : (((scale_pow 2 m e).1 * 10 ^ 16 : Nat) : ℚ)
        ≤ ((340282346638528859811704183484516925440 * 10 ^ 16 * (scale_pow 2 m e).2 : Nat) : ℚ) := by
      push_cast
      nlinarith
    exact_mod_cast h2
  obtain ⟨i1, i2, i3, -⟩ := render_nat_spec (N / 10 ^ 16)
  obtain ⟨f1, f2, f3, -⟩ := render_nat_spec (N % 10 ^ 16)
  have flen : (render_nat (N % 10 ^ 16)).length ≤ 16 :=
    render_nat_length _ 16 (by norm_num) (Nat.mod_lt _ (by norm_num))
  have plen : (pad_left 16 (render_nat (N % 10 ^ 16))).length = 16 := by
    simp only [pad_left, List.length_append, List.length_replicate]
    omega
  have pdig : ∀ c ∈ pad_left 16 (render_nat (N % 10 ^ 16)), isdigit c = true := by
    intro c hc
    simp only [pad_left, List.mem_append, List.mem_replicate] at hc
    rcases hc with ⟨-, h⟩ | h
    · rw [h]; decide
    · exact f2 c h
  have pval : digits_value 10 (pad_left 16 (render_nat (N % 10 ^ 16))) = N % 10 ^ 16 := by
    simp only [pad_left]
    rw [digits_value_append, digits_value_zeros, f3]
    simp
  have alldig : ∀ c ∈ render_nat (N / 10 ^ 16) ++ pad_left 16 (render_nat (N % 10 ^ 16)),
      isdigit c = true := by
    intro c hc
    rcases List.mem_append.mp hc with h | h
    · exact i2 c h
    · exact pdig c h
  have hval : decimal_value (render_nat (N / 10 ^ 16) ++ pad_left 16 (render_nat (N % 10 ^ 16)))
      = N := by
    rw [← digits_value_decimal _ alldig, digits_value_append, i3, pval, plen]
    exact Nat.div_add_mod' N (10 ^ 16)
  refine ⟨⟨if neg then some true else none, render_nat (N / 10 ^ 16),
    some (pad_left 16 (render_nat (N % 10 ^ 16))), none⟩, ?_, ?_, ?_⟩
  · simp only [FloatLit.well_formed, FloatLit.frac_digits, Option.getD_some, Bool.and_eq_true,
      List.all_eq_true, Bool.not_eq_true', List.isEmpty_eq_false, and_true]
    refine ⟨⟨i2, pdig⟩, ?_⟩
    cases h : render_nat (N / 10 ^ 16) with
    | nil => exact absurd h i1
    | cons c t => simp
  · unfold FloatLit.in_range FloatLit.magnitude
    simp only [FloatLit.frac_digits, Option.getD_some, FloatLit.exp_value, hval, plen]
    by_cases hN0 : N = 0
    · left
      rw [hN0]
      simp
    · right
      have hN1 : (1 : ℚ) ≤ (N : ℚ) := by exact_mod_cast Nat.one_le_iff_ne_zero.mpr hN0
      have hNq : (N : ℚ) ≤ 340282346638528859811704183484516925440 * 10 ^ 16 := by
        exact_mod_cast hNle
      have e16 : (10 : ℚ) ^ ((0 : Int) - ((16 : Nat) : Int)) = 1 / 10 ^ 16 := by
        norm_num [zpow_neg]
      rw [e16]
      unfold FLT_MIN FLT_MAX
      constructor
      · have : (1 : ℚ) / 2 ^ 126 ≤ 1 * (1 / 10 ^ 16) := by norm_num
        refine le_trans this ?_
        exact mul_le_mul_of_nonneg_right hN1 (by norm_num)
      · have : (N : ℚ) * (1 / 10 ^ 16)
            ≤ 340282346638528859811704183484516925440 * 10 ^ 16 * (1 / 10 ^ 16) :=
          mul_le_mul_of_nonneg_right hNq (by norm_num)
        refine le_trans this ?_
        norm_num
  · simp only [FloatLit.text, FloatLit.frac_text, FloatLit.exp_text, render_fixed, hN,
      List.append_nil]
    cases neg <;> simp [sign_text]

/-- For a literal in range the exact value is below the overflow threshold. -/
theorem in_range_no_overflow (l : FloatLit) (hr : l.in_range) :
    (scale_pow 10 (decimal_value (l.int_part ++ l.frac_digits))
        (l.exp_value - (l.frac_digits.length : Int))).1
      < (2 ^ 128 - 2 ^ 103) *
        (scale_pow 10 (decimal_value (l.int_part ++ l.frac_digits))
          (l.exp_value - (l.frac_digits.length : Int))).2 := by
  obtain ⟨hden, hval⟩ := scale_pow_value (decimal_value (l.int_part ++ l.frac_digits))
    (l.exp_value - (l.frac_digits.length : Int))
  generalize (scale_pow 10 (decimal_value (l.int_part ++ l.frac_digits))
    (l.exp_value - (l.frac_digits.length : Int))).1 = num at hval ⊢
  generalize (scale_pow 10 (decimal_value (l.int_part ++ l.frac_digits))
    (l.exp_value - (l.frac_digits.length : Int))).2 = den at hval hden ⊢
  have hmag : l.magnitude = (num : ℚ) / (den : ℚ) := by
    rw [hval]; rfl
  have hdq : (0 : ℚ) < (den : ℚ) := by exact_mod_cast hden
  have e : (2 ^ 128 - 2 ^ 103 : ℕ) = 340282356779733661637539395458142568448 := by norm_num
  rw [e]
  rcases hr with hz | ⟨-, hhi⟩
  · rw [hmag, div_eq_zero_iff] at hz
    rcases hz with hz | hz
    · have : num = 0 := by exact_mod_cast hz
      omega
    · exact absurd hz (ne_of_gt hdq)
  · rw [hmag] at hhi
    have h1 : (num : ℚ) / (den : ℚ) ≤ (2 ^ 24 - 1) * 2 ^ 104 := hhi
    rw [div_le_iff₀ hdq] at h1
    have h2 : ((num : ℕ) : ℚ) ≤ ((340282346638528859811704183484516925440 * den : ℕ) : ℚ) := by
      push_cast
      have e : ((2 : ℚ) ^ 24 - 1) * 2 ^ 104 = 340282346638528859811704183484516925440 := by
        norm_num
      rw [e] at h1
      exact h1
    have h3 : num ≤ 340282346638528859811704183484516925440 * den := by exact_mod_cast h2
    omega

theorem binary_val_abs (neg : Bool) (m : Nat) (e : Int) :
    |(Binary.finite neg m e).val| = (m : ℚ) * (2 : ℚ) ^ e := by
  unfold Binary.val
  rw [abs_mul, signed_cast_abs, abs_of_pos (two_zpow_pos e)]

/-- The `float` that `std::stof` gives for a well-formed literal in range is written by the
writer as a text that `std::stof` converts again. -/
theorem stof_round_trip (uf : Bool) (l : FloatLit) (hw : l.well_formed = true)
    (hr : l.in_range) (f : Float32) (hf : stof uf l.text = .ok f) :
    ∃ f', stof uf (render_fixed 16 (widen 53 f)) = .ok f' := by
  have hs := in_range_status (decide (l.sign = some true)) l hr
  have hno := in_range_no_overflow l hr
  have hden := (scale_pow_value (decimal_value (l.int_part ++ l.frac_digits))
    (l.exp_value - (l.frac_digits.length : Int))).1
  obtain ⟨m, q, hres, hm, hval⟩ := round_float32_bound (decide (l.sign = some true)) _ _ hden hno
  have hfe : f = Float32.finite (decide (l.sign = some true)) m q := by
    unfold stof at hf
    rw [strtof_literal l hw] at hf
    generalize round_float32 (decide (l.sign = some true))
      (scale_pow 10 (decimal_value (l.int_part ++ l.frac_digits))
        (l.exp_value - (l.frac_digits.length : Int))).1
      (scale_pow 10 (decimal_value (l.int_part ++ l.frac_digits))
        (l.exp_value - (l.frac_digits.length : Int))).2 = res at hs hres hf
    obtain ⟨v, st⟩ := res
    simp only at hs hres
    rw [hs] at hf
    simp only at hf
    rw [← hres]
    exact (Except.ok.inj hf).symm
  rw [hfe]
  have hm53 : m < 2 ^ 53 := lt_of_le_of_lt hm (by norm_num)
  obtain ⟨nb, mb, eb, hwd, hwv⟩ := widen_val 53 (decide (l.sign = some true)) m q (by norm_num) hm53
  have habs : (mb : ℚ) * (2 : ℚ) ^ eb = (m : ℚ) * (2 : ℚ) ^ q := by
    rw [← binary_val_abs nb mb eb, hwv, float_val_abs]
  obtain ⟨L, hLw, hLr, hLt⟩ := render_fixed_literal nb mb eb (by rw [habs]; exact hval)
  obtain ⟨v, hv⟩ := stof_literal uf L hLw hLr
  rw [hwd, ← hLt]
  exact ⟨v, hv⟩

/-! ## Claims on the transformer -/

/-- C1, as stated, fails: on the single record with `y = 5` the first flip gives `y = 0`
(`max_y = 5`) and the second flip leaves `y = 0` (`max_y = 0`), not `5`. -/
theorem flip_twice_not_original :
    (flip_vertically (flip_vertically [Pixel.at 0 5])).map Pixel.y = [0] ∧
    (flip_vertically (flip_vertically [Pixel.at 0 5])).map Pixel.y
      ≠ [Pixel.at 0 5].map Pixel.y := by
  decide

/-- C1, amended: on a sequence of records with non-negative `y` in which some record has
`y = 0`, applying `flip_vertically` twice gives back the original sequence, so every record's
`y` returns to its original value. -/
theorem flip_twice_of_min_zero (l : List Pixel) (hr : ∀ p ∈ l, 0 ≤ p.y ∧ p.y ≤ INT_MAX)
    (hz : ∃ p ∈ l, p.y = 0) :
    flip_vertically (flip_vertically l) = l ∧
    (flip_vertically (flip_vertically l)).map Pixel.y = l.map Pixel.y := by
  have h1 := flip_vertically_of_range l hr
  obtain ⟨z, hzl, hz0⟩ := hz
  have hne : l ≠ [] := List.ne_nil_of_mem hzl
  obtain ⟨q, hq, hqM⟩ := max_y_of_attained l hne
  have hMmax : max_y_of l ≤ INT_MAX := by rw [← hqM]; exact (hr q hq).2
  have hr2 : ∀ p ∈ flip_vertically l, 0 ≤ p.y ∧ p.y ≤ INT_MAX := by
    intro p hp
    rw [h1] at hp
    obtain ⟨a, ha, rfl⟩ := List.mem_map.mp hp
    have := max_y_of_ge l a ha
    have := hr a ha
    simp only
    omega
  have hM2 : max_y_of (flip_vertically l) = max_y_of l := by
    apply max_y_of_unique
    · intro p hp
      rw [h1] at hp
      obtain ⟨a, ha, rfl⟩ := List.mem_map.mp hp
      have := hr a ha
      simp only
      omega
    · refine ⟨{ z with y := max_y_of l - z.y }, ?_, ?_⟩
      · rw [h1]
        exact List.mem_map.mpr ⟨z, hzl, rfl⟩
      · simp only
        omega
  have h2 := flip_vertically_of_range (flip_vertically l) hr2
  have key : flip_vertically (flip_vertically l) = l := by
    rw [h2, hM2, h1, List.map_map]
    conv_rhs => rw [← List.map_id l]
    apply List.map_congr_left
    intro p _
    cases p
    simp only [Function.comp, id, Pixel.mk.injEq, true_and]
    omega
  exact ⟨key, by rw [key]⟩

/-- The amended C1 on the two records with `y = 0` and `y = 3`. -/
theorem flip_twice_of_min_zero_witness :
    flip_vertically (flip_vertically [Pixel.at 0 0, Pixel.at 0 3])
        = [Pixel.at 0 0, Pixel.at 0 3] ∧
    (flip_vertically (flip_vertically [Pixel.at 0 0, Pixel.at 0 3])).map Pixel.y
        = [Pixel.at 0 0, Pixel.at 0 3].map Pixel.y :=
  flip_twice_of_min_zero [Pixel.at 0 0, Pixel.at 0 3] (by decide) (by decide)

/-- C2: on a non-empty sequence, `flip_vertically` replaces the `y` of every record by the
`int` difference `max_y - y`, where `max_y` is at least every input `y` and is the `y` of
some input record; the `int` difference is the mathematical one whenever that fits an
`int`. -/
theorem flip_vertically_replaces_y (l : List Pixel) (hne : l ≠ []) :
    ∃ max_y : Int, (∀ p ∈ l, p.y ≤ max_y) ∧ (∃ p ∈ l, p.y = max_y) ∧
      flip_vertically l = l.map (fun p => { p with y := int_sub max_y p.y }) ∧
      (∀ p ∈ l, INT_MIN ≤ max_y - p.y → max_y - p.y ≤ INT_MAX →
        int_sub max_y p.y = max_y - p.y) :=
  ⟨max_y_of l, max_y_of_ge l, max_y_of_attained l hne, flip_vertically_eq_map l,
    fun p _ h0 h1 => wrap32_of_range (max_y_of l - p.y) h0 h1⟩

/-- The statement of C2 on the two records with `y = 0` and `y = 3`. -/
theorem flip_vertically_replaces_y_witness :
    ∃ max_y : Int, (∀ p ∈ [Pixel.at 0 0, Pixel.at 0 3], p.y ≤ max_y) ∧
      (∃ p ∈ [Pixel.at 0 0, Pixel.at 0 3], p.y = max_y) ∧
      flip_vertically [Pixel.at 0 0, Pixel.at 0 3]
        = [Pixel.at 0 0, Pixel.at 0 3].map (fun p => { p with y := int_sub max_y p.y }) ∧
      (∀ p ∈ [Pixel.at 0 0, Pixel.at 0 3], INT_MIN ≤ max_y - p.y → max_y - p.y ≤ INT_MAX →
        int_sub max_y p.y = max_y - p.y) :=
  flip_vertically_replaces_y [Pixel.at 0 0, Pixel.at 0 3] (by decide)

/-- C3: when every record has `0 ≤ y ≤ M` with `M` the largest `y` of the sequence, then
after `flip_vertically` the record at each position still has `0 ≤ y ≤ M`, a record whose
`y` was `0` has `y = M`, and a record whose `y` was `M` has `y = 0`. -/
theorem flip_vertically_keeps_range (l : List Pixel) (M : Int) (hM : M ≤ INT_MAX)
    (hr : ∀ p ∈ l, 0 ≤ p.y ∧ p.y ≤ M) (hat : ∃ p ∈ l, p.y = M) :
    ∀ (i : Nat) (p : Pixel), l[i]? = some p →
      ∃ q, (flip_vertically l)[i]? = some q ∧ 0 ≤ q.y ∧ q.y ≤ M ∧
        (p.y = 0 → q.y = M) ∧ (p.y = M → q.y = 0) := by
  intro i p hi
  have hmax : max_y_of l = M := max_y_of_unique l M (fun a ha => (hr a ha).2) hat
  have h1 := flip_vertically_of_range l (fun a ha => ⟨(hr a ha).1, by have := (hr a ha).2; omega⟩)
  have hp := hr p (List.getElem?_mem hi)
  refine ⟨{ p with y := M - p.y }, ?_, ?_, ?_, ?_, ?_⟩
  · rw [h1, List.getElem?_map, hi, hmax]; rfl
  · simp only; omega
  · simp only; omega
  · intro h; simp only; omega
  · intro h; simp only; omega

/-- The statement of C3 on the two records with `y = 0` and `y = 3`, at the second one. -/
theorem flip_vertically_keeps_range_witness :
    ∃ q, (flip_vertically [Pixel.at 0 0, Pixel.at 0 3])[1]? = some q ∧ 0 ≤ q.y ∧ q.y ≤ 3 ∧
      ((Pixel.at 0 3).y = 0 → q.y = 3) ∧ ((Pixel.at 0 3).y = 3 → q.y = 0) :=
  flip_vertically_keeps_range [Pixel.at 0 0, Pixel.at 0 3] 3 (by decide) (by decide) (by decide)
    1 (Pixel.at 0 3) rfl

/-- C4: `flip_vertically` keeps the number of records and, position by position, the `x`,
`r`, `g` and `b` of every record; the empty sequence is returned as it is. -/
theorem flip_vertically_frame (l : List Pixel) :
    (flip_vertically l).length = l.length ∧
    (flip_vertically l).map Pixel.x = l.map Pixel.x ∧
    (flip_vertically l).map Pixel.r = l.map Pixel.r ∧
    (flip_vertically l).map Pixel.g = l.map Pixel.g ∧
    (flip_vertically l).map Pixel.b = l.map Pixel.b ∧
    flip_vertically [] = [] := by
  rw [flip_vertically_eq_map]
  refine ⟨by simp, ?_, ?_, ?_, ?_, rfl⟩ <;>
    · rw [List.map_map]
      apply List.map_congr_left
      intro p _
      rfl

/-! ## Claims on the line parser -/

/-- C5, as stated, fails: the line `12abc,2,0.5,0.5,0.5` is accepted with `x = 12`, the
conversion ignoring what follows the digits; so for either setting of the underflow
parameter. -/
theorem parse_accepts_trailing_text :
    parse_pixel_line true "12abc,2,0.5,0.5,0.5".toList (Pixel.at 0 0)
      = .ok (true, ⟨Float32.finite false 8388608 (-24), Float32.finite false 8388608 (-24),
          Float32.finite false 8388608 (-24), 12, 2⟩) ∧
    parse_pixel_line false "12abc,2,0.5,0.5,0.5".toList (Pixel.at 0 0)
      = .ok (true, ⟨Float32.finite false 8388608 (-24), Float32.finite false 8388608 (-24),
          Float32.finite false 8388608 (-24), 12, 2⟩) := by
  decide

/-- C5, amended: a line of five fields is rejected when one of the first two does not begin,
after optional white space and an optional sign, with a decimal digit, or one of the last
three does not begin, after optional white space and an optional sign, with a digit, a point
and a digit, `inf` or `nan`; an empty field is such a field. -/
theorem parse_rejects_non_numeric (uf : Bool) (f1 f2 f3 f4 f5 : List Char) (out : Pixel)
    (h1 : ',' ∉ f1) (h2 : ',' ∉ f2) (h3 : ',' ∉ f3) (h4 : ',' ∉ f4)
    (h : ¬ begins_with_integer f1 ∨ ¬ begins_with_integer f2 ∨ ¬ begins_with_float f3 ∨
      ¬ begins_with_float f4 ∨ ¬ begins_with_float f5) :
    ∃ p, parse_pixel_line uf (f1 ++ ',' :: (f2 ++ ',' :: (f3 ++ ',' :: (f4 ++ ',' :: f5)))) out
      = .ok (false, p) := by
  rw [parse_pixel_line_fields uf f1 f2 f3 f4 f5 out h1 h2 h3 h4]
  have hr : (convert_fields uf f1 f2 f3 f4 f5 out).1 = false := by
    apply convert_fields_rejects
    rcases h with h | h | h | h | h
    · exact Or.inl ⟨_, stoi_begins f1 h⟩
    · exact Or.inr (Or.inl ⟨_, stoi_begins f2 h⟩)
    · exact Or.inr (Or.inr (Or.inl ⟨_, stof_begins uf f3 h⟩))
    · exact Or.inr (Or.inr (Or.inr (Or.inl ⟨_, stof_begins uf f4 h⟩)))
    · exact Or.inr (Or.inr (Or.inr (Or.inr ⟨_, stof_begins uf f5 h⟩)))
  refine ⟨(convert_fields uf f1 f2 f3 f4 f5 out).2, ?_⟩
  rw [← hr]

/-- The amended C5 on the line `1,abc,0.5,0.5,` whose second field begins with no digit. -/
theorem parse_rejects_non_numeric_witness :
    ∃ p, parse_pixel_line true ("1".toList ++ ',' :: ("abc".toList ++ ',' ::
        ("0.5".toList ++ ',' :: ("0.5".toList ++ ',' :: [])))) (Pixel.at 0 0)
      = .ok (false, p) :=
  parse_rejects_non_numeric true "1".toList "abc".toList "0.5".toList "0.5".toList []
    (Pixel.at 0 0) (by decide) (by decide) (by decide) (by decide)
    (Or.inr (Or.inl (by
      rintro ⟨ws, sg, d, rest, h, hws, hsg, hd⟩
      cases ws with
      | nil =>
        rcases hsg with rfl | rfl | rfl
        · have e : d = 'a' := by
            have := congrArg List.head? h
            simpa using this.symm
          rw [e] at hd
          exact absurd hd (by decide)
        · simp at h
        · simp at h
      | cons c ws =>
        have e : c = 'a' := by
          have := congrArg List.head? h
          simpa using this.symm
        have := hws c (List.mem_cons_self _ _)
        rw [e] at this
        exact absurd this (by decide))))

/-- C6, as stated, fails: the line `1,2,0.5,0.5,0.5,9` has five commas and is accepted, the
fifth slice `0.5,9` converting to `0.5`; so for either setting of the underflow parameter. -/
theorem parse_accepts_five_commas :
    "1,2,0.5,0.5,0.5,9".toList.count ',' = 5 ∧
    parse_pixel_line true "1,2,0.5,0.5,0.5,9".toList (Pixel.at 0 0)
      = .ok (true, ⟨Float32.finite false 8388608 (-24), Float32.finite false 8388608 (-24),
          Float32.finite false 8388608 (-24), 1, 2⟩) ∧
    parse_pixel_line false "1,2,0.5,0.5,0.5,9".toList (Pixel.at 0 0)
      = .ok (true, ⟨Float32.finite false 8388608 (-24), Float32.finite false 8388608 (-24),
          Float32.finite false 8388608 (-24), 1, 2⟩) := by
  decide

/-- C6, amended: `parse_pixel_line` returns `true` only for lines with at least four
commas; the line is then four comma-free fields, each followed by a comma, and a fifth
slice that runs to the end of the line (further commas included), and the five conversions
of these slices succeed. -/
theorem parse_true_at_least_four_commas (uf : Bool) (line : List Char) (out p : Pixel)
    (h : parse_pixel_line uf line out = .ok (true, p)) :
    4 ≤ line.count ',' ∧ ∃ f1 f2 f3 f4 f5 : List Char,
      ',' ∉ f1 ∧ ',' ∉ f2 ∧ ',' ∉ f3 ∧ ',' ∉ f4 ∧
      line = f1 ++ ',' :: (f2 ++ ',' :: (f3 ++ ',' :: (f4 ++ ',' :: f5))) ∧
      convert_fields uf f1 f2 f3 f4 f5 out = (true, p) := by
  rcases line_cases uf line out with ⟨_, hf⟩ | ⟨hc, f1, f2, f3, f4, f5, h1, h2, h3, h4, hl⟩
  · rw [hf] at h
    simp at h
  · refine ⟨hc, f1, f2, f3, f4, f5, h1, h2, h3, h4, hl, ?_⟩
    rw [hl, parse_pixel_line_fields uf f1 f2 f3 f4 f5 out h1 h2 h3 h4] at h
    exact Except.ok.inj h

/-- The amended C6 on the accepted line `1,2,0.5,0.5,0.5,9`. -/
theorem parse_true_at_least_four_commas_witness :
    4 ≤ "1,2,0.5,0.5,0.5,9".toList.count ',' ∧ ∃ f1 f2 f3 f4 f5 : List Char,
      ',' ∉ f1 ∧ ',' ∉ f2 ∧ ',' ∉ f3 ∧ ',' ∉ f4 ∧
      "1,2,0.5,0.5,0.5,9".toList = f1 ++ ',' :: (f2 ++ ',' :: (f3 ++ ',' :: (f4 ++ ',' :: f5))) ∧
      convert_fields true f1 f2 f3 f4 f5 (Pixel.at 0 0)
        = (true, ⟨Float32.finite false 8388608 (-24), Float32.finite false 8388608 (-24),
            Float32.finite false 8388608 (-24), 1, 2⟩) :=
  parse_true_at_least_four_commas true "1,2,0.5,0.5,0.5,9".toList (Pixel.at 0 0) _ (by decide)

/-- C7: on a line with fewer than four commas `parse_pixel_line` returns `false` (and no
exception leaves it). -/
theorem parse_rejects_few_commas (uf : Bool) (line : List Char) (out : Pixel)
    (h : line.count ',' < 4) :
    parse_pixel_line uf line out = .ok (false, out) := by
  rcases line_cases uf line out with ⟨_, hf⟩ | ⟨hc, _⟩
  · exact hf
  · omega

/-- The statement of C7 on the line `1,2,3` and on the empty line. -/
theorem parse_rejects_few_commas_witness :
    parse_pixel_line true "1,2,3".toList (Pixel.at 0 0) = .ok (false, Pixel.at 0 0) ∧
    parse_pixel_line true [] (Pixel.at 0 0) = .ok (false, Pixel.at 0 0) :=
  ⟨parse_rejects_few_commas true "1,2,3".toList (Pixel.at 0 0) (by decide),
    parse_rejects_few_commas true [] (Pixel.at 0 0) (by decide)⟩

/-- C8, as stated, fails: on the line `5,abc,0.5,0.5,0.5` the conversion of `y` throws after
`out.x` has been assigned, so the call returns `false` with `out.x` changed from 7 to 5. -/
theorem parse_false_modifies_out :
    parse_pixel_line true "5,abc,0.5,0.5,0.5".toList (Pixel.at 7 7)
      = .ok (false, Pixel.at 5 7) ∧ Pixel.at 5 7 ≠ Pixel.at 7 7 := by
  decide

/-- C8, amended: when `parse_pixel_line` returns `false`, `out.b` is as before the call, and
the other fields are as before except for those assigned, in the order `x`, `y`, `r`, `g`,
before the conversion that threw; when the line has fewer than four commas the whole record
is as before. -/
theorem parse_false_out (uf : Bool) (line : List Char) (out p : Pixel)
    (h : parse_pixel_line uf line out = .ok (false, p)) :
    (line.count ',' < 4 → p = out) ∧ p.b = out.b ∧
    (p = out ∨ (∃ x, p = { out with x := x }) ∨ (∃ x y, p = { out with x := x, y := y }) ∨
      (∃ x y r, p = { out with x := x, y := y, r := r }) ∨
      (∃ x y r g, p = { out with x := x, y := y, r := r, g := g })) := by
  rcases line_cases uf line out with ⟨_, hf⟩ | ⟨hc, f1, f2, f3, f4, f5, h1, h2, h3, h4, hl⟩
  · rw [hf] at h
    have e : p = out := by
      have := Except.ok.inj h
      simp only [Prod.mk.injEq, true_and] at this
      exact this.symm
    exact ⟨fun _ => e, by rw [e], Or.inl e⟩
  · refine ⟨fun hlt => absurd hc (by omega), ?_⟩
    rw [hl, parse_pixel_line_fields uf f1 f2 f3 f4 f5 out h1 h2 h3 h4] at h
    rcases convert_fields_false uf f1 f2 f3 f4 f5 out p (Except.ok.inj h) with
      e | ⟨x, -, e⟩ | ⟨x, y, -, -, e⟩ | ⟨x, y, r, -, -, -, e⟩ | ⟨x, y, r, g, -, -, -, -, e⟩
    · exact ⟨by rw [e], Or.inl e⟩
    · exact ⟨by rw [e], Or.inr (Or.inl ⟨x, e⟩)⟩
    · exact ⟨by rw [e], Or.inr (Or.inr (Or.inl ⟨x, y, e⟩))⟩
    · exact ⟨by rw [e], Or.inr (Or.inr (Or.inr (Or.inl ⟨x, y, r, e⟩)))⟩
    · exact ⟨by rw [e], Or.inr (Or.inr (Or.inr (Or.inr ⟨x, y, r, g, e⟩)))⟩

/-- The amended C8 on the line `5,abc,0.5,0.5,0.5`, rejected with `x` assigned. -/
theorem parse_false_out_witness :
    ("5,abc,0.5,0.5,0.5".toList.count ',' < 4 → Pixel.at 5 7 = Pixel.at 7 7) ∧
    (Pixel.at 5 7).b = (Pixel.at 7 7).b ∧
    (Pixel.at 5 7 = Pixel.at 7 7 ∨ (∃ x, Pixel.at 5 7 = { Pixel.at 7 7 with x := x }) ∨
      (∃ x y, Pixel.at 5 7 = { Pixel.at 7 7 with x := x, y := y }) ∨
      (∃ x y r, Pixel.at 5 7 = { Pixel.at 7 7 with x := x, y := y, r := r }) ∨
      (∃ x y r g, Pixel.at 5 7 = { Pixel.at 7 7 with x := x, y := y, r := r, g := g })) :=
  parse_false_out true "5,abc,0.5,0.5,0.5".toList (Pixel.at 7 7) (Pixel.at 5 7) (by decide)

/-- C9, as stated, fails: in the line `1,2,1` followed by 39 zeros and `.0,0,0` the third
field is a decimal floating-point literal whose value, `10^39`, is beyond the largest
`float`; `std::stof` throws `out_of_range` and the line is rejected, for either setting of
the underflow parameter. -/
theorem parse_rejects_float_overflow :
    FloatLit.well_formed
      ⟨none, "1000000000000000000000000000000000000000".toList, some ['0'], none⟩ = true ∧
    FloatLit.text ⟨none, "1000000000000000000000000000000000000000".toList, some ['0'], none⟩
      = "1000000000000000000000000000000000000000.0".toList ∧
    parse_pixel_line true "1,2,1000000000000000000000000000000000000000.0,0,0".toList
      (Pixel.at 0 0) = .ok (false, Pixel.at 1 2) ∧
    parse_pixel_line false "1,2,1000000000000000000000000000000000000000.0,0,0".toList
      (Pixel.at 0 0) = .ok (false, Pixel.at 1 2) := by
  decide

/-- C9, amended: a line made of two well-formed integer literals in the range of `int` and
three well-formed decimal floating-point literals, each denoting zero or a number whose
magnitude lies between `FLT_MIN` and `FLT_MAX`, with a comma between neighbours, has
exactly four commas and is accepted; the record is made of the five converted values,
whatever `out` was, with `x` and `y` the integers that the first two literals denote. -/
theorem parse_accepts_well_formed (uf : Bool) (x y : IntLit) (r g b : FloatLit) (out : Pixel)
    (hx : x.well_formed = true) (hxr : INT_MIN ≤ x.value ∧ x.value ≤ INT_MAX)
    (hy : y.well_formed = true) (hyr : INT_MIN ≤ y.value ∧ y.value ≤ INT_MAX)
    (hr : r.well_formed = true) (hrr : r.in_range)
    (hg : g.well_formed = true) (hgr : g.in_range)
    (hb : b.well_formed = true) (hbr : b.in_range) :
    (x.text ++ ',' :: (y.text ++ ',' :: (r.text ++ ',' :: (g.text ++ ',' :: b.text)))).count ','
      = 4 ∧
    ∃ fr fg fb, stof uf r.text = .ok fr ∧ stof uf g.text = .ok fg ∧ stof uf b.text = .ok fb ∧
      parse_pixel_line uf
        (x.text ++ ',' :: (y.text ++ ',' :: (r.text ++ ',' :: (g.text ++ ',' :: b.text)))) out
        = .ok (true, ⟨fr, fg, fb, x.value, y.value⟩) := by
  have cx := literal_no_comma _ (x.int_text_literal hx)
  have cy := literal_no_comma _ (y.int_text_literal hy)
  have cr := literal_no_comma _ (r.float_text_literal hr)
  have cg := literal_no_comma _ (g.float_text_literal hg)
  have cb := literal_no_comma _ (b.float_text_literal hb)
  constructor
  · simp only [List.count_append, List.count_cons_self, List.count_eq_zero_of_not_mem cx,
      List.count_eq_zero_of_not_mem cy, List.count_eq_zero_of_not_mem cr,
      List.count_eq_zero_of_not_mem cg, List.count_eq_zero_of_not_mem cb]
  · obtain ⟨fr, er⟩ := stof_literal uf r hr hrr
    obtain ⟨fg, eg⟩ := stof_literal uf g hg hgr
    obtain ⟨fb, eb⟩ := stof_literal uf b hb hbr
    refine ⟨fr, fg, fb, er, eg, eb, ?_⟩
    rw [parse_pixel_line_fields uf _ _ _ _ _ out cx cy cr cg]
    congr 1
    exact (convert_fields_true uf _ _ _ _ _ out _).mpr
      ⟨x.value, y.value, fr, fg, fb, stoi_literal x hx hxr, stoi_literal y hy hyr, er, eg, eb, rfl⟩

/-- The amended C9 on the line `0,-3,1.0,0.0,2.5e-1`. -/
theorem parse_accepts_well_formed_witness :
    ("0".toList ++ ',' :: ("-3".toList ++ ',' :: ("1.0".toList ++ ',' ::
      ("0.0".toList ++ ',' :: "2.5e-1".toList)))).count ',' = 4 ∧
    ∃ fr fg fb, stof true "1.0".toList = .ok fr ∧ stof true "0.0".toList = .ok fg ∧
      stof true "2.5e-1".toList = .ok fb ∧
      parse_pixel_line true
        ("0".toList ++ ',' :: ("-3".toList ++ ',' :: ("1.0".toList ++ ',' ::
          ("0.0".toList ++ ',' :: "2.5e-1".toList)))) (Pixel.at 7 7)
        = .ok (true, ⟨fr, fg, fb, 0, -3⟩) :=
  parse_accepts_well_formed true ⟨none, "0".toList⟩ ⟨some true, "3".toList⟩
    ⟨none, "1".toList, some "0".toList, none⟩ ⟨none, "0".toList, some "0".toList, none⟩
    ⟨none, "2".toList, some "5".toList, some (false, ⟨some true, "1".toList⟩)⟩ (Pixel.at 7 7)
    (by decide) (by decide) (by decide) (by decide)
    (by decide)
    (by
      simp [FloatLit.in_range, FloatLit.magnitude, FloatLit.frac_digits, FloatLit.exp_value,
        decimal_value, Nat.ofDigits, FLT_MIN, FLT_MAX]
      norm_num)
    (by decide)
    (by
      simp [FloatLit.in_range, FloatLit.magnitude, FloatLit.frac_digits, FloatLit.exp_value,
        decimal_value, Nat.ofDigits, FLT_MIN, FLT_MAX])
    (by decide)
    (by
      simp [FloatLit.in_range, FloatLit.magnitude, FloatLit.frac_digits, FloatLit.exp_value,
        IntLit.value, decimal_value, Nat.ofDigits, FLT_MIN, FLT_MAX]
      norm_num)

/-! ## Claims on the loader -/

/-- C10: on every input text the read loop ends without an exception; the text being the
lines `ls`, each ended by a line break, and a last piece `last`, the record sequence is the
accepted records of the non-empty lines in input order, `loaded` is the number of non-empty
lines that `parse_pixel_line` accepts, `bad` the number of those it rejects, and the two
add up to the number of non-empty lines. On the two lines `1,2,3` and `0,0,0.1,0.1,0.1` the
loop ends with `loaded = 1` and `bad = 1`. -/
theorem load_result :
    (∀ (uf : Bool) (px : Pixel) (fin : List Char), ∃ ls last st,
      (∀ l ∈ ls, '\n' ∉ l) ∧ '\n' ∉ last ∧ fin = text_of ls last ∧
      load uf px fin = some (.ok st) ∧
      st.pixel_list = (nonempty_lines (ls ++ [last])).filterMap (accepted uf px) ∧
      st.loaded = (nonempty_lines (ls ++ [last])).countP (fun l => (accepted uf px l).isSome) ∧
      st.bad = (nonempty_lines (ls ++ [last])).countP (fun l => (accepted uf px l).isNone) ∧
      st.loaded + st.bad = (nonempty_lines (ls ++ [last])).length) ∧
    (∀ (uf : Bool) (px : Pixel), ∃ st,
      load uf px "1,2,3\n0,0,0.1,0.1,0.1\n".toList = some (.ok st) ∧
      st.pixel_list.length = 1 ∧ st.loaded = 1 ∧ st.bad = 1) := by
  have main : ∀ (uf : Bool) (px : Pixel) (ls : List (List Char)) (last : List Char),
      (∀ l ∈ ls, '\n' ∉ l) → '\n' ∉ last →
      load uf px (text_of ls last) = some (.ok (state_after uf px ⟨[], 0, 0, 0⟩
        (ls ++ (if last = [] then [] else [last])))) := by
    intro uf px ls last hls hlast
    exact load_loop_text uf px ls last hls hlast _ _ (Nat.lt_succ_self _)
  have hne : ∀ (ls : List (List Char)) (last : List Char),
      nonempty_lines (ls ++ (if last = [] then [] else [last])) = nonempty_lines (ls ++ [last]) := by
    intro ls last
    by_cases hl : last = []
    · simp [hl, nonempty_lines]
    · simp [hl]
  constructor
  · intro uf px fin
    obtain ⟨ls, last, hls, hlast, e⟩ := every_text fin
    refine ⟨ls, last, _, hls, hlast, e, by rw [e]; exact main uf px ls last hls hlast, ?_, ?_, ?_, ?_⟩
    · simp [state_after, hne]
    · simp [state_after, hne]
    · simp [state_after, hne]
    · simp only [state_after, hne, Nat.zero_add]
      generalize nonempty_lines (ls ++ [last]) = ne
      induction ne with
      | nil => rfl
      | cons a t ih =>
        simp only [List.countP_cons, List.length_cons]
        cases accepted uf px a <;> simp <;> omega
  · intro uf px
    have h := main uf px ["1,2,3".toList, "0,0,0.1,0.1,0.1".toList] [] (by decide) (by decide)
    rw [state_after_indep uf px (Pixel.at 0 0)] at h
    refine ⟨_, h, ?_, ?_, ?_⟩ <;> cases uf <;> decide

/-! ## Claims on the slices of the line parser -/

/-- C17: on a line with at least four commas the four searches of `parse_pixel_line` find
positions `c1 < c2 < c3 < c4` inside the line; the five `substr` calls throw nothing and give
slices of the requested lengths, the first four without a comma, the fifth running to the
end of the line; and the five slices with a comma between neighbours are the line. -/
theorem slices_partition (uf : Bool) (line : List Char) (out : Pixel)
    (h : 4 ≤ line.count ',') :
    ∃ c1 c2 c3 c4 sx sy sr sg sb,
      find line ',' 0 = some c1 ∧ find line ',' (c1 + 1) = some c2 ∧
      find line ',' (c2 + 1) = some c3 ∧ find line ',' (c3 + 1) = some c4 ∧
      c1 < c2 ∧ c2 < c3 ∧ c3 < c4 ∧ c4 < line.length ∧
      substr line 0 (c1 - 0) = .ok sx ∧ substr line (c1 + 1) (c2 - (c1 + 1)) = .ok sy ∧
      substr line (c2 + 1) (c3 - (c2 + 1)) = .ok sr ∧
      substr line (c3 + 1) (c4 - (c3 + 1)) = .ok sg ∧ substr_to_end line (c4 + 1) = .ok sb ∧
      sx.length = c1 - 0 ∧ sy.length = c2 - (c1 + 1) ∧ sr.length = c3 - (c2 + 1) ∧
      sg.length = c4 - (c3 + 1) ∧ sb = line.drop (c4 + 1) ∧
      ',' ∉ sx ∧ ',' ∉ sy ∧ ',' ∉ sr ∧ ',' ∉ sg ∧
      sx ++ ',' :: (sy ++ ',' :: (sr ++ ',' :: (sg ++ ',' :: sb))) = line ∧
      parse_pixel_line uf line out = .ok (convert_fields uf sx sy sr sg sb out) := by
  rcases line_cases uf line out with ⟨hlt, -⟩ | ⟨-, f1, f2, f3, f4, f5, h1, h2, h3, h4, rfl⟩
  · omega
  · obtain ⟨e1, e2, e3, e4, s1, s2, s3, s4, s5⟩ := find_substr_fields f1 f2 f3 f4 f5 h1 h2 h3 h4
    refine ⟨f1.length, f1.length + 1 + f2.length, f1.length + 1 + f2.length + 1 + f3.length,
      f1.length + 1 + f2.length + 1 + f3.length + 1 + f4.length, f1, f2, f3, f4, f5,
      e1, e2, e3, e4, by omega, by omega, by omega, ?_, ?_, ?_, ?_, ?_, s5, by omega, by omega,
      by omega, by omega, ?_, h1, h2, h3, h4, rfl,
      parse_pixel_line_fields uf f1 f2 f3 f4 f5 out h1 h2 h3 h4⟩
    · simp only [List.length_append, List.length_cons]
      omega
    · rw [Nat.sub_zero]; exact s1
    · rw [Nat.add_sub_cancel_left]; exact s2
    · rw [Nat.add_sub_cancel_left]; exact s3
    · rw [Nat.add_sub_cancel_left]; exact s4
    · unfold substr_to_end at s5
      split at s5
      · cases s5
      · exact (Except.ok.inj s5).symm

/-- The statement of C17 on the line `1,2,0.5,0.5,0.5,9`, which has five commas. -/
theorem slices_partition_witness :
    ∃ c1 c2 c3 c4 sx sy sr sg sb,
      find "1,2,0.5,0.5,0.5,9".toList ',' 0 = some c1 ∧
      find "1,2,0.5,0.5,0.5,9".toList ',' (c1 + 1) = some c2 ∧
      find "1,2,0.5,0.5,0.5,9".toList ',' (c2 + 1) = some c3 ∧
      find "1,2,0.5,0.5,0.5,9".toList ',' (c3 + 1) = some c4 ∧
      c1 < c2 ∧ c2 < c3 ∧ c3 < c4 ∧ c4 < "1,2,0.5,0.5,0.5,9".toList.length ∧
      substr "1,2,0.5,0.5,0.5,9".toList 0 (c1 - 0) = .ok sx ∧
      substr "1,2,0.5,0.5,0.5,9".toList (c1 + 1) (c2 - (c1 + 1)) = .ok sy ∧
      substr "1,2,0.5,0.5,0.5,9".toList (c2 + 1) (c3 - (c2 + 1)) = .ok sr ∧
      substr "1,2,0.5,0.5,0.5,9".toList (c3 + 1) (c4 - (c3 + 1)) = .ok sg ∧
      substr_to_end "1,2,0.5,0.5,0.5,9".toList (c4 + 1) = .ok sb ∧
      sx.length = c1 - 0 ∧ sy.length = c2 - (c1 + 1) ∧ sr.length = c3 - (c2 + 1) ∧
      sg.length = c4 - (c3 + 1) ∧ sb = "1,2,0.5,0.5,0.5,9".toList.drop (c4 + 1) ∧
      ',' ∉ sx ∧ ',' ∉ sy ∧ ',' ∉ sr ∧ ',' ∉ sg ∧
      sx ++ ',' :: (sy ++ ',' :: (sr ++ ',' :: (sg ++ ',' :: sb))) = "1,2,0.5,0.5,0.5,9".toList ∧
      parse_pixel_line true "1,2,0.5,0.5,0.5,9".toList (Pixel.at 0 0)
        = .ok (convert_fields true sx sy sr sg sb (Pixel.at 0 0)) :=
  slices_partition true "1,2,0.5,0.5,0.5,9".toList (Pixel.at 0 0) (by decide)

/-! ## Further claims on the transformer -/

/-- C18: when no difference of two `y` exceeds `INT_MAX` (no subtraction overflows), two
flips map every `y` to `y - min_y`, with `min_y` the smallest `y` of the sequence; after one
flip some record has `y = 0`; and three flips give what one flip gives. -/
theorem flip_twice_shifts (l : List Pixel) (hne : l ≠ [])
    (hspan : ∀ p ∈ l, ∀ q ∈ l, q.y - p.y ≤ INT_MAX) :
    ∃ min_y : Int, (∀ p ∈ l, min_y ≤ p.y) ∧ (∃ p ∈ l, p.y = min_y) ∧
      flip_vertically (flip_vertically l) = l.map (fun p => { p with y := p.y - min_y }) ∧
      (∃ p ∈ flip_vertically l, p.y = 0) ∧
      flip_vertically (flip_vertically (flip_vertically l)) = flip_vertically l := by
  obtain ⟨t, ht, htM⟩ := max_y_of_attained l hne
  have h1 := flip_vertically_of_span l (fun p hp => by rw [← htM]; exact hspan p hp t ht)
  have hne1 : flip_vertically l ≠ [] := by
    rw [h1]; simpa using hne
  obtain ⟨b', hb', hbM⟩ := max_y_of_attained (flip_vertically l) hne1
  have hb'' := hb'
  rw [h1] at hb''
  obtain ⟨b, hb, rfl⟩ := List.mem_map.mp hb''
  simp only at hbM
  have hmin : ∀ p ∈ l, b.y ≤ p.y := by
    intro p hp
    have hm : ({ p with y := max_y_of l - p.y } : Pixel) ∈ flip_vertically l := by
      rw [h1]; exact List.mem_map.mpr ⟨p, hp, rfl⟩
    have := max_y_of_ge (flip_vertically l) _ hm
    simp only at this
    omega
  have hM1 : max_y_of (flip_vertically l) = max_y_of l - b.y := hbM.symm
  have h2 : flip_vertically (flip_vertically l)
      = l.map (fun p => { p with y := p.y - b.y }) := by
    rw [flip_vertically_of_span (flip_vertically l), hM1, h1, List.map_map]
    · apply List.map_congr_left
      intro p _
      simp only [Function.comp]
      congr 1
      omega
    · intro p hp
      rw [h1] at hp
      obtain ⟨a, ha, rfl⟩ := List.mem_map.mp hp
      rw [hM1]
      simp only
      have := hspan b hb a ha
      omega
  have hne2 : flip_vertically (flip_vertically l) ≠ [] := by
    rw [h2]; simpa using hne
  have hM2 : max_y_of (flip_vertically (flip_vertically l)) = max_y_of l - b.y := by
    apply max_y_of_unique
    · intro p hp
      rw [h2] at hp
      obtain ⟨a, ha, rfl⟩ := List.mem_map.mp hp
      have := max_y_of_ge l a ha
      simp only
      omega
    · refine ⟨{ t with y := t.y - b.y }, ?_, ?_⟩
      · rw [h2]; exact List.mem_map.mpr ⟨t, ht, rfl⟩
      · simp only
        omega
  refine ⟨b.y, hmin, ⟨b, hb, rfl⟩, h2, ?_, ?_⟩
  · refine ⟨{ t with y := max_y_of l - t.y }, ?_, ?_⟩
    · rw [h1]; exact List.mem_map.mpr ⟨t, ht, rfl⟩
    · simp only
      omega
  · rw [flip_vertically_of_span (flip_vertically (flip_vertically l)), hM2, h2, h1,
      List.map_map]
    · apply List.map_congr_left
      intro p _
      simp only [Function.comp]
      congr 1
      omega
    · intro p hp
      rw [h2] at hp
      obtain ⟨a, ha, rfl⟩ := List.mem_map.mp hp
      rw [hM2]
      simp only
      have := hspan a ha t ht
      have := hmin a ha
      omega

/-- The statement of C18 on the records with `y = 2` and `y = 5`. -/
theorem flip_twice_shifts_witness :
    ∃ min_y : Int, (∀ p ∈ [Pixel.at 0 2, Pixel.at 0 5], min_y ≤ p.y) ∧
      (∃ p ∈ [Pixel.at 0 2, Pixel.at 0 5], p.y = min_y) ∧
      flip_vertically (flip_vertically [Pixel.at 0 2, Pixel.at 0 5])
        = [Pixel.at 0 2, Pixel.at 0 5].map (fun p => { p with y := p.y - min_y }) ∧
      (∃ p ∈ flip_vertically [Pixel.at 0 2, Pixel.at 0 5], p.y = 0) ∧
      flip_vertically (flip_vertically (flip_vertically [Pixel.at 0 2, Pixel.at 0 5]))
        = flip_vertically [Pixel.at 0 2, Pixel.at 0 5] :=
  flip_twice_shifts [Pixel.at 0 2, Pixel.at 0 5] (by decide) (by decide)

/-- C19: on a non-empty sequence whose `y` are non-negative `int`s, the difference
`max_y - p.y` lies in the range of `int` for every record, so the `int` subtraction gives
the mathematical difference; on the two records with `y = INT_MIN` and `y = INT_MAX` the
mathematical difference `max_y - INT_MIN` is beyond `INT_MAX`. -/
theorem flip_no_overflow (l : List Pixel) (hne : l ≠ [])
    (hr : ∀ p ∈ l, 0 ≤ p.y ∧ p.y ≤ INT_MAX) :
    (∀ p ∈ l, INT_MIN ≤ max_y_of l - p.y ∧ max_y_of l - p.y ≤ INT_MAX ∧
      int_sub (max_y_of l) p.y = max_y_of l - p.y) ∧
    flip_vertically l = l.map (fun p => { p with y := max_y_of l - p.y }) ∧
    (max_y_of [Pixel.at 0 INT_MIN, Pixel.at 0 INT_MAX] = INT_MAX ∧
      INT_MAX < max_y_of [Pixel.at 0 INT_MIN, Pixel.at 0 INT_MAX] - (Pixel.at 0 INT_MIN).y ∧
      int_sub (max_y_of [Pixel.at 0 INT_MIN, Pixel.at 0 INT_MAX]) (Pixel.at 0 INT_MIN).y
        ≠ max_y_of [Pixel.at 0 INT_MIN, Pixel.at 0 INT_MAX] - (Pixel.at 0 INT_MIN).y) := by
  obtain ⟨t, ht, htM⟩ := max_y_of_attained l hne
  have hMmax : max_y_of l ≤ INT_MAX := by rw [← htM]; exact (hr t ht).2
  refine ⟨?_, flip_vertically_of_range l hr, by decide⟩
  intro p hp
  have h0 := hr p hp
  have hM := max_y_of_ge l p hp
  have hlo : INT_MIN ≤ max_y_of l - p.y := by unfold INT_MIN; omega
  have hhi : max_y_of l - p.y ≤ INT_MAX := by omega
  exact ⟨hlo, hhi, wrap32_of_range _ hlo hhi⟩

/-- The statement of C19 on the records with `y = 0` and `y = INT_MAX`. -/
theorem flip_no_overflow_witness :
    (∀ p ∈ [Pixel.at 0 0, Pixel.at 0 INT_MAX],
      INT_MIN ≤ max_y_of [Pixel.at 0 0, Pixel.at 0 INT_MAX] - p.y ∧
      max_y_of [Pixel.at 0 0, Pixel.at 0 INT_MAX] - p.y ≤ INT_MAX ∧
      int_sub (max_y_of [Pixel.at 0 0, Pixel.at 0 INT_MAX]) p.y
        = max_y_of [Pixel.at 0 0, Pixel.at 0 INT_MAX] - p.y) ∧
    flip_vertically [Pixel.at 0 0, Pixel.at 0 INT_MAX]
      = [Pixel.at 0 0, Pixel.at 0 INT_MAX].map
          (fun p => { p with y := max_y_of [Pixel.at 0 0, Pixel.at 0 INT_MAX] - p.y }) ∧
    (max_y_of [Pixel.at 0 INT_MIN, Pixel.at 0 INT_MAX] = INT_MAX ∧
      INT_MAX < max_y_of [Pixel.at 0 INT_MIN, Pixel.at 0 INT_MAX] - (Pixel.at 0 INT_MIN).y ∧
      int_sub (max_y_of [Pixel.at 0 INT_MIN, Pixel.at 0 INT_MAX]) (Pixel.at 0 INT_MIN).y
        ≠ max_y_of [Pixel.at 0 INT_MIN, Pixel.at 0 INT_MAX] - (Pixel.at 0 INT_MIN).y) :=
  flip_no_overflow [Pixel.at 0 0, Pixel.at 0 INT_MAX] (by decide) (by decide)

/-! ## Claims on the aggregator -/

/-- C14: on a single record whose channels are `float` values, with a `long double` of at
least 53 bits, each mean that `average_colors` computes, and the `double` it prints, is the
record's own channel value: the same infinity or NaN, or the same number (a negative zero
gives the mean `+0`). -/
theorem single_record_means (prec : Nat) (p : Pixel) (hp : 53 ≤ prec)
    (hr : p.r.valid = true) (hg : p.g.valid = true) (hb : p.b.valid = true) :
    ∃ lr lg lb,
      channel_means prec [p] = some (lr, lg, lb) ∧
      average_colors prec [p]
        = some (Report.averages (to_double lr) (to_double lg) (to_double lb), [p]) ∧
      same_number lr (widen prec p.r) ∧ same_number lg (widen prec p.g) ∧
      same_number lb (widen prec p.b) ∧
      same_number (to_double lr) (widen 53 p.r) ∧ same_number (to_double lg) (widen 53 p.g) ∧
      same_number (to_double lb) (widen 53 p.b) ∧
      (p.r.is_finite = true → lr.val = p.r.val ∧ (to_double lr).val = p.r.val) ∧
      (p.g.is_finite = true → lg.val = p.g.val ∧ (to_double lg).val = p.g.val) ∧
      (p.b.is_finite = true → lb.val = p.b.val ∧ (to_double lb).val = p.b.val) := by
  obtain ⟨lr, er, sr, dr, vr⟩ := single_mean prec p.r hp hr
  obtain ⟨lg, eg, sg, dg, vg⟩ := single_mean prec p.g hp hg
  obtain ⟨lb, eb, sb, db, vb⟩ := single_mean prec p.b hp hb
  have hs : sum_pass prec [p] (Binary.finite false 0 0, Binary.finite false 0 0,
      Binary.finite false 0 0)
      = (binary_add prec (Binary.finite false 0 0) (widen prec p.r),
        binary_add prec (Binary.finite false 0 0) (widen prec p.g),
        binary_add prec (Binary.finite false 0 0) (widen prec p.b)) := rfl
  have hc : channel_means prec [p] = some (lr, lg, lb) := by
    unfold channel_means
    simp only [hs, List.length_singleton, er, eg, eb]
  have ha : average_colors prec [p]
      = some (Report.averages (to_double lr) (to_double lg) (to_double lb), [p]) := by
    unfold average_colors
    simp only [hc]
  exact ⟨lr, lg, lb, hc, ha, sr, sg, sb, dr, dg, db, vr, vg, vb⟩

/-- The statement of C14 on the record with channels 0.5, 1.0 and 0.0, with a 64-bit
`long double`. -/
theorem single_record_means_witness :
    ∃ lr lg lb,
      channel_means 64 [⟨Float32.finite false 8388608 (-24), Float32.finite false 8388608 (-23),
        Float32.zero, 0, 0⟩] = some (lr, lg, lb) ∧
      average_colors 64 [⟨Float32.finite false 8388608 (-24),
        Float32.finite false 8388608 (-23), Float32.zero, 0, 0⟩]
        = some (Report.averages (to_double lr) (to_double lg) (to_double lb),
            [⟨Float32.finite false 8388608 (-24), Float32.finite false 8388608 (-23),
              Float32.zero, 0, 0⟩]) ∧
      same_number lr (widen 64 (Float32.finite false 8388608 (-24))) ∧
      same_number lg (widen 64 (Float32.finite false 8388608 (-23))) ∧
      same_number lb (widen 64 Float32.zero) ∧
      same_number (to_double lr) (widen 53 (Float32.finite false 8388608 (-24))) ∧
      same_number (to_double lg) (widen 53 (Float32.finite false 8388608 (-23))) ∧
      same_number (to_double lb) (widen 53 Float32.zero) ∧
      ((Float32.finite false 8388608 (-24)).is_finite = true →
        lr.val = (Float32.finite false 8388608 (-24)).val ∧
        (to_double lr).val = (Float32.finite false 8388608 (-24)).val) ∧
      ((Float32.finite false 8388608 (-23)).is_finite = true →
        lg.val = (Float32.finite false 8388608 (-23)).val ∧
        (to_double lg).val = (Float32.finite false 8388608 (-23)).val) ∧
      (Float32.zero.is_finite = true →
        lb.val = Float32.zero.val ∧ (to_double lb).val = Float32.zero.val) :=
  single_record_means 64 ⟨Float32.finite false 8388608 (-24), Float32.finite false 8388608 (-23),
    Float32.zero, 0, 0⟩ (by decide) (by decide) (by decide) (by decide)

/-- C16: with a `long double` of at least one bit, `average_colors` performs no division by
zero: on the empty vector it reports that no pixel is loaded and computes nothing; on a
non-empty vector the divisor, the record count as a `long double`, is not zero and the
three means are reported; and the vector after the call is the vector before it. -/
theorem average_colors_safe (prec : Nat) (l : List Pixel) (hp : 1 ≤ prec) :
    average_colors prec [] = some (Report.no_pixels, []) ∧
    (l ≠ [] → (of_size prec l.length).is_zero = false ∧
      ∃ r g b, average_colors prec l = some (Report.averages r g b, l)) ∧
    (∃ rep, average_colors prec l = some (rep, l)) := by
  have key : l ≠ [] → (of_size prec l.length).is_zero = false ∧
      ∃ r g b, average_colors prec l = some (Report.averages r g b, l) := by
    intro hne
    have hlen : 0 < l.length := List.length_pos.mpr hne
    have hz : (of_size prec l.length).is_zero = false :=
      round_binary_ne_zero prec false l.length 1 hp hlen Nat.one_pos
    refine ⟨hz, ?_⟩
    obtain ⟨cr, hr⟩ := binary_div_some prec
      (sum_pass prec l (Binary.finite false 0 0, Binary.finite false 0 0,
        Binary.finite false 0 0)).1 _ hz
    obtain ⟨cg, hg⟩ := binary_div_some prec
      (sum_pass prec l (Binary.finite false 0 0, Binary.finite false 0 0,
        Binary.finite false 0 0)).2.1 _ hz
    obtain ⟨cb, hb⟩ := binary_div_some prec
      (sum_pass prec l (Binary.finite false 0 0, Binary.finite false 0 0,
        Binary.finite false 0 0)).2.2 _ hz
    have hc : channel_means prec l = some (cr, cg, cb) := by
      simp only [channel_means, hr, hg, hb]
    cases l with
    | nil => exact absurd rfl hne
    | cons p t =>
      have ha : average_colors prec (p :: t)
          = some (Report.averages (to_double cr) (to_double cg) (to_double cb), p :: t) := by
        unfold average_colors
        simp only [hc]
      exact ⟨to_double cr, to_double cg, to_double cb, ha⟩
  refine ⟨rfl, key, ?_⟩
  by_cases hne : l = []
  · rw [hne]; exact ⟨_, rfl⟩
  · obtain ⟨-, r, g, b, h⟩ := key hne
    exact ⟨_, h⟩

/-- The statement of C16 on one record, with a 64-bit `long double`. -/
theorem average_colors_safe_witness :
    average_colors 64 [] = some (Report.no_pixels, []) ∧
    ([Pixel.at 0 0] ≠ [] → (of_size 64 [Pixel.at 0 0].length).is_zero = false ∧
      ∃ r g b, average_colors 64 [Pixel.at 0 0] = some (Report.averages r g b, [Pixel.at 0 0])) ∧
    (∃ rep, average_colors 64 [Pixel.at 0 0] = some (rep, [Pixel.at 0 0])) :=
  average_colors_safe 64 [Pixel.at 0 0] (by decide)

set_option maxRecDepth 100000 in
/-- C15, as stated, fails: the three lines with `r` equal to `2^127`, `1` and `-2^127` are
accepted, and with a 64-bit `long double` their records give the mean `R = 0` in this order
(`2^127 + 1` rounds to `2^127`) but `R = 1/3`, rounded, when the last two are exchanged; the
reports differ also with a 53-bit and with a 113-bit `long double`. -/
theorem means_depend_on_order :
    accepted true (Pixel.at 0 0) "0,0,170141183460469231731687303715884105728,0,0".toList
      = some ⟨Float32.finite false 8388608 104, Float32.zero, Float32.zero, 0, 0⟩ ∧
    accepted true (Pixel.at 0 0) "0,0,1,0,0".toList
      = some ⟨Float32.finite false 8388608 (-23), Float32.zero, Float32.zero, 0, 0⟩ ∧
    accepted true (Pixel.at 0 0) "0,0,-170141183460469231731687303715884105728,0,0".toList
      = some ⟨Float32.finite true 8388608 104, Float32.zero, Float32.zero, 0, 0⟩ ∧
    List.Perm
      [(⟨Float32.finite false 8388608 104, Float32.zero, Float32.zero, 0, 0⟩ : Pixel),
        ⟨Float32.finite false 8388608 (-23), Float32.zero, Float32.zero, 0, 0⟩,
        ⟨Float32.finite true 8388608 104, Float32.zero, Float32.zero, 0, 0⟩]
      [⟨Float32.finite false 8388608 104, Float32.zero, Float32.zero, 0, 0⟩,
        ⟨Float32.finite true 8388608 104, Float32.zero, Float32.zero, 0, 0⟩,
        ⟨Float32.finite false 8388608 (-23), Float32.zero, Float32.zero, 0, 0⟩] ∧
    (average_colors 64
      [⟨Float32.finite false 8388608 104, Float32.zero, Float32.zero, 0, 0⟩,
        ⟨Float32.finite false 8388608 (-23), Float32.zero, Float32.zero, 0, 0⟩,
        ⟨Float32.finite true 8388608 104, Float32.zero, Float32.zero, 0, 0⟩]).map Prod.fst
      = some (Report.averages (Binary.finite false 0 0) (Binary.finite false 0 0)
          (Binary.finite false 0 0)) ∧
    (average_colors 64
      [⟨Float32.finite false 8388608 104, Float32.zero, Float32.zero, 0, 0⟩,
        ⟨Float32.finite true 8388608 104, Float32.zero, Float32.zero, 0, 0⟩,
        ⟨Float32.finite false 8388608 (-23), Float32.zero, Float32.zero, 0, 0⟩]).map Prod.fst
      = some (Report.averages (round_binary 53 false 1 3) (Binary.finite false 0 0)
          (Binary.finite false 0 0)) ∧
    round_binary 53 false 1 3 ≠ Binary.finite false 0 0 ∧
    (average_colors 53
      [⟨Float32.finite false 8388608 104, Float32.zero, Float32.zero, 0, 0⟩,
        ⟨Float32.finite false 8388608 (-23), Float32.zero, Float32.zero, 0, 0⟩,
        ⟨Float32.finite true 8388608 104, Float32.zero, Float32.zero, 0, 0⟩]).map Prod.fst
      ≠ (average_colors 53
      [⟨Float32.finite false 8388608 104, Float32.zero, Float32.zero, 0, 0⟩,
        ⟨Float32.finite true 8388608 104, Float32.zero, Float32.zero, 0, 0⟩,
        ⟨Float32.finite false 8388608 (-23), Float32.zero, Float32.zero, 0, 0⟩]).map Prod.fst ∧
    (average_colors 113
      [⟨Float32.finite false 8388608 104, Float32.zero, Float32.zero, 0, 0⟩,
        ⟨Float32.finite false 8388608 (-23), Float32.zero, Float32.zero, 0, 0⟩,
        ⟨Float32.finite true 8388608 104, Float32.zero, Float32.zero, 0, 0⟩]).map Prod.fst
      ≠ (average_colors 113
      [⟨Float32.finite false 8388608 104, Float32.zero, Float32.zero, 0, 0⟩,
        ⟨Float32.finite true 8388608 104, Float32.zero, Float32.zero, 0, 0⟩,
        ⟨Float32.finite false 8388608 (-23), Float32.zero, Float32.zero, 0, 0⟩]).map
          Prod.fst := by
  refine ⟨by decide, by decide, by decide, ?_, by decide, by decide, by decide, by decide,
    by decide⟩
  exact List.Perm.cons _ (List.Perm.swap _ _ _)

/-- C15, amended: for a sequence of records with finite `float` channels and a permutation
of it, the three means that `average_colors` computes, and the report, are the same
whenever no addition of a channel sum rounds in either order, that is, every partial sum of
each channel, in the order of the sequence and in the order of the permutation, is a number
of the `long double` format. -/
theorem means_perm_of_exact (prec : Nat) (l l' : List Pixel) (hp : 53 ≤ prec)
    (hperm : l.Perm l')
    (hfin : ∀ p ∈ l, (p.r.is_finite = true ∧ p.r.valid = true) ∧
      (p.g.is_finite = true ∧ p.g.valid = true) ∧ (p.b.is_finite = true ∧ p.b.valid = true))
    (hr : exact_sums prec 0 (l.map (fun p => p.r.val)))
    (hr' : exact_sums prec 0 (l'.map (fun p => p.r.val)))
    (hg : exact_sums prec 0 (l.map (fun p => p.g.val)))
    (hg' : exact_sums prec 0 (l'.map (fun p => p.g.val)))
    (hb : exact_sums prec 0 (l.map (fun p => p.b.val)))
    (hb' : exact_sums prec 0 (l'.map (fun p => p.b.val))) :
    channel_means prec l = channel_means prec l' ∧
    (average_colors prec l).map Prod.fst = (average_colors prec l').map Prod.fst := by
  have hp24 : 24 ≤ prec := by omega
  have hp1 : 1 ≤ prec := by omega
  have hz : encodes prec (Binary.finite false 0 0) 0 := Or.inl ⟨rfl, rfl⟩
  have hfin' : ∀ p ∈ l', (p.r.is_finite = true ∧ p.r.valid = true) ∧
      (p.g.is_finite = true ∧ p.g.valid = true) ∧ (p.b.is_finite = true ∧ p.b.valid = true) :=
    fun p hp' => hfin p (hperm.mem_iff.mpr hp')
  have chan : ∀ f : Pixel → Float32,
      (∀ p ∈ l, (f p).is_finite = true ∧ (f p).valid = true) →
      (∀ p ∈ l', (f p).is_finite = true ∧ (f p).valid = true) →
      exact_sums prec 0 (l.map (fun p => (f p).val)) →
      exact_sums prec 0 (l'.map (fun p => (f p).val)) →
      chan_sum prec f l (Binary.finite false 0 0)
        = chan_sum prec f l' (Binary.finite false 0 0) := by
    intro f h1 h2 e1 e2
    have a1 := chan_sum_encodes prec f hp24 l _ 0 hz h1 e1
    have a2 := chan_sum_encodes prec f hp24 l' _ 0 hz h2 e2
    rw [(hperm.map (fun p => (f p).val)).sum_eq] at a1
    exact encodes_unique prec _ _ _ hp1 a1 a2
  have cr := chan Pixel.r (fun p h => (hfin p h).1) (fun p h => (hfin' p h).1) hr hr'
  have cg := chan Pixel.g (fun p h => (hfin p h).2.1) (fun p h => (hfin' p h).2.1) hg hg'
  have cb := chan Pixel.b (fun p h => (hfin p h).2.2) (fun p h => (hfin' p h).2.2) hb hb'
  have hm : channel_means prec l = channel_means prec l' := by
    unfold channel_means
    simp only [sum_pass_chan, cr, cg, cb, hperm.length_eq]
  refine ⟨hm, ?_⟩
  cases l with
  | nil =>
    have : l' = [] := List.Perm.eq_nil (hperm.symm)
    rw [this]
  | cons p t =>
    cases l' with
    | nil => exact absurd (List.Perm.eq_nil hperm) (by simp)
    | cons p' t' =>
      unfold average_colors
      simp only [hm]
      cases channel_means prec (p' :: t') with
      | none => rfl
      | some m => rfl

/-- The amended C15 on the records with `r` equal to 0.5 and 1.0 and on their exchange,
with a 64-bit `long double`. -/
theorem means_perm_of_exact_witness :
    channel_means 64
      [⟨Float32.finite false 8388608 (-24), Float32.finite false 8388608 (-24),
          Float32.finite false 8388608 (-24), 0, 0⟩,
        ⟨Float32.finite false 8388608 (-23), Float32.zero, Float32.zero, 0, 3⟩]
      = channel_means 64
      [⟨Float32.finite false 8388608 (-23), Float32.zero, Float32.zero, 0, 3⟩,
        ⟨Float32.finite false 8388608 (-24), Float32.finite false 8388608 (-24),
          Float32.finite false 8388608 (-24), 0, 0⟩] ∧
    (average_colors 64
      [⟨Float32.finite false 8388608 (-24), Float32.finite false 8388608 (-24),
          Float32.finite false 8388608 (-24), 0, 0⟩,
        ⟨Float32.finite false 8388608 (-23), Float32.zero, Float32.zero, 0, 3⟩]).map Prod.fst
      = (average_colors 64
      [⟨Float32.finite false 8388608 (-23), Float32.zero, Float32.zero, 0, 3⟩,
        ⟨Float32.finite false 8388608 (-24), Float32.finite false 8388608 (-24),
          Float32.finite false 8388608 (-24), 0, 0⟩]).map Prod.fst :=
  means_perm_of_exact 64
    [⟨Float32.finite false 8388608 (-24), Float32.finite false 8388608 (-24),
        Float32.finite false 8388608 (-24), 0, 0⟩,
      ⟨Float32.finite false 8388608 (-23), Float32.zero, Float32.zero, 0, 3⟩]
    [⟨Float32.finite false 8388608 (-23), Float32.zero, Float32.zero, 0, 3⟩,
      ⟨Float32.finite false 8388608 (-24), Float32.finite false 8388608 (-24),
        Float32.finite false 8388608 (-24), 0, 0⟩]
    (by decide) (List.Perm.swap _ _ _) (by decide)
    ⟨⟨1, -1, by norm_num, by norm_num [Float32.val, signed]⟩,
      ⟨3, -1, by norm_num, by norm_num [Float32.val, signed]⟩, trivial⟩
    ⟨⟨1, 0, by norm_num, by norm_num [Float32.val, signed]⟩,
      ⟨3, -1, by norm_num, by norm_num [Float32.val, signed]⟩, trivial⟩
    ⟨⟨1, -1, by norm_num, by norm_num [Float32.val, signed]⟩,
      ⟨1, -1, by norm_num, by norm_num [Float32.val, signed, Float32.zero]⟩, trivial⟩
    ⟨⟨0, 0, by norm_num, by norm_num [Float32.val, signed, Float32.zero]⟩,
      ⟨1, -1, by norm_num, by norm_num [Float32.val, signed, Float32.zero]⟩, trivial⟩
    ⟨⟨1, -1, by norm_num, by norm_num [Float32.val, signed]⟩,
      ⟨1, -1, by norm_num, by norm_num [Float32.val, signed, Float32.zero]⟩, trivial⟩
    ⟨⟨0, 0, by norm_num, by norm_num [Float32.val, signed, Float32.zero]⟩,
      ⟨1, -1, by norm_num, by norm_num [Float32.val, signed, Float32.zero]⟩, trivial⟩

/-! ## Claims on `main` -/

/-- C12: when the input file opens and none of its non-empty lines is accepted by
`parse_pixel_line`, the read loop reads every line (`line_num` is the number of lines) and
ends with `loaded = 0`, and `main` returns the exit code 1 with the message on `std::cerr`,
without opening or writing `flipped.dat`. -/
theorem main_no_valid_line (uf : Bool) (prec : Nat) (px : Pixel) (prog input_path : List Char)
    (more : List (List Char)) (open_in : List Char → Option (List Char)) (out_opens : Bool)
    (ls : List (List Char)) (last : List Char)
    (hls : ∀ l ∈ ls, '\n' ∉ l) (hlast : '\n' ∉ last)
    (hopen : open_in input_path = some (text_of ls last))
    (hbad : ∀ l ∈ nonempty_lines (ls ++ [last]), accepted uf px l = none) :
    main uf prec px (prog :: input_path :: more) open_in out_opens
      = some ⟨1, [], "No valid pixels were read. Aborting.\n".toList, none⟩ ∧
    ∃ st, load uf px (text_of ls last) = some (.ok st) ∧ st.loaded = 0 ∧ st.pixel_list = [] ∧
      st.line_num = (ls ++ (if last = [] then [] else [last])).length ∧
      st.bad = (nonempty_lines (ls ++ [last])).length := by
  have hload := load_text uf px ls last hls hlast
  have hcount : (nonempty_lines (ls ++ [last])).countP (fun l => (accepted uf px l).isSome)
      = 0 := by
    rw [List.countP_eq_zero]
    intro l hl
    rw [hbad l hl]
    simp
  have hcountb : (nonempty_lines (ls ++ [last])).countP (fun l => (accepted uf px l).isNone)
      = (nonempty_lines (ls ++ [last])).length := by
    rw [List.countP_eq_length]
    intro l hl
    rw [hbad l hl]
    rfl
  have hfm : (nonempty_lines (ls ++ [last])).filterMap (accepted uf px) = [] := by
    rw [List.filterMap_eq_nil_iff]
    exact hbad
  have hloaded : (state_after uf px ⟨[], 0, 0, 0⟩
      (ls ++ (if last = [] then [] else [last]))).loaded = 0 := by
    simp only [state_after, nonempty_lines_last, hcount]
  refine ⟨?_, _, hload, hloaded, ?_, ?_, ?_⟩
  · simp only [main, hopen, hload, main_after_load, hloaded, if_true]
  · simp only [state_after, nonempty_lines_last, hfm, List.append_nil]
  · simp only [state_after, Nat.zero_add]
  · simp only [state_after, nonempty_lines_last, hcountb, Nat.zero_add]

/-- The statement of C12 on the file with the two lines `1,2,3` and `abc`. -/
theorem main_no_valid_line_witness :
    main true 64 (Pixel.at 0 0) ["prog".toList, "pixels.dat".toList]
        (fun _ => some (text_of ["1,2,3".toList, "abc".toList] [])) true
      = some ⟨1, [], "No valid pixels were read. Aborting.\n".toList, none⟩ ∧
    ∃ st, load true (Pixel.at 0 0) (text_of ["1,2,3".toList, "abc".toList] []) = some (.ok st) ∧
      st.loaded = 0 ∧ st.pixel_list = [] ∧
      st.line_num = (["1,2,3".toList, "abc".toList] ++ (if ([] : List Char) = [] then []
        else [[]])).length ∧
      st.bad = (nonempty_lines (["1,2,3".toList, "abc".toList] ++ [[]])).length :=
  main_no_valid_line true 64 (Pixel.at 0 0) "prog".toList "pixels.dat".toList []
    (fun _ => some (text_of ["1,2,3".toList, "abc".toList] [])) true
    ["1,2,3".toList, "abc".toList] [] (by decide) (by decide) rfl (by decide)

/-- C20: the body of the read loop keeps the number of records equal to `loaded`, which
holds at the start; so after the loop, on every input, the two are equal. With
`loaded = 0`, `main` returns 1 before the calls; otherwise the record sequence is not
empty, `average_colors` reports three means (not the empty case), the flipped sequence is
not empty, and the text written to `flipped.dat` has `loaded` lines. -/
theorem load_length_invariant (uf : Bool) (prec : Nat) (px : Pixel) (hp : 1 ≤ prec) :
    (∀ (st st' : LoadState) (line : List Char), st.pixel_list.length = st.loaded →
      load_step uf px st line = .ok st' → st'.pixel_list.length = st'.loaded) ∧
    (∀ fin : List Char, ∃ st, load uf px fin = some (.ok st) ∧
      st.pixel_list.length = st.loaded ∧
      (st.loaded = 0 → ∀ out_opens, main_after_load prec st out_opens
        = some ⟨1, [], "No valid pixels were read. Aborting.\n".toList, none⟩) ∧
      (st.loaded ≠ 0 → st.pixel_list ≠ [] ∧
        (∃ r g b, average_colors prec st.pixel_list
          = some (Report.averages r g b, st.pixel_list)) ∧
        flip_vertically st.pixel_list ≠ [] ∧
        (∃ cout, main_after_load prec st true
          = some ⟨0, cout, [],
              some ((flip_vertically st.pixel_list).map render_pixel).flatten⟩) ∧
        (((flip_vertically st.pixel_list).map render_pixel).flatten).count '\n'
          = st.loaded)) := by
  constructor
  · intro st st' line hinv hstep
    rw [load_step_ok] at hstep
    rw [← Except.ok.inj hstep]
    exact state_after_length uf px st [line] hinv
  · intro fin
    obtain ⟨ls, last, hls, hlast, e⟩ := every_text fin
    have hload := load_text uf px ls last hls hlast
    rw [← e] at hload
    have hinv := state_after_length uf px ⟨[], 0, 0, 0⟩
      (ls ++ (if last = [] then [] else [last])) rfl
    generalize state_after uf px ⟨[], 0, 0, 0⟩ (ls ++ (if last = [] then [] else [last])) = st
      at hload hinv
    refine ⟨st, hload, hinv, ?_, ?_⟩
    · intro h0 out_opens
      simp only [main_after_load, h0, if_true]
    · intro hn0
      have hne : st.pixel_list ≠ [] := by
        intro hnil
        rw [hnil] at hinv
        exact hn0 hinv.symm
      obtain ⟨r, g, b, havg⟩ := average_colors_nonempty prec st.pixel_list hp hne
      have hfl : flip_vertically st.pixel_list ≠ [] := by
        intro hnil
        have := flip_vertically_length st.pixel_list
        rw [hnil] at this
        exact hne (List.length_eq_zero.mp this.symm)
      refine ⟨hne, ⟨r, g, b, havg⟩, hfl, ?_, ?_⟩
      · unfold main_after_load
        rw [if_neg hn0]
        simp only [havg, if_true]
        exact ⟨_, rfl⟩
      · rw [written_lines_count, flip_vertically_length, hinv]

/-- C11: on the input `0,0,0.5,0.5,0.5` / `0,3,1.0,0.0,0.0`, with a `long double` of at
least 53 bits: the read loop ends with the two records, `loaded = 2` and `bad = 0`; the
means reported are the `double`s 0.75, 0.25 and 0.25; `max_y` is 3 and the flipped records
have `y = 3` and `y = 0`, in input order, with `x` and the channels unchanged; and `main`
returns 0, having printed these means and written these two records to `flipped.dat`. -/
theorem end_to_end (uf : Bool) (prec : Nat) (px : Pixel) (prog input_path : List Char)
    (more : List (List Char)) (open_in : List Char → Option (List Char)) (hp : 53 ≤ prec)
    (hopen : open_in input_path = some "0,0,0.5,0.5,0.5\n0,3,1.0,0.0,0.0\n".toList) :
    load uf px "0,0,0.5,0.5,0.5\n0,3,1.0,0.0,0.0\n".toList
      = some (.ok ⟨[⟨Float32.finite false 8388608 (-24), Float32.finite false 8388608 (-24),
            Float32.finite false 8388608 (-24), 0, 0⟩,
          ⟨Float32.finite false 8388608 (-23), Float32.zero, Float32.zero, 0, 3⟩], 2, 2, 0⟩) ∧
    (Float32.finite false 8388608 (-24)).val = 1 / 2 ∧
    (Float32.finite false 8388608 (-23)).val = 1 ∧ Float32.zero.val = 0 ∧
    average_colors prec
      [⟨Float32.finite false 8388608 (-24), Float32.finite false 8388608 (-24),
          Float32.finite false 8388608 (-24), 0, 0⟩,
        ⟨Float32.finite false 8388608 (-23), Float32.zero, Float32.zero, 0, 3⟩]
      = some (Report.averages (round_binary 53 false 3 4) (round_binary 53 false 1 4)
          (round_binary 53 false 1 4),
        [⟨Float32.finite false 8388608 (-24), Float32.finite false 8388608 (-24),
            Float32.finite false 8388608 (-24), 0, 0⟩,
          ⟨Float32.finite false 8388608 (-23), Float32.zero, Float32.zero, 0, 3⟩]) ∧
    (round_binary 53 false 3 4).val = 3 / 4 ∧ (round_binary 53 false 1 4).val = 1 / 4 ∧
    max_y_of
      [⟨Float32.finite false 8388608 (-24), Float32.finite false 8388608 (-24),
          Float32.finite false 8388608 (-24), 0, 0⟩,
        ⟨Float32.finite false 8388608 (-23), Float32.zero, Float32.zero, 0, 3⟩] = 3 ∧
    flip_vertically
      [⟨Float32.finite false 8388608 (-24), Float32.finite false 8388608 (-24),
          Float32.finite false 8388608 (-24), 0, 0⟩,
        ⟨Float32.finite false 8388608 (-23), Float32.zero, Float32.zero, 0, 3⟩]
      = [⟨Float32.finite false 8388608 (-24), Float32.finite false 8388608 (-24),
            Float32.finite false 8388608 (-24), 0, 3⟩,
          ⟨Float32.finite false 8388608 (-23), Float32.zero, Float32.zero, 0, 0⟩] ∧
    main uf prec px (prog :: input_path :: more) open_in true
      = some ⟨0, ("Loaded 2 pixels.\nAverage R: 0.750000\nAverage G: 0.250000\n"
            ++ "Average B: 0.250000\nWrote flipped pixels to 'flipped.dat'.\n").toList, [],
          some ("0,3,0.5000000000000000,0.5000000000000000,0.5000000000000000\n"
            ++ "0,0,1.0000000000000000,0.0000000000000000,0.0000000000000000\n").toList⟩ := by
  have h34 := encodes_val _ _ _ (double_of_fraction 3 4 (by norm_num) (by norm_num)
    ⟨3, -2, by norm_num, by norm_num⟩)
  have h14 := encodes_val _ _ _ (double_of_fraction 1 4 (by norm_num) (by norm_num)
    ⟨1, -2, by norm_num, by norm_num⟩)
  refine ⟨load_two_lines uf px, by norm_num [Float32.val, signed],
    by norm_num [Float32.val, signed], by norm_num [Float32.val, signed, Float32.zero],
    average_two_records prec hp, by simpa using h34, by simpa using h14, by decide, by decide,
    ?_⟩
  simp only [main, hopen, load_two_lines, main_after_load, average_two_records prec hp]
  decide

/-- The statement of C11 with a 64-bit `long double`, on a file system whose every path
opens the input. -/
theorem end_to_end_witness :
    load true (Pixel.at 0 0) "0,0,0.5,0.5,0.5\n0,3,1.0,0.0,0.0\n".toList
      = some (.ok ⟨[⟨Float32.finite false 8388608 (-24), Float32.finite false 8388608 (-24),
            Float32.finite false 8388608 (-24), 0, 0⟩,
          ⟨Float32.finite false 8388608 (-23), Float32.zero, Float32.zero, 0, 3⟩], 2, 2, 0⟩) ∧
    (Float32.finite false 8388608 (-24)).val = 1 / 2 ∧
    (Float32.finite false 8388608 (-23)).val = 1 ∧ Float32.zero.val = 0 ∧
    average_colors 64
      [⟨Float32.finite false 8388608 (-24), Float32.finite false 8388608 (-24),
          Float32.finite false 8388608 (-24), 0, 0⟩,
        ⟨Float32.finite false 8388608 (-23), Float32.zero, Float32.zero, 0, 3⟩]
      = some (Report.averages (round_binary 53 false 3 4) (round_binary 53 false 1 4)
          (round_binary 53 false 1 4),
        [⟨Float32.finite false 8388608 (-24), Float32.finite false 8388608 (-24),
            Float32.finite false 8388608 (-24), 0, 0⟩,
          ⟨Float32.finite false 8388608 (-23), Float32.zero, Float32.zero, 0, 3⟩]) ∧
    (round_binary 53 false 3 4).val = 3 / 4 ∧ (round_binary 53 false 1 4).val = 1 / 4 ∧
    max_y_of
      [⟨Float32.finite false 8388608 (-24), Float32.finite false 8388608 (-24),
          Float32.finite false 8388608 (-24), 0, 0⟩,
        ⟨Float32.finite false 8388608 (-23), Float32.zero, Float32.zero, 0, 3⟩] = 3 ∧
    flip_vertically
      [⟨Float32.finite false 8388608 (-24), Float32.finite false 8388608 (-24),
          Float32.finite false 8388608 (-24), 0, 0⟩,
        ⟨Float32.finite false 8388608 (-23), Float32.zero, Float32.zero, 0, 3⟩]
      = [⟨Float32.finite false 8388608 (-24), Float32.finite false 8388608 (-24),
            Float32.finite false 8388608 (-24), 0, 3⟩,
          ⟨Float32.finite false 8388608 (-23), Float32.zero, Float32.zero, 0, 0⟩] ∧
    main true 64 (Pixel.at 0 0) ["prog".toList, "pixels.dat".toList]
        (fun _ => some "0,0,0.5,0.5,0.5\n0,3,1.0,0.0,0.0\n".toList) true
      = some ⟨0, ("Loaded 2 pixels.\nAverage R: 0.750000\nAverage G: 0.250000\n"
            ++ "Average B: 0.250000\nWrote flipped pixels to 'flipped.dat'.\n").toList, [],
          some ("0,3,0.5000000000000000,0.5000000000000000,0.5000000000000000\n"
            ++ "0,0,1.0000000000000000,0.0000000000000000,0.0000000000000000\n").toList⟩ :=
  end_to_end true 64 (Pixel.at 0 0) "prog".toList "pixels.dat".toList []
    (fun _ => some "0,0,0.5,0.5,0.5\n0,3,1.0,0.0,0.0\n".toList) (by decide) rfl

/-- The statement of C20 with a 64-bit `long double`. -/
theorem load_length_invariant_witness :
    (∀ (st st' : LoadState) (line : List Char), st.pixel_list.length = st.loaded →
      load_step true (Pixel.at 0 0) st line = .ok st' → st'.pixel_list.length = st'.loaded) ∧
    (∀ fin : List Char, ∃ st, load true (Pixel.at 0 0) fin = some (.ok st) ∧
      st.pixel_list.length = st.loaded ∧
      (st.loaded = 0 → ∀ out_opens, main_after_load 64 st out_opens
        = some ⟨1, [], "No valid pixels were read. Aborting.\n".toList, none⟩) ∧
      (st.loaded ≠ 0 → st.pixel_list ≠ [] ∧
        (∃ r g b, average_colors 64 st.pixel_list
          = some (Report.averages r g b, st.pixel_list)) ∧
        flip_vertically st.pixel_list ≠ [] ∧
        (∃ cout, main_after_load 64 st true
          = some ⟨0, cout, [],
              some ((flip_vertically st.pixel_list).map render_pixel).flatten⟩) ∧
        (((flip_vertically st.pixel_list).map render_pixel).flatten).count '\n'
          = st.loaded)) :=
  load_length_invariant true 64 (Pixel.at 0 0) (by decide)

/-! ## Claims on the writer -/

/-- C13: for a line of two integer literals in the range of `int` and three decimal
floating-point literals, the record after `parse_pixel_line` has `x` and `y` equal to the
integers of the first two fields; the line that the writer puts out for that record starts
with the plain base-10 texts of these two integers (no leading zero, a sign only when
negative), each followed by a comma; and the record after parsing the written line has the
same `x` and `y`. When the three floating-point literals are in the range of `float`, both
calls return `true`. -/
theorem write_then_parse (uf : Bool) (x y : IntLit) (r g b : FloatLit) (out out' : Pixel)
    (hx : x.well_formed = true) (hxr : INT_MIN ≤ x.value ∧ x.value ≤ INT_MAX)
    (hy : y.well_formed = true) (hyr : INT_MIN ≤ y.value ∧ y.value ≤ INT_MAX)
    (hr : r.well_formed = true) (hg : g.well_formed = true) (hb : b.well_formed = true) :
    ∃ flag p, parse_pixel_line uf
        (x.text ++ ',' :: (y.text ++ ',' :: (r.text ++ ',' :: (g.text ++ ',' :: b.text)))) out
        = .ok (flag, p) ∧ p.x = x.value ∧ p.y = y.value ∧
      ∃ tr tg tb, render_pixel p = render_int x.value ++ ',' :: (render_int y.value ++ ',' ::
          (tr ++ ',' :: (tg ++ ',' :: (tb ++ ['\n'])))) ∧
        is_plain_decimal x.value (render_int x.value) ∧
        is_plain_decimal y.value (render_int y.value) ∧
        ∃ flag' p', parse_pixel_line uf (render_int x.value ++ ',' :: (render_int y.value ++ ',' ::
            (tr ++ ',' :: (tg ++ ',' :: tb)))) out' = .ok (flag', p') ∧
          p'.x = x.value ∧ p'.y = y.value ∧
          (r.in_range → g.in_range → b.in_range → flag = true ∧ flag' = true) := by
  have cx := literal_no_comma _ (x.int_text_literal hx)
  have cy := literal_no_comma _ (y.int_text_literal hy)
  have cr := literal_no_comma _ (r.float_text_literal hr)
  have cg := literal_no_comma _ (g.float_text_literal hg)
  have e1 := parse_pixel_line_fields uf _ _ _ _ b.text out cx cy cr cg
  have xy1 := convert_fields_xy uf x.text y.text r.text g.text b.text out x.value y.value
    (stoi_literal x hx hxr) (stoi_literal y hy hyr)
  rcases hcf : convert_fields uf x.text y.text r.text g.text b.text out with ⟨flag, p⟩
  rw [hcf] at e1 xy1
  have e2 := parse_pixel_line_fields uf (render_int x.value) (render_int y.value)
    (render_fixed 16 (widen 53 p.r)) (render_fixed 16 (widen 53 p.g))
    (render_fixed 16 (widen 53 p.b)) out' (render_int_no_sep x.value).1
    (render_int_no_sep y.value).1 (render_fixed_no_sep 16 _).1 (render_fixed_no_sep 16 _).1
  have xy2 := convert_fields_xy uf (render_int x.value) (render_int y.value)
    (render_fixed 16 (widen 53 p.r)) (render_fixed 16 (widen 53 p.g))
    (render_fixed 16 (widen 53 p.b)) out' x.value y.value
    (stoi_render_int x.value hxr) (stoi_render_int y.value hyr)
  rcases hcf2 : convert_fields uf (render_int x.value) (render_int y.value)
    (render_fixed 16 (widen 53 p.r)) (render_fixed 16 (widen 53 p.g))
    (render_fixed 16 (widen 53 p.b)) out' with ⟨flag', p'⟩
  rw [hcf2] at e2 xy2
  have hren : render_pixel p = render_int x.value ++ ',' :: (render_int y.value ++ ',' ::
      (render_fixed 16 (widen 53 p.r) ++ ',' :: (render_fixed 16 (widen 53 p.g) ++ ',' ::
        (render_fixed 16 (widen 53 p.b) ++ ['\n'])))) := by
    have h1 : p.x = x.value := xy1.1
    have h2 : p.y = y.value := xy1.2
    rw [render_pixel, h1, h2]
  refine ⟨flag, p, e1, xy1.1, xy1.2, _, _, _, hren, render_int_plain x.value,
    render_int_plain y.value, flag', p', e2, xy2.1, xy2.2, ?_⟩
  intro hrr hgr hbr
  obtain ⟨fr, fg, fb, er, eg, eb, hp⟩ :=
    parse_well_formed uf x y r g b out hx hxr hy hyr hr hrr hg hgr hb hbr
  rw [e1] at hp
  have hpair : (flag, p) = (true, (⟨fr, fg, fb, x.value, y.value⟩ : Pixel)) := Except.ok.inj hp
  have hflag : flag = true := congrArg Prod.fst hpair
  have hpe : p = ⟨fr, fg, fb, x.value, y.value⟩ := congrArg Prod.snd hpair
  have hpr : p.r = fr := by rw [hpe]
  have hpg : p.g = fg := by rw [hpe]
  have hpb : p.b = fb := by rw [hpe]
  obtain ⟨fr', er'⟩ := stof_round_trip uf r hr hrr fr er
  obtain ⟨fg', eg'⟩ := stof_round_trip uf g hg hgr fg eg
  obtain ⟨fb', eb'⟩ := stof_round_trip uf b hb hbr fb eb
  rw [← hpr] at er'
  rw [← hpg] at eg'
  rw [← hpb] at eb'
  have h2 := (convert_fields_true uf (render_int x.value) (render_int y.value)
    (render_fixed 16 (widen 53 p.r)) (render_fixed 16 (widen 53 p.g))
    (render_fixed 16 (widen 53 p.b)) out' ⟨fr', fg', fb', x.value, y.value⟩).mpr
    ⟨x.value, y.value, fr', fg', fb', stoi_render_int x.value hxr, stoi_render_int y.value hyr,
      er', eg', eb', rfl⟩
  rw [hcf2] at h2
  exact ⟨hflag, congrArg Prod.fst h2⟩

/-- The statement of C13 on the line `0,-3,1.0,0.0,2.5e-1`, whose three floating-point
literals are in range. -/
theorem write_then_parse_witness :
    (FloatLit.mk none "1".toList (some "0".toList) none).in_range ∧
    (FloatLit.mk none "0".toList (some "0".toList) none).in_range ∧
    (FloatLit.mk none "2".toList (some "5".toList)
      (some (false, ⟨some true, "1".toList⟩))).in_range ∧
    ∃ flag p, parse_pixel_line true
        ((IntLit.mk none "0".toList).text ++ ',' :: ((IntLit.mk (some true) "3".toList).text
          ++ ',' :: ((FloatLit.mk none "1".toList (some "0".toList) none).text ++ ',' ::
          ((FloatLit.mk none "0".toList (some "0".toList) none).text ++ ',' ::
            (FloatLit.mk none "2".toList (some "5".toList)
              (some (false, ⟨some true, "1".toList⟩))).text)))) (Pixel.at 7 7)
        = .ok (flag, p) ∧ p.x = (IntLit.mk none "0".toList).value ∧
      p.y = (IntLit.mk (some true) "3".toList).value ∧
      ∃ tr tg tb, render_pixel p = render_int (IntLit.mk none "0".toList).value ++ ',' ::
          (render_int (IntLit.mk (some true) "3".toList).value ++ ',' ::
          (tr ++ ',' :: (tg ++ ',' :: (tb ++ ['\n'])))) ∧
        is_plain_decimal (IntLit.mk none "0".toList).value
          (render_int (IntLit.mk none "0".toList).value) ∧
        is_plain_decimal (IntLit.mk (some true) "3".toList).value
          (render_int (IntLit.mk (some true) "3".toList).value) ∧
        ∃ flag' p', parse_pixel_line true (render_int (IntLit.mk none "0".toList).value ++ ',' ::
            (render_int (IntLit.mk (some true) "3".toList).value ++ ',' ::
            (tr ++ ',' :: (tg ++ ',' :: tb)))) (Pixel.at 9 9) = .ok (flag', p') ∧
          p'.x = (IntLit.mk none "0".toList).value ∧
          p'.y = (IntLit.mk (some true) "3".toList).value ∧
          ((FloatLit.mk none "1".toList (some "0".toList) none).in_range →
            (FloatLit.mk none "0".toList (some "0".toList) none).in_range →
            (FloatLit.mk none "2".toList (some "5".toList)
              (some (false, ⟨some true, "1".toList⟩))).in_range →
            flag = true ∧ flag' = true) :=
  ⟨by
      simp [FloatLit.in_range, FloatLit.magnitude, FloatLit.frac_digits, FloatLit.exp_value,
        decimal_value, Nat.ofDigits, FLT_MIN, FLT_MAX]
      norm_num,
    by
      simp [FloatLit.in_range, FloatLit.magnitude, FloatLit.frac_digits, FloatLit.exp_value,
        decimal_value, Nat.ofDigits, FLT_MIN, FLT_MAX],
    by
      simp [FloatLit.in_range, FloatLit.magnitude, FloatLit.frac_digits, FloatLit.exp_value,
        IntLit.value, decimal_value, Nat.ofDigits, FLT_MIN, FLT_MAX]
      norm_num,
    write_then_parse true ⟨none, "0".toList⟩ ⟨some true, "3".toList⟩
      ⟨none, "1".toList, some "0".toList, none⟩ ⟨none, "0".toList, some "0".toList, none⟩
      ⟨none, "2".toList, some "5".toList, some (false, ⟨some true, "1".toList⟩)⟩
      (Pixel.at 7 7) (Pixel.at 9 9)
      (by decide) (by decide) (by decide) (by decide) (by decide) (by decide) (by decide)⟩

end PixelFlip
